import Mathlib

/-!
Verification development for the WordPress content-transform pipeline
(`scripts/wp_transform.py`, `scripts/wp_export.py`).

The Python code rewrites content bodies with chains of `re.sub` calls.  We
embed the relevant fragment of Python's `re` semantics shallowly: patterns
are lists of items (literals, character classes, greedy/lazy repetition of a
character class, optional items, and one level of capturing groups over such
items), matched by a backtracking matcher that returns all matches in
Python's backtracking priority order; the first element is the match Python
picks.  Substitution scans left to right exactly like `re.sub`.

All definitions are fuel-free or fueled structurally so that every function
is kernel-computable (`decide` works on concrete inputs).
-/

namespace WPT

/-! ### Character classes (ASCII fragment of Python's `\s`, `\w`, `\d`) -/

/-- Python `\s` on ASCII text: space, tab, newline, carriage return,
vertical tab, form feed. -/
def isWS (c : Char) : Bool :=
  c = ' ' || c = '\t' || c = '\n' || c = '\r' || c = '\x0b' || c = '\x0c'

/-- Horizontal whitespace `[ \t]`. -/
def isHT (c : Char) : Bool := c = ' ' || c = '\t'

/-- Python `\d` on ASCII text. -/
def isDigitC (c : Char) : Bool := '0' ≤ c && c ≤ '9'

/-- Python `\w` on ASCII text: letters, digits, underscore. -/
def isWordC (c : Char) : Bool :=
  isDigitC c || ('a' ≤ c && c ≤ 'z') || ('A' ≤ c && c ≤ 'Z') || c = '_'

/-! ### Pattern syntax

`SItem` is a single pattern element without groups; `Item` adds one level of
capturing groups (no pattern in the source nests groups). -/

inductive SItem where
  | lit (c : Char)
  | cls (f : Char → Bool)
  | star (f : Char → Bool) (greedy : Bool)
  | plus (f : Char → Bool)
  | opt (f : Char → Bool)

inductive Item where
  | simple (it : SItem)
  | group (sub : List SItem)

abbrev Pat := List Item

/-- Splits `(w.take k, w.drop k ++ r)` for `k = 0, 1, …, |w|`, shortest
consumed prefix first (the priority order of a lazy star whose maximal run
is `w`). -/
def splitsAsc : List Char → List Char → List (List Char × List Char)
  | [], r => [([], r)]
  | c :: w, r => ([], c :: (w ++ r)) :: (splitsAsc w r).map (fun p => (c :: p.1, p.2))

/-- All ways a single pattern element can consume a prefix of `s`, in
Python's backtracking priority order (first = tried first). -/
def sAlts : SItem → List Char → List (List Char × List Char)
  | .lit _, [] => []
  | .lit c, d :: s => if d = c then [([d], s)] else []
  | .cls _, [] => []
  | .cls f, d :: s => if f d then [([d], s)] else []
  | .star f greedy, s =>
      let w := s.takeWhile f
      let r := s.dropWhile f
      if greedy then (splitsAsc w r).reverse else splitsAsc w r
  | .plus f, s =>
      let w := s.takeWhile f
      let r := s.dropWhile f
      ((splitsAsc w r).reverse).filter (fun p => !p.1.isEmpty)
  | .opt _, [] => [([], [])]
  | .opt f, d :: s => if f d then [([d], s), ([], d :: s)] else [([], d :: s)]

/-- All matches of a group-free pattern against a prefix of `s`:
`(consumed, rest)` pairs in priority order. -/
def matchS : List SItem → List Char → List (List Char × List Char)
  | [], s => [([], s)]
  | it :: its, s =>
      (sAlts it s).flatMap (fun p =>
        (matchS its p.2).map (fun q => (p.1 ++ q.1, q.2)))

/-- All matches of a pattern with groups: `(consumed, captures, rest)`
triples in priority order.  Captures are listed in group order. -/
def matchP : Pat → List Char → List (List Char × List (List Char) × List Char)
  | [], s => [([], [], s)]
  | .simple it :: its, s =>
      (sAlts it s).flatMap (fun p =>
        (matchP its p.2).map (fun q => (p.1 ++ q.1, q.2.1, q.2.2)))
  | .group sub :: its, s =>
      (matchS sub s).flatMap (fun p =>
        (matchP its p.2).map (fun q => (p.1 ++ q.1, p.1 :: q.2.1, q.2.2)))

/-- The match Python's engine picks at this position (leftmost is handled by
the scanning functions below). -/
def firstM (p : Pat) (s : List Char) : Option (List Char × List (List Char) × List Char) :=
  (matchP p s).head?

/-! ### `re.sub`, `re.search` and the scanning pass -/

/-- Replacement templates: literal text interleaved with `\i` group
references (1-based, as in Python). -/
inductive TItem where
  | litS (w : List Char)
  | ref (i : Nat)

/-- Instantiate a template with the captures of a match. -/
def instT (tmpl : List TItem) (g : List (List Char)) : List Char :=
  tmpl.flatMap fun t =>
    match t with
    | .litS w => w
    | .ref i => g.getD (i - 1) []

/-- `re.sub` with a total replacement function, fueled (fuel `≥ |s| + 1`
never runs out because every step either consumes a matched non-empty
prefix or one character). -/
def subTF (p : Pat) (repl : List (List Char) → List Char) : Nat → List Char → List Char
  | 0, s => s
  | n + 1, s =>
      match firstM p s with
      | some (c, g, r) =>
          if c.isEmpty then
            match s with
            | [] => repl g
            | d :: s' => repl g ++ d :: subTF p repl n s'
          else repl g ++ subTF p repl n r
      | none =>
          match s with
          | [] => []
          | d :: s' => d :: subTF p repl n s'

/-- `re.sub` with a template replacement. -/
def pySub (p : Pat) (tmpl : List TItem) (s : List Char) : List Char :=
  subTF p (instT tmpl) (s.length + 1) s

/-- `re.sub` with a replacement function that can raise (models a Python
exception propagating out of the whole call as `none`). -/
def subOF (p : Pat) (repl : List (List Char) → Option (List Char)) :
    Nat → List Char → Option (List Char)
  | 0, s => some s
  | n + 1, s =>
      match firstM p s with
      | some (c, g, r) =>
          match repl g with
          | none => none
          | some t =>
              if c.isEmpty then
                match s with
                | [] => some t
                | d :: s' => (subOF p repl n s').map (fun u => t ++ d :: u)
              else (subOF p repl n r).map (fun u => t ++ u)
      | none =>
          match s with
          | [] => some []
          | d :: s' => (subOF p repl n s').map (fun u => d :: u)

/-- `re.sub` with a possibly-raising replacement function. -/
def pySubO (p : Pat) (repl : List (List Char) → Option (List Char)) (s : List Char) :
    Option (List Char) :=
  subOF p repl (s.length + 1) s

/-- `re.search`: captures of the leftmost match, if any. -/
def searchF (p : Pat) : Nat → List Char → Option (List (List Char))
  | 0, _ => none
  | n + 1, s =>
      match firstM p s with
      | some (_, g, _) => some g
      | none =>
          match s with
          | [] => none
          | _ :: s' => searchF p n s'

/-- `re.search` wrapper. -/
def pySearch (p : Pat) (s : List Char) : Option (List (List Char)) :=
  searchF p (s.length + 1) s

/-- The group-1 captures of every match found by a left-to-right `re.sub`
scan (models the first, non-mutating tracking pass of
`convert_vc_shortcodes`, which calls `re.sub` only for its side effect). -/
def scanF (p : Pat) : Nat → List Char → List (List Char)
  | 0, _ => []
  | n + 1, s =>
      match firstM p s with
      | some (c, g, r) =>
          if c.isEmpty then
            match s with
            | [] => [g.getD 0 []]
            | _ :: s' => g.getD 0 [] :: scanF p n s'
          else g.getD 0 [] :: scanF p n r
      | none =>
          match s with
          | [] => []
          | _ :: s' => scanF p n s'

/-- Scanning wrapper. -/
def pyScan (p : Pat) (s : List Char) : List (List Char) :=
  scanF p (s.length + 1) s

/-- Literal string as a pattern. -/
def litsP (w : List Char) : Pat := w.map (fun c => Item.simple (SItem.lit c))

/-- Literal string as a template. -/
def tLit (w : List Char) : List TItem := [TItem.litS w]

/-- Shorthand for string literals as character lists. -/
def toL (s : String) : List Char := s.toList

/-! ### Python string primitives -/

/-- Drop trailing characters satisfying `f`. -/
def dropTrail (f : Char → Bool) (s : List Char) : List Char :=
  (s.reverse.dropWhile f).reverse

/-- Python `str.strip()` (whitespace both ends). -/
def pyStrip (s : List Char) : List Char :=
  dropTrail isWS (s.dropWhile isWS)

/-- Python `str.strip('-')`. -/
def pyStripChar (c : Char) (s : List Char) : List Char :=
  dropTrail (fun d => d = c) (s.dropWhile (fun d => d = c))

/-- Python `str.replace(needle, rep)` for a non-empty needle: leftmost,
non-overlapping, fueled (fuel `≥ |s| + 1` suffices). -/
def pyReplaceF (ned rep : List Char) : Nat → List Char → List Char
  | 0, s => s
  | n + 1, s =>
      if ned.isPrefixOf s ∧ ¬ ned.isEmpty then
        rep ++ pyReplaceF ned rep n (s.drop ned.length)
      else
        match s with
        | [] => []
        | c :: s' => c :: pyReplaceF ned rep n s'

/-- Python `str.replace` wrapper. -/
def pyReplace (ned rep s : List Char) : List Char :=
  pyReplaceF ned rep (s.length + 1) s

/-- Whether `w` occurs contiguously in `s` (Python's `w in s`). -/
def containsSeq (w : List Char) : List Char → Bool
  | [] => w.isEmpty
  | c :: s => w.isPrefixOf (c :: s) || containsSeq w s

/-- Python `str.split(sep)` for a non-empty separator, fueled. -/
def pySplitGo (sep : List Char) : Nat → List Char → List Char → List (List Char)
  | 0, acc, s => [acc.reverse ++ s]
  | n + 1, acc, s =>
      if sep.isPrefixOf s ∧ ¬ sep.isEmpty then
        acc.reverse :: pySplitGo sep n [] (s.drop sep.length)
      else
        match s with
        | [] => [acc.reverse]
        | c :: s' => pySplitGo sep n (c :: acc) s'

/-- Python `str.split(sep)` wrapper. -/
def pySplit (sep s : List Char) : List (List Char) :=
  pySplitGo sep (s.length + 1) [] s

/-- Number of whitespace-separated words (`len(str.split())`). -/
def wordCountGo (inWord : Bool) : List Char → Nat
  | [] => 0
  | c :: s =>
      if isWS c then wordCountGo false s
      else (if inWord then 0 else 1) + wordCountGo true s

/-- Word count of a string, Python `len(s.split())`. -/
def wordCount (s : List Char) : Nat := wordCountGo false s

/-- Decimal digits of a natural number (Python `str(n)` for `n ≥ 0`),
fueled on the number itself. -/
def natDigitsF : Nat → Nat → List Char
  | 0, _ => []
  | fuel + 1, n =>
      if n < 10 then [Nat.digitChar n]
      else natDigitsF fuel (n / 10) ++ [Nat.digitChar (n % 10)]

/-- Decimal representation of a natural number. -/
def natDigits (n : Nat) : List Char := natDigitsF (n + 1) n

/-- Python `str(i)` for an integer. -/
def intStr (i : Int) : List Char :=
  if i < 0 then '-' :: natDigits i.natAbs else natDigits i.natAbs

/-- Value of a non-empty, all-digit string. -/
def digitsValGo (acc : Nat) : List Char → Option Nat
  | [] => some acc
  | c :: s => if isDigitC c then digitsValGo (acc * 10 + (c.toNat - 48)) s else none

/-- Python `int(str)` restricted to an optional sign followed by decimal
digits (whitespace padding and underscore separators are not modelled; no
call site in the source feeds them). `none` models a raised `ValueError`. -/
def pyIntParse (s : List Char) : Option Int :=
  match s with
  | [] => none
  | c :: rest =>
      if c = '-' then
        if rest.isEmpty then none else (digitsValGo 0 rest).map (fun n => -(n : Int))
      else if c = '+' then
        if rest.isEmpty then none else (digitsValGo 0 rest).map (fun n => (n : Int))
      else (digitsValGo 0 (c :: rest)).map (fun n => (n : Int))

/-- Python `round(n / d)` for naturals with `d > 0`, computed exactly on
the rational value: round half to even, as Python's `round` does.  (The
source divides two Python floats; for the small word counts involved the
double result is exact enough that the exact-rational model is faithful.) -/
def pyRoundDiv (n d : Nat) : Nat :=
  let q := n / d
  let r := n % d
  if 2 * r < d then q
  else if 2 * r > d then q + 1
  else if q % 2 = 0 then q else q + 1

/-! ### Python `html.unescape` (the fragment the source can exercise)

The CPython implementation replaces `&#…;` numeric character references and
named references drawn from the full HTML5 entity table, longest prefix
first, with or without a trailing semicolon.  We embed the scanning logic
faithfully and restrict the table to the core entities; the full table is
external data not part of this repository. -/

/-- Characters allowed inside a named reference: CPython's `[^\t\n\f <&#;]`. -/
def isEntChar (c : Char) : Bool :=
  !(c = '\t' || c = '\n' || c = '\x0c' || c = ' ' || c = '<' || c = '&' || c = '#' || c = ';')

/-- Core of the HTML5 named-entity table (semicolon-less variants included,
as in the standard). -/
def entTable : List (List Char × List Char) :=
  [(toL "amp;", toL "&"), (toL "amp", toL "&"),
   (toL "lt;", toL "<"), (toL "lt", toL "<"),
   (toL "gt;", toL ">"), (toL "gt", toL ">"),
   (toL "quot;", toL "\""), (toL "quot", toL "\""),
   (toL "apos;", toL "'"),
   (toL "nbsp;", toL " "), (toL "nbsp", toL " "),
   (toL "hellip;", toL "…"),
   (toL "rsquo;", toL "’"), (toL "lsquo;", toL "‘"),
   (toL "rdquo;", toL "”"), (toL "ldquo;", toL "“"),
   (toL "ndash;", toL "–"), (toL "mdash;", toL "—")]

/-- Table lookup. -/
def entLookup (key : List Char) : Option (List Char) :=
  (entTable.find? (fun p => p.1 = key)).map (·.2)

/-- CPython fallback: longest table prefix of the candidate, length down to
2; the unmatched tail is emitted literally. -/
def entPrefTry (s : List Char) : Nat → Option (List Char)
  | 0 => none
  | k + 1 =>
      if k + 1 < 2 then none
      else
        match entLookup (s.take (k + 1)) with
        | some v => some (v ++ s.drop (k + 1))
        | none => entPrefTry s k

/-- Character produced by a numeric reference, with CPython's surrogate /
out-of-range handling (`�`); the windows-1252 remap table for a few
control codes is not modelled (no claim exercises it). -/
def numRefChar (n : Nat) : List Char :=
  if n < 0xD800 ∨ (0xDFFF < n ∧ n ≤ 0x10FFFF) then [Char.ofNat n] else ['�']

/-- Hex digit value. -/
def hexVal (c : Char) : Nat :=
  if isDigitC c then c.toNat - 48
  else if 'a' ≤ c ∧ c ≤ 'f' then c.toNat - 87
  else c.toNat - 55

/-- Parse one character reference right after a `&`; returns the
replacement text and the remaining input, or `none` when the reference
regex does not match (the `&` is then literal). -/
def parseEnt (rest : List Char) : Option (List Char × List Char) :=
  match rest with
  | '#' :: t =>
      match t with
      | 'x' :: h | 'X' :: h =>
          let ds := h.takeWhile (fun c => isDigitC c || ('a' ≤ c && c ≤ 'f') || ('A' ≤ c && c ≤ 'F'))
          if ds.isEmpty then none
          else
            let after := h.drop ds.length
            let after' := if after.head? = some ';' then after.tail else after
            some (numRefChar (ds.foldl (fun a c => a * 16 + hexVal c.toLower) 0), after')
      | _ =>
          let ds := t.takeWhile isDigitC
          if ds.isEmpty then none
          else
            let after := t.drop ds.length
            let after' := if after.head? = some ';' then after.tail else after
            some (numRefChar (ds.foldl (fun a c => a * 10 + (c.toNat - 48)) 0), after')
  | _ =>
      let run := (rest.takeWhile isEntChar).take 32
      if run.isEmpty then none
      else
        let after := rest.drop run.length
        let key := if after.head? = some ';' then run ++ [';'] else run
        let after' := if after.head? = some ';' then after.tail else after
        match entLookup key with
        | some v => some (v, after')
        | none =>
            match entPrefTry key (key.length - 1) with
            | some v => some (v, after')
            | none => some ('&' :: key, after')

/-- Fueled scan of `html.unescape`. -/
def unescapeF : Nat → List Char → List Char
  | 0, s => s
  | _ + 1, [] => []
  | n + 1, c :: rest =>
      if c = '&' then
        match parseEnt rest with
        | some (v, after) => v ++ unescapeF n after
        | none => '&' :: unescapeF n rest
      else c :: unescapeF n rest

/-- Python `html.unescape`. -/
def htmlUnescape (s : List Char) : List Char := unescapeF (s.length + 1) s

/-! ### Pattern shorthands -/

def iLit (c : Char) : Item := .simple (.lit c)
def iCls (f : Char → Bool) : Item := .simple (.cls f)
def iStar (f : Char → Bool) : Item := .simple (.star f true)
def iLazy (f : Char → Bool) : Item := .simple (.star f false)
def iPlus (f : Char → Bool) : Item := .simple (.plus f)
def iOpt (f : Char → Bool) : Item := .simple (.opt f)

def neC (c : Char) : Char → Bool := fun d => !(d = c)
def eqC (c : Char) : Char → Bool := fun d => d = c
def anyC : Char → Bool := fun _ => true

/-! ### `html_to_markdown` (wp_transform.py lines 48–131) -/

/-- `<!--[^>]*-->` -/
def pComment : Pat := litsP (toL "<!--") ++ [iStar (neC '>')] ++ litsP (toL "-->")

/-- Index of the first occurrence of `*/`. -/
def findStarSlash : List Char → Option Nat
  | [] => none
  | '*' :: rest =>
      match rest with
      | '/' :: _ => some 0
      | _ => (findStarSlash rest).map (· + 1)
  | _ :: rest => (findStarSlash rest).map (· + 1)

/-- `re.sub(r'/\*!?[^*]*\*+(?:[^/*][^*]*\*+)*/', '', s)`: the classic
C-comment regex, which matches exactly a `/*` up to the first following
`*/` (the star-run/`[^/*]` alternation forbids an interior `*/`, and the
final `/` must follow a star run, so backtracking cannot extend past the
first `*/`).  Implemented directly as that scan. -/
def removeCCommentsF : Nat → List Char → List Char
  | 0, s => s
  | _ + 1, [] => []
  | n + 1, c :: rest =>
      if c = '/' ∧ rest.head? = some '*' then
        match findStarSlash rest.tail with
        | some i => removeCCommentsF n (rest.tail.drop (i + 2))
        | none => c :: removeCCommentsF n rest
      else c :: removeCCommentsF n rest

/-- C-comment removal wrapper. -/
def removeCComments (s : List Char) : List Char := removeCCommentsF (s.length + 1) s

/-- `<style[^>]*>.*?</style>` (DOTALL) -/
def pStyle : Pat :=
  litsP (toL "<style") ++ [iStar (neC '>'), iLit '>', iLazy anyC] ++ litsP (toL "</style>")

/-- `<script[^>]*>.*?</script>` (DOTALL) -/
def pScript : Pat :=
  litsP (toL "<script") ++ [iStar (neC '>'), iLit '>', iLazy anyC] ++ litsP (toL "</script>")

/-- `\.elementor[^{]*\{[^}]*\}` -/
def pElementor : Pat :=
  litsP (toL ".elementor") ++ [iStar (neC '{'), iLit '{', iStar (neC '}'), iLit '}']

/-- `[a-zA-Z_-]` -/
def isSelChar (c : Char) : Bool :=
  ('a' ≤ c && c ≤ 'z') || ('A' ≤ c && c ≤ 'Z') || c = '_' || c = '-'

/-- `\.[a-zA-Z_-]+[^{]*\{[^}]*\}` -/
def pCssSel : Pat :=
  [iLit '.', iPlus isSelChar, iStar (neC '{'), iLit '{', iStar (neC '}'), iLit '}']

/-- `<tag[^>]*>\s*(.*?)\s*</tag>` (DOTALL), the shape shared by the
heading/paragraph/bold/italic/blockquote/list-item conversions. -/
def pTagWrap (tag : List Char) : Pat :=
  litsP ('<' :: tag) ++
    [iStar (neC '>'), iLit '>', iStar isWS, Item.group [.star anyC false], iStar isWS] ++
    litsP ('<' :: '/' :: (tag ++ ['>']))

/-- `<a[^>]*href="([^"]*)"[^>]*>\s*(.*?)\s*</a>` (DOTALL) -/
def pAnchor : Pat :=
  litsP (toL "<a") ++ [iStar (neC '>')] ++ litsP (toL "href=\"") ++
    [Item.group [.star (neC '"') true], iLit '"', iStar (neC '>'), iLit '>',
     iStar isWS, Item.group [.star anyC false], iStar isWS] ++ litsP (toL "</a>")

/-- `<img[^>]*src="([^"]*)"[^>]*alt="([^"]*)"[^>]*/?\s*>` -/
def pImgFull : Pat :=
  litsP (toL "<img") ++ [iStar (neC '>')] ++ litsP (toL "src=\"") ++
    [Item.group [.star (neC '"') true], iLit '"', iStar (neC '>')] ++ litsP (toL "alt=\"") ++
    [Item.group [.star (neC '"') true], iLit '"', iStar (neC '>'), iOpt (eqC '/'),
     iStar isWS, iLit '>']

/-- `<img[^>]*src="([^"]*)"[^>]*/?\s*>` -/
def pImgSrc : Pat :=
  litsP (toL "<img") ++ [iStar (neC '>')] ++ litsP (toL "src=\"") ++
    [Item.group [.star (neC '"') true], iLit '"', iStar (neC '>'), iOpt (eqC '/'),
     iStar isWS, iLit '>']

/-- `<br\s*/?\s*>` -/
def pBr : Pat := litsP (toL "<br") ++ [iStar isWS, iOpt (eqC '/'), iStar isWS, iLit '>']

/-- `<hr[^>]*/?\s*>` -/
def pHr : Pat := litsP (toL "<hr") ++ [iStar (neC '>'), iOpt (eqC '/'), iStar isWS, iLit '>']

/-- `<ul[^>]*>` -/
def pUlOpen : Pat := litsP (toL "<ul") ++ [iStar (neC '>'), iLit '>']

/-- `<ol[^>]*>` -/
def pOlOpen : Pat := litsP (toL "<ol") ++ [iStar (neC '>'), iLit '>']

/-- `<[^>]+>` -/
def pAnyTag : Pat := [iLit '<', iPlus (neC '>'), iLit '>']

/-- `\n{3,}` -/
def pNL3 : Pat := [iLit '\n', iLit '\n', iLit '\n', iStar (eqC '\n')]

/-- `[ \t]+` -/
def pHTrun : Pat := [iPlus isHT]

/-- `\n +` -/
def pNLsp : Pat := [iLit '\n', iPlus (eqC ' ')]

/-- ` +\n` -/
def pSpNL : Pat := [iPlus (eqC ' '), iLit '\n']

/-- `re.sub` with a total replacement function (Python function replacement). -/
def pySubF (p : Pat) (f : List (List Char) → List Char) (s : List Char) : List Char :=
  subTF p f (s.length + 1) s

/-- Template `pre\1suf`. -/
def tWrap1 (pre suf : List Char) : List TItem := [.litS pre, .ref 1, .litS suf]

/-- Lines 56–116 of `html_to_markdown`: comment/CSS/style/script removal
and every tag conversion, in source order, ending with the
remove-remaining-tags pass. -/
def tagStages (s : List Char) : List Char :=
  let c := pySub pComment (tLit []) s
  let c := removeCComments c
  let c := pySub pStyle (tLit []) c
  let c := pySub pScript (tLit []) c
  let c := pySub pElementor (tLit []) c
  let c := pySub pCssSel (tLit []) c
  let c := pySub (pTagWrap (toL "h1")) (tWrap1 (toL "# ") (toL "\n")) c
  let c := pySub (pTagWrap (toL "h2")) (tWrap1 (toL "## ") (toL "\n")) c
  let c := pySub (pTagWrap (toL "h3")) (tWrap1 (toL "### ") (toL "\n")) c
  let c := pySub (pTagWrap (toL "h4")) (tWrap1 (toL "#### ") (toL "\n")) c
  let c := pySub (pTagWrap (toL "h5")) (tWrap1 (toL "##### ") (toL "\n")) c
  let c := pySub (pTagWrap (toL "h6")) (tWrap1 (toL "###### ") (toL "\n")) c
  let c := pySub (pTagWrap (toL "p")) (tWrap1 [] (toL "\n\n")) c
  let c := pySub pAnchor [.litS (toL "["), .ref 2, .litS (toL "]("), .ref 1, .litS (toL ")")] c
  let c := pySub (pTagWrap (toL "strong")) (tWrap1 (toL "**") (toL "**")) c
  let c := pySub (pTagWrap (toL "b")) (tWrap1 (toL "**") (toL "**")) c
  let c := pySub (pTagWrap (toL "em")) (tWrap1 (toL "*") (toL "*")) c
  let c := pySub (pTagWrap (toL "i")) (tWrap1 (toL "*") (toL "*")) c
  let c := pySub (pTagWrap (toL "blockquote")) (tWrap1 (toL "> ") (toL "\n")) c
  let c := pySub (pTagWrap (toL "li")) (tWrap1 (toL "- ") (toL "\n")) c
  let c := pySub pUlOpen (tLit (toL "\n")) c
  let c := pySub (litsP (toL "</ul>")) (tLit (toL "\n")) c
  let c := pySub pOlOpen (tLit (toL "\n")) c
  let c := pySub (litsP (toL "</ol>")) (tLit (toL "\n")) c
  let c := pySub pImgFull [.litS (toL "!["), .ref 2, .litS (toL "]("), .ref 1, .litS (toL ")\n")] c
  let c := pySub pImgSrc [.litS (toL "![Image]("), .ref 1, .litS (toL ")\n")] c
  let c := pySub pBr (tLit (toL "\n")) c
  let c := pySub pHr (tLit (toL "\n---\n")) c
  pySub pAnyTag (tLit []) c

/-- Lines 121–123: escape `{` and `}` into numeric character references. -/
def escapeBraces (z : List Char) : List Char :=
  pyReplace (toL "\x7d") (toL "&#125;") (pyReplace (toL "\x7b") (toL "&#123;") z)

/-- Lines 126–129: collapse 3+ newlines, runs of horizontal whitespace,
spaces after a newline, spaces before a newline, in source order. -/
def wsCleanup (z : List Char) : List Char :=
  pySub pSpNL (tLit (toL "\n"))
    (pySub pNLsp (tLit (toL "\n"))
      (pySub pHTrun (tLit (toL " "))
        (pySub pNL3 (tLit (toL "\n\n")) z)))

/-- `html_to_markdown` from wp_transform.py, step for step in source
order. -/
def html_to_markdown (s : List Char) : List Char :=
  if s.isEmpty then [] else
  pyStrip (wsCleanup (escapeBraces (htmlUnescape (tagStages s))))

/-- `clean_html` is an alias in the source. -/
def clean_html (s : List Char) : List Char := html_to_markdown s

/-! ### `convert_gutenberg_blocks` (lines 137–201) -/

/-- `<!-- wp:kind[^>]*-->\s*` -/
def pWpOpen (kind : String) : Pat :=
  litsP (toL ("<!-- wp:" ++ kind)) ++ [iStar (neC '>')] ++ litsP (toL "-->") ++ [iStar isWS]

/-- `\s*<!-- /wp:kind -->` -/
def pWpClose (kind : String) : Pat :=
  [iStar isWS] ++ litsP (toL ("<!-- /wp:" ++ kind ++ " -->"))

/-- `convert_gutenberg_blocks`, in source order. -/
def convert_gutenberg_blocks (s : List Char) : List Char :=
  if s.isEmpty then [] else
  let c := pySub (pWpOpen "paragraph") (tLit []) s
  let c := pySub (pWpClose "paragraph") (tLit []) c
  let c := pySub (pWpOpen "heading") (tLit []) c
  let c := pySub (pWpClose "heading") (tLit []) c
  let c := pySub (pWpOpen "list") (tLit []) c
  let c := pySub (pWpClose "list") (tLit []) c
  let c := pySub (pWpOpen "list-item") (tLit []) c
  let c := pySub (pWpClose "list-item") (tLit []) c
  let c := pySub (pWpOpen "quote") (tLit []) c
  let c := pySub (pWpClose "quote") (tLit []) c
  let c := pySub (pWpOpen "code") (tLit []) c
  let c := pySub (pWpClose "code") (tLit []) c
  let c := pySub (pWpOpen "preformatted") (tLit []) c
  let c := pySub (pWpClose "preformatted") (tLit []) c
  let c := pySub (pWpOpen "group") (tLit (toL "<div class=\"content-group\">")) c
  let c := pySub (pWpClose "group") (tLit (toL "</div>")) c
  let c := pySub (pWpOpen "columns") (tLit (toL "<div class=\"columns\">")) c
  let c := pySub (pWpClose "columns") (tLit (toL "</div>")) c
  let c := pySub (pWpOpen "column") (tLit (toL "<div class=\"column\">")) c
  let c := pySub (pWpClose "column") (tLit (toL "</div>")) c
  let c := pySub (pWpOpen "image") (tLit []) c
  let c := pySub (pWpClose "image") (tLit []) c
  let c := pySub (pWpOpen "gallery") (tLit (toL "<div class=\"gallery\">")) c
  let c := pySub (pWpClose "gallery") (tLit (toL "</div>")) c
  let c := pySub (pWpOpen "video") (tLit []) c
  let c := pySub (pWpClose "video") (tLit []) c
  let c := pySub (pWpOpen "audio") (tLit []) c
  let c := pySub (pWpClose "audio") (tLit []) c
  let c := pySub (pWpOpen "embed") (tLit (toL "<div class=\"embed\">")) c
  let c := pySub (pWpClose "embed") (tLit (toL "</div>")) c
  let c := pySub (pWpOpen "core-embed/") (tLit (toL "<div class=\"embed\">")) c
  let c := pySub ([iStar isWS] ++ litsP (toL "<!-- /wp:core-embed/") ++ [iStar (neC '>')] ++ litsP (toL " -->")) (tLit (toL "</div>")) c
  let c := pySub (litsP (toL "<!-- wp:") ++ [iStar (neC '>')] ++ litsP (toL " -->")) (tLit []) c
  pySub (litsP (toL "<!-- /wp:") ++ [iStar (neC '>')] ++ litsP (toL " -->")) (tLit []) c

/-! ### `convert_vc_shortcodes` (lines 203–468) -/

/-- `\[name[^\]]*\]` — opening shortcode, attributes dropped. -/
def pSc (name : String) : Pat :=
  [iLit '['] ++ litsP (toL name) ++ [iStar (neC ']'), iLit ']']

/-- `\[name([^\]]*)\]` — opening shortcode with captured attributes. -/
def pScG (name : String) : Pat :=
  [iLit '['] ++ litsP (toL name) ++ [Item.group [.star (neC ']') true], iLit ']']

/-- `\[/name\]` — closing shortcode. -/
def pScClose (name : String) : Pat := litsP (toL ("[/" ++ name ++ "]"))

/-- `\[(\w+)[^\]]*\]` — the tracking pass's pattern. -/
def pScanSc : Pat := [iLit '[', Item.group [.plus isWordC], iStar (neC ']'), iLit ']']

/-- `\[\/?[\w_-]+[^\]]*\]` — final catch-all strip. -/
def pScAny : Pat :=
  [iLit '[', iOpt (eqC '/'), iPlus (fun c => isWordC c || c = '-'), iStar (neC ']'), iLit ']']

/-- The known-shortcode vocabulary (source lines 215–225). -/
def knownShortcodes : List (List Char) :=
  [toL "vc_row", toL "vc_row_inner", toL "vc_column", toL "vc_column_inner",
   toL "vc_column_text", toL "vc_custom_heading", toL "vc_single_image",
   toL "vc_separator", toL "vc_empty_space", toL "vc_pie", toL "vc_progress_bar",
   toL "vc_tta_section", toL "vc_tta_accordion", toL "vc_tta_tabs", toL "vc_btn",
   toL "vc_icon", toL "vc_gallery", toL "vc_video", toL "vc_wp_search",
   toL "stm_spacing", toL "stm_icon_box", toL "stm_services", toL "stm_news",
   toL "stm_testimonials", toL "stm_testimonials_carousel", toL "stm_partner",
   toL "stm_post_details", toL "stm_image_carousel", toL "stm_vacancies",
   toL "stm_company_history_item", toL "stm_cost_calculator"]

/-- `track_unknown`: add a scanned name to the registry when it is outside
the vocabulary.  The Python registry is a `set`; we model it as a list with
set membership (no duplicate insertions).  Its iteration order is
unspecified in Python; the model uses insertion order, and no theorem below
depends on more than membership and duplicate-freedom except where the
modelling is called out explicitly. -/
def addUnknown (reg : List (List Char)) (nm : List Char) : List (List Char) :=
  if knownShortcodes.contains nm then reg
  else if reg.contains nm then reg
  else reg ++ [nm]

/-- `attr="([^"]+)"` — the attribute-extraction pattern every rewrite
helper uses via `re.search`. -/
def pAttr (name : String) : Pat :=
  litsP (toL (name ++ "=\"")) ++ [Item.group [.plus (neC '"')], iLit '"']

/-- `url:([^|]+)` — sub-field of a button's `link` attribute. -/
def pUrlSub : Pat := litsP (toL "url:") ++ [Item.group [.plus (neC '|')]]

/-- Group 1 of a match, `''` when absent. -/
def grp1 (g : List (List Char)) : List Char := g.getD 0 []

/-! #### IEEE-754 binary64 model for `int((num / den) * 100)`

The width percentage travels through double-precision floats: CPython's
`int / int` true division returns the correctly rounded binary64 value of
the exact quotient, `* 100` is one correctly rounded multiplication, and
`int(...)` truncates toward zero.  The model below computes exactly those
correctly rounded values (round-to-nearest, ties-to-even, 53-bit
significand, unbounded exponent).  It coincides with CPython throughout
the normal range; quotients so extreme that CPython would raise
`OverflowError` or fall into subnormals (magnitudes beyond about
`10^308` or below about `10^-308`) are outside the model, and the
theorems below carry size bounds that keep them inside it. -/

/-- Bit length of a natural number, fueled. -/
def bitLen : Nat → Nat → Nat
  | 0, _ => 0
  | fuel + 1, n => if n = 0 then 0 else bitLen fuel (n / 2) + 1

/-- Bit length wrapper (`blen n = ⌊log₂ n⌋ + 1` for `n ≥ 1`). -/
def blen (n : Nat) : Nat := bitLen (n + 1) n

/-- `(N, D)` with `N / D = (p / q) · 2^(-e)`. -/
def scaled (p q : Nat) (e : Int) : Nat × Nat :=
  if 0 ≤ e then (p, q * 2 ^ e.toNat) else (p * 2 ^ (- e).toNat, q)

/-- Round the rational `N / D` to the nearest integer, ties to even. -/
def rndMant (N D : Nat) : Nat :=
  let m := N / D
  let r := N % D
  if 2 * r < D then m
  else if D < 2 * r then m + 1
  else if m % 2 = 0 then m else m + 1

/-- Correctly rounded binary64 value of `p / q` (for `q > 0`), as a pair
`(m, e)` with value `m · 2^e` and `m ∈ [2^52, 2^53)` (or `(0, 0)` for
`p = 0`).  This is exactly CPython's `int.__truediv__` in the normal
range. -/
def rndRat (p q : Nat) : Nat × Int :=
  if p = 0 then (0, 0) else
  let e1 : Int := (blen p : Int) - (blen q : Int) - 53
  let s1 := scaled p q e1
  let e2 := if 2 ^ 53 ≤ s1.1 / s1.2 then e1 + 1 else e1
  let s2 := scaled p q e2
  let m := rndMant s2.1 s2.2
  if m = 2 ^ 53 then (2 ^ 52, e2 + 1) else (m, e2)

/-- Correctly rounded binary64 product of the double `x` and the exact
small integer `k` (Python's `float * int`). -/
def dMulN (x : Nat × Int) (k : Nat) : Nat × Int :=
  let r := rndRat (x.1 * k) 1
  (r.1, r.2 + x.2)

/-- `int(x)` for a nonnegative double `x`: truncation toward zero. -/
def dToN (x : Nat × Int) : Nat :=
  if 0 ≤ x.2 then x.1 * 2 ^ x.2.toNat else x.1 / 2 ^ (- x.2).toNat

/-- `int((a / b) * 100)` for naturals, through binary64 floats like the
source: correctly rounded true division, correctly rounded product with
100, truncation. -/
def pyPct (a b : Nat) : Nat := dToN (dMulN (rndRat a b) 100)

/-- `int((n / d) * 100)` for the parsed `int()` values.  IEEE rounding and
truncation are sign-symmetric, so the sign factors out of `pyPct` on the
magnitudes; the digit-only strings `int()` parses here are never negative,
so in this program the first branch is dead. -/
def pyFloatPct (n d : Int) : Int :=
  if (n < 0 ∧ 0 < d) ∨ (0 < n ∧ d < 0) then - (pyPct n.natAbs d.natAbs : Int)
  else (pyPct n.natAbs d.natAbs : Int)

/-- `convert_column` (lines 247–263).  `none` models the uncaught
`ValueError`/`ZeroDivisionError` Python would raise for a malformed width.
`int((int(num) / int(den)) * 100)` is the float pipeline `pyFloatPct`
above. -/
def convert_column (attrs : List Char) : Option (List Char) :=
  let width_match := pySearch (pAttr "width") attrs
  let offset_match := pySearch (pAttr "offset") attrs
  let base := [toL "column"]
  let withWidth : Option (List (List Char)) :=
    match width_match with
    | some g =>
        let width := grp1 g
        if containsSeq (toL "/") width then
          match pySplit (toL "/") width with
          | [num, den] =>
              match pyIntParse num, pyIntParse den with
              | some n, some d =>
                  if d = 0 then none
                  else some (base ++ [toL "w-" ++ intStr (pyFloatPct n d)])
              | _, _ => none
          | _ => none
        else some base
    | none => some base
  match withWidth with
  | none => none
  | some cls =>
      let cls := match offset_match with
        | some g => cls ++ [pyReplace (toL "vc_col-") (toL "col-") (grp1 g)]
        | none => cls
      some (toL "<div class=\"" ++ List.intercalate (toL " ") cls ++ toL "\">")

/-- `convert_heading` (lines 276–280). -/
def convert_heading (attrs : List Char) : List Char :=
  let text := match pySearch (pAttr "text") attrs with
    | some g => grp1 g
    | none => []
  toL "<h2 class=\"section-heading\">" ++ htmlUnescape text ++ toL "</h2>"

/-- `convert_image` (lines 285–288): fixed placeholder. -/
def convert_image (_attrs : List Char) : List Char :=
  toL "<figure class=\"wp-image\"><img src=\"/images/placeholder.jpg\" alt=\"Image\" /></figure>"

/-- `convert_button` (lines 299–310). -/
def convert_button (attrs : List Char) : List Char :=
  let title := match pySearch (pAttr "title") attrs with
    | some g => htmlUnescape (grp1 g)
    | none => toL "Button"
  let link := match pySearch (pAttr "link") attrs with
    | some g =>
        let link_str := htmlUnescape (grp1 g)
        match pySearch pUrlSub link_str with
        | some g2 => grp1 g2
        | none => toL "#"
    | none => toL "#"
  toL "<a href=\"" ++ link ++ toL "\" class=\"btn btn-primary\">" ++ title ++ toL "</a>"

/-- `convert_pie` (lines 315–328). -/
def convert_pie (attrs : List Char) : List Char :=
  let value := match pySearch (pAttr "value") attrs with
    | some g => grp1 g
    | none => toL "0"
  let label := match pySearch (pAttr "label_value") attrs with
    | some g => htmlUnescape (grp1 g)
    | none => value
  let title := match pySearch (pAttr "title") attrs with
    | some g => htmlUnescape (grp1 g)
    | none => []
  toL "<div class=\"stat-item\">\n  <span class=\"stat-value\">" ++ label ++
    toL "</span>\n  <span class=\"stat-label\">" ++ title ++ toL "</span>\n</div>"

/-- `convert_icon_box` (lines 336–342). -/
def convert_icon_box (attrs : List Char) : List Char :=
  let title := match pySearch (pAttr "title") attrs with
    | some g => htmlUnescape (grp1 g)
    | none => []
  toL "<div class=\"icon-box\">\n  <h3>" ++ title ++ toL "</h3>\n</div>"

/-- `convert_tta_section` (lines 417–421). -/
def convert_tta_section (attrs : List Char) : List Char :=
  let title := match pySearch (pAttr "title") attrs with
    | some g => htmlUnescape (grp1 g)
    | none => toL "Section"
  toL "<div class=\"accordion-item\"><h4 class=\"accordion-title\">" ++ title ++
    toL "</h4><div class=\"accordion-content\">"

/-- `convert_video` (lines 452–458). -/
def convert_video (attrs : List Char) : List Char :=
  let link := match pySearch (pAttr "link") attrs with
    | some g => grp1 g
    | none => []
  if containsSeq (toL "youtube") link || containsSeq (toL "youtu.be") link then
    toL "<div class=\"video-embed\"><a href=\"" ++ link ++
      toL "\" target=\"_blank\">Watch Video</a></div>"
  else
    toL "<div class=\"video-embed\"><!-- Video content --></div>"

/-- The rewriting chain of `convert_vc_shortcodes` (everything except the
first, tracking pass), in source order.  `none` models a Python exception
escaping (only `convert_column` can raise). -/
def convert_vc_body (content : List Char) : Option (List Char) :=
  let c := pySub (pSc "vc_row") (tLit (toL "<section class=\"content-section\">")) content
  let c := pySub (pScClose "vc_row") (tLit (toL "</section>")) c
  let c := pySub (pSc "vc_row_inner") (tLit (toL "<div class=\"row-inner\">")) c
  let c := pySub (pScClose "vc_row_inner") (tLit (toL "</div>")) c
  match pySubO (pScG "vc_column") (fun g => convert_column (grp1 g)) c with
  | none => none
  | some c =>
  let c := pySub (pScClose "vc_column") (tLit (toL "</div>")) c
  match pySubO (pScG "vc_column_inner") (fun g => convert_column (grp1 g)) c with
  | none => none
  | some c =>
  let c := pySub (pScClose "vc_column_inner") (tLit (toL "</div>")) c
  let c := pySub (pSc "vc_column_text") (tLit []) c
  let c := pySub (pScClose "vc_column_text") (tLit []) c
  let c := pySubF (pScG "vc_custom_heading") (fun g => convert_heading (grp1 g)) c
  let c := pySubF (pScG "vc_single_image") (fun g => convert_image (grp1 g)) c
  let c := pySub (pSc "vc_separator") (tLit (toL "<hr class=\"section-divider\" />")) c
  let c := pySub (pSc "vc_empty_space") (tLit (toL "<div class=\"spacer\"></div>")) c
  let c := pySubF (pScG "vc_btn") (fun g => convert_button (grp1 g)) c
  let c := pySubF (pScG "vc_pie") (fun g => convert_pie (grp1 g)) c
  let c := pySub (pSc "stm_spacing") (tLit (toL "<div class=\"spacer\"></div>")) c
  let c := pySubF (pScG "stm_icon_box") (fun g => convert_icon_box (grp1 g)) c
  let c := pySub (pSc "stm_services") (tLit (toL "<!-- TODO: Services component needs implementation -->")) c
  let c := pySub (pSc "stm_news") (tLit (toL "<!-- TODO: News component needs implementation -->")) c
  let c := pySub (pSc "stm_testimonials") (tLit (toL "<!-- TODO: Testimonials component needs implementation -->")) c
  let c := pySub (pSc "stm_testimonials_carousel") (tLit (toL "<!-- TODO: Testimonials carousel needs implementation -->")) c
  let c := pySub (pSc "stm_partner") (tLit (toL "<!-- TODO: Partner logos component needs implementation -->")) c
  let c := pySub (pSc "stm_post_details") (tLit []) c
  let c := pySub (pSc "stm_image_carousel") (tLit (toL "<!-- TODO: Image carousel needs implementation -->")) c
  let c := pySub (pSc "stm_vacancies") (tLit (toL "<!-- TODO: Vacancies/careers listing needs implementation -->")) c
  let c := pySub (pSc "stm_company_history_item") (tLit (toL "<!-- TODO: Company history item needs implementation -->")) c
  let c := pySub (pSc "stm_cost_calculator") (tLit (toL "<!-- TODO: Cost calculator needs implementation -->")) c
  let c := pySub (pSc "vc_tta_accordion") (tLit (toL "<div class=\"accordion\">")) c
  let c := pySub (pScClose "vc_tta_accordion") (tLit (toL "</div>")) c
  let c := pySub (pSc "vc_tta_tabs") (tLit (toL "<div class=\"tabs\">")) c
  let c := pySub (pScClose "vc_tta_tabs") (tLit (toL "</div>")) c
  let c := pySubF (pScG "vc_tta_section") (fun g => convert_tta_section (grp1 g)) c
  let c := pySub (pScClose "vc_tta_section") (tLit (toL "</div></div>")) c
  let c := pySub (pSc "woocommerce_cart") (tLit (toL "<!-- TODO: Shopping cart needs implementation -->")) c
  let c := pySub (pSc "woocommerce_my_account") (tLit (toL "<!-- TODO: Account page needs implementation -->")) c
  let c := pySub (pSc "contact-form-7") (tLit (toL "<div class=\"contact-form-placeholder\"><p>Contact form - please use the contact details provided.</p></div>")) c
  let c := pySub (pSc "vc_wp_search") (tLit []) c
  let c := pySub (pSc "vc_gallery") (tLit (toL "<div class=\"gallery\"><!-- Gallery images --></div>")) c
  let c := pySubF (pScG "vc_video") (fun g => convert_video (grp1 g)) c
  let c := pySub (pSc "vc_icon") (tLit []) c
  some (pySub pScAny (tLit []) c)

/-- `convert_vc_shortcodes`: the tracking pass adds every scanned macro
name outside the vocabulary to the registry (the Python global set,
modelled as an insertion-ordered duplicate-free list), then the rewrite
chain runs. -/
def convert_vc_shortcodes (content : List Char) (reg : List (List Char)) :
    Option (List Char × List (List Char)) :=
  if content.isEmpty then some ([], reg) else
  (convert_vc_body content).map
    (fun out => (out, ((pyScan pScanSc content).foldl addUnknown reg)))

/-! ### `convert_internal_links` (lines 470–492) -/

/-- `{base}/([\d]{4})/([\d]{2})/([\d]{2})/([^/"]+)/?` -/
def pDateLink (base : List Char) : Pat :=
  litsP base ++
    [iLit '/', Item.group [.cls isDigitC, .cls isDigitC, .cls isDigitC, .cls isDigitC],
     iLit '/', Item.group [.cls isDigitC, .cls isDigitC],
     iLit '/', Item.group [.cls isDigitC, .cls isDigitC],
     iLit '/', Item.group [.plus (fun c => !(c = '/' || c = '"'))], iOpt (eqC '/')]

/-- `{base}/([^"\'>\s]+)/?` -/
def pPageLink (base : List Char) : Pat :=
  litsP base ++
    [iLit '/', Item.group [.plus (fun c => !(c = '"' || c = '\'' || c = '>' || isWS c))],
     iOpt (eqC '/')]

/-- `([^:])//` -/
def pDblSlash : Pat := [Item.group [.cls (neC ':')], iLit '/', iLit '/']

/-- `convert_internal_links`. -/
def convert_internal_links (content base : List Char) : List Char :=
  if content.isEmpty then [] else
  let c := pySub (pDateLink base) [.litS (toL "/blog/"), .ref 4, .litS (toL "/")] content
  let c := pySub (pPageLink base) [.litS (toL "/"), .ref 1, .litS (toL "/")] c
  pySub pDblSlash [.ref 1, .litS (toL "/")] c

/-! ### `slugify` (lines 32–38) and `estimate_reading_time` (lines 40–46) -/

/-- `unicodedata.normalize('NFKD', t).encode('ascii','ignore')`: identity
on ASCII characters (every ASCII character is NFKD-invariant); non-ASCII
characters are dropped.  The NFKD decomposition table is external data and
is not embedded, so a decomposable letter loses its base letter here where
CPython would keep it; every claim below exercises ASCII titles only. -/
def asciiFold (s : List Char) : List Char := s.filter (fun c => c.toNat < 128)

/-- `[^\w\s-]` -/
def pNonWord : Pat := [iCls (fun c => !(isWordC c || isWS c || c = '-'))]

/-- `[-\s]+` -/
def pDashWS : Pat := [iPlus (fun c => c = '-' || isWS c)]

/-- `slugify` from wp_transform.py. -/
def slugify (text : List Char) : List Char :=
  let t := asciiFold text
  let t := pySub pNonWord (tLit []) (t.map Char.toLower)
  let t := pySub pDashWS (tLit (toL "-")) t
  pyStripChar '-' t

/-- `estimate_reading_time`: strip tags, count words, 200 wpm, minimum 1. -/
def estimate_reading_time (content : List Char) : Nat :=
  let text := pySub pAnyTag (tLit []) content
  max 1 (pyRoundDiv (wordCount text) 200)

/-! ### `generate_frontmatter` (lines 494–571) -/

/-- A content record as consumed by `generate_frontmatter`.  `none` models
an absent dictionary key (Python `.get` default); taxonomy terms are
reduced to the slug, the only field the function reads. -/
structure WPItem where
  title : Option (List Char) := none
  slug : Option (List Char) := none
  date : Option (List Char) := none
  modified : Option (List Char) := none
  status : Option (List Char) := none
  excerpt : Option (List Char) := none
  categories : List (List Char) := []
  tags : List (List Char) := []
  featuredImage : Option (List Char × List Char) := none
  authorId : Option Int := none
  menuOrder : Option Int := none
  parentId : Option Int := none
  fullPath : Option (List Char) := none
  content : Option (List Char) := none

/-- `title.replace('"', '\\"')`. -/
def escQ (s : List Char) : List Char := pyReplace (toL "\"") (toL "\\\"") s

/-- The `fm` list of frontmatter lines, in source order.  `now` stands for
`datetime.now().isoformat()`, the default date. -/
def frontmatter_lines (item : WPItem) (item_type now : List Char) : List (List Char) :=
  let title := escQ (item.title.getD (toL "Untitled"))
  let slug := item.slug.getD (slugify title)
  let base :=
    [toL "---",
     toL "title: \"" ++ title ++ toL "\"",
     toL "permalink: \"" ++ slug ++ toL "\"",
     toL "date: \"" ++ item.date.getD now ++ toL "\""]
  let upd := if (item.modified.getD []).isEmpty then []
    else [toL "updated: \"" ++ item.modified.getD [] ++ toL "\""]
  let ts :=
    [toL "type: \"" ++ item_type ++ toL "\"",
     toL "status: \"" ++ item.status.getD (toL "publish") ++ toL "\""]
  let excerpt := (pyReplace (toL "\n") (toL " ") (escQ (item.excerpt.getD []))).take 200
  let exc := if excerpt.isEmpty then [] else [toL "excerpt: \"" ++ excerpt ++ toL "\""]
  let cats := if item.categories.isEmpty then []
    else [toL "categories: [" ++
      List.intercalate (toL ", ") (item.categories.map (fun s => toL "\"" ++ s ++ toL "\"")) ++ toL "]"]
  let tgs := if item.tags.isEmpty then []
    else [toL "tags: [" ++
      List.intercalate (toL ", ") (item.tags.map (fun s => toL "\"" ++ s ++ toL "\"")) ++ toL "]"]
  let feat := match item.featuredImage with
    | some (url, alt) =>
        [toL "featuredImage: \"" ++ url ++ toL "\"",
         toL "featuredImageAlt: \"" ++ escQ alt ++ toL "\""]
    | none => []
  let auth := match item.authorId with
    | some n => if n = 0 then [] else [toL "authorId: " ++ intStr n]
    | none => []
  let pages := if item_type = toL "page" then
      [toL "menuOrder: " ++ intStr (item.menuOrder.getD 0),
       toL "parentId: " ++ intStr (item.parentId.getD 0),
       toL "path: \"" ++ item.fullPath.getD slug ++ toL "\""]
    else []
  let posts := if item_type = toL "post" then
      [toL "readingTime: " ++ natDigits (estimate_reading_time (item.content.getD []))]
    else []
  let canon := [toL "canonicalUrl: \"/" ++ slug ++ toL "/\"", toL "---"]
  base ++ upd ++ ts ++ exc ++ cats ++ tgs ++ feat ++ auth ++ pages ++ posts ++ canon

/-- `generate_frontmatter`: the joined header text. -/
def generate_frontmatter (item : WPItem) (item_type now : List Char) : List Char :=
  List.intercalate (toL "\n") (frontmatter_lines item item_type now)

/-! ### `transform_content` (lines 573–593) and the batch accumulators -/

/-- `transform_content`, threading the unknown-shortcode registry. -/
def transform_content (content base : List Char) (reg : List (List Char)) :
    Option (List Char × List (List Char)) :=
  if content.isEmpty then some ([], reg) else
  match convert_vc_shortcodes (convert_gutenberg_blocks content) reg with
  | none => none
  | some (c, reg') =>
      let c := convert_internal_links c base
      let c := clean_html c
      let c := pySub pNL3 (tLit (toL "\n\n")) c
      some (pyStrip c, reg')

/-- The registry after a batch run over a list of bodies (the loop of
`transform_posts`/`transform_pages` threading the global set). -/
def runBatchRegistry (contents : List (List Char)) (base : List Char) :
    Option (List (List Char)) :=
  contents.foldlM (fun reg c => (transform_content c base reg).map (·.2)) []

/-- `generate_report`'s `unknownShortcodes` field: `list(unknown_shortcodes)`
— the set as a list, with NO sorting applied (only the console print at
line 723 sorts).  Under the insertion-order set model this is the registry
list itself. -/
def reportUnknownShortcodes (reg : List (List Char)) : List (List Char) := reg

/-! ### `build_page_hierarchy` / `get_path` (wp_export.py lines 569–593) -/

/-- A page row as consumed by `build_page_hierarchy`. -/
structure PageRec where
  id : Nat
  slug : String
  parentId : Nat
  title : String
deriving DecidableEq

/-- `page_map = {p['id']: p for p in pages}` — later duplicates win, hence
the reversed search. -/
def pageLookup (ps : List PageRec) (i : Nat) : Option PageRec :=
  ps.reverse.find? (fun p => p.id = i)

/-- The `while current['parentId'] > 0 and current['parentId'] in page_map`
walk of `get_path`, step-indexed: `none` means the loop is still running
after `fuel` iterations.  The source has no cycle guard, so the fuel is the
only thing that stops a cyclic walk here. -/
def getPathLoop (ps : List PageRec) : Nat → List String → PageRec → Option (List String)
  | 0, _, _ => none
  | n + 1, path, cur =>
      if cur.parentId > 0 then
        match pageLookup ps cur.parentId with
        | some parent => getPathLoop ps n (parent.slug :: path) parent
        | none => some path
      else some path

/-- `get_path`: the slash-joined ancestor path, when the walk stops within
`fuel` steps. -/
def get_path (ps : List PageRec) (fuel : Nat) (page : PageRec) : Option String :=
  (getPathLoop ps fuel [page.slug] page).map (String.intercalate "/")

/-- Termination of the source's unbounded loop = some fuel suffices. -/
def getPathTerminates (ps : List PageRec) (page : PageRec) : Prop :=
  ∃ fuel, (get_path ps fuel page).isSome

/-- A hierarchy entry. -/
structure HierNode where
  slug : String
  fullPath : String
  parentId : Nat
  title : String

/-- `build_page_hierarchy`, fueled like `get_path`. -/
def build_page_hierarchy (ps : List PageRec) (fuel : Nat) :
    Option (List (Nat × HierNode)) :=
  ps.mapM (fun p => (get_path ps fuel p).map
    (fun fp => (p.id, HierNode.mk p.slug fp p.parentId p.title)))

/-! ## Lemmas about the prefix/occurrence helpers -/

theorem isPrefixOf_append_self (w s : List Char) : w.isPrefixOf (w ++ s) = true := by
  induction w with
  | nil => simp [List.isPrefixOf]
  | cons c w ih => simp [List.isPrefixOf, ih]

theorem exists_of_isPrefixOf {w s : List Char} (h : w.isPrefixOf s = true) :
    ∃ r, s = w ++ r := by
  induction w generalizing s with
  | nil => exact ⟨s, rfl⟩
  | cons c w ih =>
      cases s with
      | nil => simp [List.isPrefixOf] at h
      | cons d s =>
          simp only [List.isPrefixOf, Bool.and_eq_true, beq_iff_eq] at h
          obtain ⟨r, hr⟩ := ih h.2
          exact ⟨r, by simp [h.1, hr]⟩

theorem containsSeq_of_isPrefixOf {u s : List Char} (h : u.isPrefixOf s = true) :
    containsSeq u s = true := by
  cases s with
  | nil =>
      cases u with
      | nil => simp [containsSeq, List.isEmpty]
      | cons c u => simp [List.isPrefixOf] at h
  | cons c s => simp [containsSeq, h]

theorem containsSeq_cons_of {u s : List Char} (c : Char)
    (h : containsSeq u s = true) : containsSeq u (c :: s) = true := by
  simp [containsSeq, h]

theorem containsSeq_nil_left (s : List Char) : containsSeq [] s = true := by
  cases s with
  | nil => simp [containsSeq, List.isEmpty]
  | cons c s => simp [containsSeq, List.isPrefixOf]

theorem isPrefixOf_append_ext {u : List Char} (y : List Char) :
    ∀ {v : List Char}, u.isPrefixOf v = true → u.isPrefixOf (v ++ y) = true := by
  intro v h
  obtain ⟨r, rfl⟩ := exists_of_isPrefixOf h
  rw [List.append_assoc]
  exact isPrefixOf_append_self u (r ++ y)

theorem containsSeq_append_left {u y : List Char} :
    ∀ {x : List Char}, containsSeq u x = true → containsSeq u (x ++ y) = true := by
  intro x
  induction x with
  | nil =>
      intro h
      simp only [containsSeq, List.isEmpty_iff] at h
      subst h
      exact containsSeq_nil_left y
  | cons c x ih =>
      intro h
      simp only [List.cons_append, containsSeq, Bool.or_eq_true] at h ⊢
      rcases h with h | h
      · exact Or.inl (isPrefixOf_append_ext y h)
      · exact Or.inr (ih h)

theorem containsSeq_append_right {u x : List Char} :
    ∀ {y : List Char}, containsSeq u y = true → containsSeq u (x ++ y) = true := by
  induction x with
  | nil => intro y h; simpa using h
  | cons c x ih => intro y h; exact containsSeq_cons_of c (ih h)

theorem mem_of_containsSeq_pair {a b : Char} :
    ∀ {s : List Char}, containsSeq [a, b] s = true → a ∈ s := by
  intro s
  induction s with
  | nil => simp [containsSeq, List.isEmpty]
  | cons c s ih =>
      intro h
      simp only [containsSeq, Bool.or_eq_true] at h
      rcases h with h | h
      · simp only [List.isPrefixOf, Bool.and_eq_true, beq_iff_eq] at h
        simp [h.1]
      · exact List.mem_cons_of_mem _ (ih h)

/-- Splitting an occurrence of a two-character word over an append. -/
theorem containsSeq_pair_append {a b : Char} :
    ∀ {x y : List Char}, containsSeq [a, b] (x ++ y) = true →
      containsSeq [a, b] x = true ∨ containsSeq [a, b] y = true ∨
      (x.getLast? = some a ∧ y.head? = some b) := by
  intro x
  induction x with
  | nil => intro y h; exact Or.inr (Or.inl (by simpa using h))
  | cons c x ih =>
      intro y h
      simp only [List.cons_append, containsSeq, Bool.or_eq_true] at h
      rcases h with h | h
      · -- [a,b] is a prefix of c :: (x ++ y)
        simp only [List.isPrefixOf, Bool.and_eq_true, beq_iff_eq] at h
        obtain ⟨hc, hrest⟩ := h
        cases x with
        | nil =>
            cases y with
            | nil => simp [List.isPrefixOf] at hrest
            | cons d ys =>
                simp only [List.nil_append, List.isPrefixOf, Bool.and_eq_true, beq_iff_eq] at hrest
                exact Or.inr (Or.inr ⟨by simp [hc], by simp [hrest.1]⟩)
        | cons e xs =>
            simp only [List.cons_append, List.isPrefixOf, Bool.and_eq_true, beq_iff_eq] at hrest
            refine Or.inl ?_
            have : List.isPrefixOf [a, b] (c :: e :: xs) = true := by
              simp [List.isPrefixOf, hc, hrest.1]
            simpa [containsSeq] using Or.inl this
      · rcases ih h with h' | h' | h'
        · exact Or.inl (containsSeq_cons_of c h')
        · exact Or.inr (Or.inl h')
        · refine Or.inr (Or.inr ⟨?_, h'.2⟩)
          rcases x with _ | ⟨e, xs⟩
          · simp [List.getLast?] at h'
          · simpa using h'.1

/-! ## Split and capture lemmas for the matcher -/

theorem splitsAsc_mem {w r : List Char} :
    ∀ {p : List Char × List Char}, p ∈ splitsAsc w r → p.1 ++ p.2 = w ++ r := by
  induction w with
  | nil => intro p hp; simp [splitsAsc] at hp; simp [hp]
  | cons c w ih =>
      intro p hp
      simp only [splitsAsc, List.mem_cons, List.mem_map] at hp
      rcases hp with h | ⟨q, hq, rfl⟩
      · simp [h]
      · simpa using ih hq

theorem sAlts_mem {it : SItem} {s : List Char} :
    ∀ {p : List Char × List Char}, p ∈ sAlts it s → p.1 ++ p.2 = s := by
  intro p hp
  cases it with
  | lit c =>
      cases s with
      | nil => simp [sAlts] at hp
      | cons d s =>
          simp only [sAlts] at hp
          split at hp <;> simp_all
  | cls f =>
      cases s with
      | nil => simp [sAlts] at hp
      | cons d s =>
          simp only [sAlts] at hp
          split at hp <;> simp_all
  | star f greedy =>
      simp only [sAlts] at hp
      split at hp
      · have := splitsAsc_mem (List.mem_reverse.mp hp)
        simpa [List.takeWhile_append_dropWhile] using this
      · have := splitsAsc_mem hp
        simpa [List.takeWhile_append_dropWhile] using this
  | plus f =>
      simp only [sAlts] at hp
      have hp' := List.mem_of_mem_filter hp
      have := splitsAsc_mem (List.mem_reverse.mp hp')
      simpa [List.takeWhile_append_dropWhile] using this
  | opt f =>
      cases s with
      | nil => simp [sAlts] at hp; simp [hp]
      | cons d s =>
          simp only [sAlts] at hp
          split at hp
          · rcases (by simpa using hp : p = ([d], s) ∨ p = ([], d :: s)) with rfl | rfl <;> simp
          · rcases (by simpa using hp : p = ([], d :: s)) with rfl; simp

theorem matchS_mem {its : List SItem} :
    ∀ {s : List Char} {m : List Char × List Char}, m ∈ matchS its s → m.1 ++ m.2 = s := by
  induction its with
  | nil => intro s m hm; simp [matchS] at hm; simp [hm]
  | cons it its ih =>
      intro s m hm
      simp only [matchS, List.mem_flatMap, List.mem_map] at hm
      obtain ⟨p, hp, q, hq, rfl⟩ := hm
      have h1 := sAlts_mem hp
      have h2 := ih hq
      simp [← h1, ← h2]

theorem matchP_mem {p : Pat} :
    ∀ {s : List Char} {m : List Char × List (List Char) × List Char},
      m ∈ matchP p s → m.1 ++ m.2.2 = s := by
  induction p with
  | nil => intro s m hm; simp [matchP] at hm; simp [hm]
  | cons it p ih =>
      intro s m hm
      cases it with
      | simple si =>
          simp only [matchP, List.mem_flatMap, List.mem_map] at hm
          obtain ⟨pr, hpr, q, hq, rfl⟩ := hm
          have h1 := sAlts_mem hpr
          have h2 := ih hq
          simp [← h1, ← h2]
      | group sub =>
          simp only [matchP, List.mem_flatMap, List.mem_map] at hm
          obtain ⟨pr, hpr, q, hq, rfl⟩ := hm
          have h1 := matchS_mem hpr
          have h2 := ih hq
          simp [← h1, ← h2]

theorem matchP_caps {p : Pat} :
    ∀ {s : List Char} {m : List Char × List (List Char) × List Char},
      m ∈ matchP p s → ∀ cap ∈ m.2.1, ∀ ch ∈ cap, ch ∈ m.1 := by
  induction p with
  | nil => intro s m hm; simp [matchP] at hm; simp [hm]
  | cons it p ih =>
      intro s m hm cap hcap ch hch
      cases it with
      | simple si =>
          simp only [matchP, List.mem_flatMap, List.mem_map] at hm
          obtain ⟨pr, hpr, q, hq, rfl⟩ := hm
          have := ih hq cap (by simpa using hcap) ch hch
          simp [this]
      | group sub =>
          simp only [matchP, List.mem_flatMap, List.mem_map] at hm
          obtain ⟨pr, hpr, q, hq, rfl⟩ := hm
          simp only [List.mem_cons] at hcap
          rcases hcap with rfl | hcap
          · simp [hch]
          · have := ih hq cap hcap ch hch
            simp [this]

/-! ## Composition lemmas -/

theorem matchP_append (p q : Pat) :
    ∀ s, matchP (p ++ q) s =
      (matchP p s).flatMap (fun m =>
        (matchP q m.2.2).map (fun m' => (m.1 ++ m'.1, m.2.1 ++ m'.2.1, m'.2.2))) := by
  induction p with
  | nil => intro s; simp [matchP]
  | cons it p ih =>
      intro s
      cases it with
      | simple si =>
          simp only [List.cons_append, matchP, List.flatMap_assoc, List.append_eq]
          congr 1
          funext pr
          rw [ih pr.2]
          simp [List.map_flatMap, List.flatMap_map, List.map_map, Function.comp_def,
            List.append_assoc]
      | group sub =>
          simp only [List.cons_append, matchP, List.flatMap_assoc, List.append_eq]
          congr 1
          funext pr
          rw [ih pr.2]
          simp [List.map_flatMap, List.flatMap_map, List.map_map, Function.comp_def,
            List.append_assoc]

theorem matchP_litsP_self (w : List Char) :
    ∀ s, matchP (litsP w) (w ++ s) = [(w, [], s)] := by
  induction w with
  | nil => intro s; simp [litsP, matchP]
  | cons c w ih =>
      intro s
      simp [litsP, matchP, sAlts] at ih ⊢
      simp [ih]

theorem matchP_litsP_shape {w : List Char} :
    ∀ {s : List Char} {m : List Char × List (List Char) × List Char},
      m ∈ matchP (litsP w) s → m.1 = w ∧ m.2.1 = [] ∧ s = w ++ m.2.2 := by
  induction w with
  | nil => intro s m hm; simp [litsP, matchP] at hm; simp [hm]
  | cons c w ih =>
      intro s m hm
      simp only [litsP, List.map_cons, matchP, List.mem_flatMap, List.mem_map] at hm
      obtain ⟨pr, hpr, q, hq, rfl⟩ := hm
      cases s with
      | nil => simp [sAlts] at hpr
      | cons d s =>
          simp only [sAlts] at hpr
          split at hpr
          · next hd =>
              simp only [List.mem_singleton] at hpr
              subst hpr
              have := ih (by simpa [litsP] using hq)
              refine ⟨by simp [hd, this.1], by simp [this.2.1], by simp [hd, this.2.2]⟩
          · simp at hpr

theorem matchP_litsP_front (w : List Char) (p : Pat) (s : List Char) :
    matchP (litsP w ++ p) (w ++ s) =
      (matchP p s).map (fun m => (w ++ m.1, m.2.1, m.2.2)) := by
  rw [matchP_append, matchP_litsP_self]
  simp

theorem matchP_litsP_head_contains {w : List Char} {p' : Pat} :
    ∀ s' m, m ∈ matchP (litsP w ++ p') s' → containsSeq w m.1 = true := by
  intro s' m hm
  rw [matchP_append] at hm
  simp only [List.mem_flatMap, List.mem_map] at hm
  obtain ⟨m₁, hm₁, m₂, _, rfl⟩ := hm
  have h1 := (matchP_litsP_shape hm₁).1
  exact containsSeq_of_isPrefixOf (by rw [h1]; exact isPrefixOf_append_self w m₂.1)

theorem matchP_hasLit_mem {ch : Char} {p : Pat}
    (hlit : Item.simple (SItem.lit ch) ∈ p) :
    ∀ {s m}, m ∈ matchP p s → ch ∈ m.1 := by
  induction p with
  | nil => simp at hlit
  | cons it p ih =>
      intro s m hm
      rcases List.mem_cons.mp hlit with hhd | htl
      · subst hhd
        simp only [matchP, List.mem_flatMap, List.mem_map] at hm
        obtain ⟨pr, hpr, q, _, rfl⟩ := hm
        cases s with
        | nil => simp [sAlts] at hpr
        | cons d s =>
            simp only [sAlts] at hpr
            split at hpr
            · next hd => simp only [List.mem_singleton] at hpr; subst hpr; simp [hd]
            · simp at hpr
      · cases it with
        | simple si =>
            simp only [matchP, List.mem_flatMap, List.mem_map] at hm
            obtain ⟨pr, hpr, q, hq, rfl⟩ := hm
            have := ih htl hq
            simp [this]
        | group sub =>
            simp only [matchP, List.mem_flatMap, List.mem_map] at hm
            obtain ⟨pr, hpr, q, hq, rfl⟩ := hm
            have := ih htl hq
            simp [this]

theorem firstM_mem {p : Pat} {s : List Char} {m} (h : firstM p s = some m) :
    m ∈ matchP p s := by
  unfold firstM at h
  cases hmp : matchP p s with
  | nil => simp [hmp] at h
  | cons a l => simp [hmp] at h; simp [h]

/-! ## Identity lemmas for `re.sub` -/

theorem subTF_id_of_noMatch (p : Pat) (f : List (List Char) → List Char) :
    ∀ n s, (∀ i, firstM p (List.drop i s) = none) → subTF p f n s = s := by
  intro n
  induction n with
  | zero => intro s _; rfl
  | succ n ih =>
      intro s h
      have h0 := h 0
      simp only [List.drop_zero] at h0
      cases s with
      | nil => simp [subTF, h0]
      | cons d s' =>
          have : subTF p f (n + 1) (d :: s') = d :: subTF p f n s' := by
            simp [subTF, h0]
          rw [this, ih s' (fun i => by simpa using h (i + 1))]

theorem firstM_none_of_all_contain {p : Pat} {u : List Char}
    (hall : ∀ s' m, m ∈ matchP p s' → containsSeq u m.1 = true)
    {s : List Char} (hs : containsSeq u s = false) : firstM p s = none := by
  cases hfm : firstM p s with
  | none => rfl
  | some m =>
      exfalso
      have hm := firstM_mem hfm
      have h1 := hall s m hm
      have h2 := matchP_mem hm
      have : containsSeq u s = true := by
        rw [← h2]; exact containsSeq_append_left h1
      rw [this] at hs
      exact absurd hs (by simp)

theorem containsSeq_drop_false {u s : List Char} (hs : containsSeq u s = false) (i : Nat) :
    containsSeq u (s.drop i) = false := by
  cases h : containsSeq u (s.drop i) with
  | false => rfl
  | true =>
      exfalso
      have : containsSeq u s = true := by
        have := containsSeq_append_right (x := s.take i) h
        rwa [List.take_append_drop] at this
      rw [this] at hs
      exact absurd hs (by simp)

theorem subTF_id_of_contain {p : Pat} {u : List Char}
    (hall : ∀ s' m, m ∈ matchP p s' → containsSeq u m.1 = true)
    (f : List (List Char) → List Char) {s : List Char}
    (hs : containsSeq u s = false) (n : Nat) : subTF p f n s = s :=
  subTF_id_of_noMatch p f n s (fun i =>
    firstM_none_of_all_contain hall (containsSeq_drop_false hs i))

/-- `re.sub` with a pattern that starts with a literal word leaves any text
not containing that word unchanged. -/
theorem pySub_id_litsP {w : List Char} {p' : Pat} {tmpl : List TItem} {s : List Char}
    (hs : containsSeq w s = false) : pySub (litsP w ++ p') tmpl s = s :=
  subTF_id_of_contain (matchP_litsP_head_contains) _ hs _

theorem pySubF_id_litsP {w : List Char} {p' : Pat} {f : List (List Char) → List Char}
    {s : List Char} (hs : containsSeq w s = false) : pySubF (litsP w ++ p') f s = s :=
  subTF_id_of_contain (matchP_litsP_head_contains) _ hs _

theorem containsSeq_single_mem {ch : Char} {s : List Char}
    (h : containsSeq [ch] s = true) : ch ∈ s := by
  induction s with
  | nil => simp [containsSeq, List.isEmpty] at h
  | cons d s ih =>
      simp only [containsSeq, Bool.or_eq_true] at h
      rcases h with h | h
      · simp only [List.isPrefixOf, Bool.and_eq_true, beq_iff_eq] at h
        simp [h.1]
      · exact List.mem_cons_of_mem _ (ih h)

theorem containsSeq_single_of_mem {ch : Char} {s : List Char}
    (h : ch ∈ s) : containsSeq [ch] s = true := by
  induction s with
  | nil => simp at h
  | cons d s ih =>
      rcases List.mem_cons.mp h with rfl | h
      · simp [containsSeq, List.isPrefixOf]
      · exact containsSeq_cons_of d (ih h)

/-- `re.sub` with a pattern containing a literal character leaves any text
without that character unchanged. -/
theorem pySub_id_hasLit {ch : Char} {p : Pat}
    (hlit : Item.simple (SItem.lit ch) ∈ p) {tmpl : List TItem} {s : List Char}
    (hs : ch ∉ s) : pySub p tmpl s = s := by
  refine subTF_id_of_contain (u := [ch]) ?_ _ ?_ _
  · intro s' m hm
    exact containsSeq_single_of_mem (matchP_hasLit_mem hlit hm)
  · cases h : containsSeq [ch] s with
    | false => rfl
    | true => exact absurd (containsSeq_single_mem h) hs

/-! ## Character-subset lemma for template substitution -/

/-- Literal characters of a replacement template. -/
def tmplChars (tmpl : List TItem) : List Char :=
  tmpl.flatMap fun t => match t with | .litS w => w | .ref _ => []

theorem instT_chars {tmpl : List TItem} {g : List (List Char)} {ch : Char}
    (h : ch ∈ instT tmpl g) : ch ∈ tmplChars tmpl ∨ ∃ cap ∈ g, ch ∈ cap := by
  simp only [instT, List.mem_flatMap] at h
  obtain ⟨t, ht, hch⟩ := h
  cases t with
  | litS w => exact Or.inl (by simp [tmplChars]; exact ⟨TItem.litS w, ht, hch⟩)
  | ref i =>
      simp only at hch
      cases hg : g.get? (i - 1) with
      | none => rw [List.getD_eq_getD_get?, hg] at hch; simp at hch
      | some cap =>
          rw [List.getD_eq_getD_get?, hg] at hch
          exact Or.inr ⟨cap, List.get?_mem hg, by simpa using hch⟩

theorem subTF_chars {p : Pat} {tmpl : List TItem} :
    ∀ n s ch, ch ∈ subTF p (instT tmpl) n s → ch ∈ s ∨ ch ∈ tmplChars tmpl := by
  intro n
  induction n with
  | zero => intro s ch h; exact Or.inl h
  | succ n ih =>
      intro s ch h
      simp only [subTF] at h
      cases hfm : firstM p s with
      | some m =>
          obtain ⟨c, g, r⟩ := m
          rw [hfm] at h
          simp only at h
          have hmem := firstM_mem hfm
          have hsplit := matchP_mem hmem
          by_cases hc : c.isEmpty
          · rw [if_pos hc] at h
            cases s with
            | nil =>
                rcases instT_chars h with h' | ⟨cap, hcap, hch⟩
                · exact Or.inr h'
                · have := matchP_caps hmem cap hcap ch hch
                  simp only at hsplit
                  rw [← hsplit]; exact Or.inl (List.mem_append_left _ this)
            | cons d s' =>
                rcases List.mem_append.mp h with h' | h'
                · rcases instT_chars h' with h'' | ⟨cap, hcap, hch⟩
                  · exact Or.inr h''
                  · have := matchP_caps hmem cap hcap ch hch
                    rw [← hsplit]; exact Or.inl (List.mem_append_left _ this)
                · rcases List.mem_cons.mp h' with rfl | h''
                  · exact Or.inl (List.mem_cons_self _ _)
                  · rcases ih s' ch h'' with h3 | h3
                    · exact Or.inl (List.mem_cons_of_mem _ h3)
                    · exact Or.inr h3
          · rw [if_neg hc] at h
            rcases List.mem_append.mp h with h' | h'
            · rcases instT_chars h' with h'' | ⟨cap, hcap, hch⟩
              · exact Or.inr h''
              · have := matchP_caps hmem cap hcap ch hch
                rw [← hsplit]; exact Or.inl (List.mem_append_left _ this)
            · rcases ih r ch h' with h3 | h3
              · rw [← hsplit]; exact Or.inl (List.mem_append_right _ h3)
              · exact Or.inr h3
      | none =>
          rw [hfm] at h
          simp only at h
          cases s with
          | nil => simp at h
          | cons d s' =>
              rcases List.mem_cons.mp h with rfl | h'
              · exact Or.inl (List.mem_cons_self _ _)
              · rcases ih s' ch h' with h3 | h3
                · exact Or.inl (List.mem_cons_of_mem _ h3)
                · exact Or.inr h3

theorem pySub_chars {p : Pat} {tmpl : List TItem} {s : List Char} {ch : Char}
    (h : ch ∈ pySub p tmpl s) : ch ∈ s ∨ ch ∈ tmplChars tmpl :=
  subTF_chars _ _ _ h

/-! ## `str.replace` lemmas -/

theorem pyReplaceF_singleChar (c : Char) (rep : List Char) :
    ∀ n s, s.length < n →
      pyReplaceF [c] rep n s = s.flatMap (fun d => if d = c then rep else [d]) := by
  intro n
  induction n with
  | zero => intro s h; omega
  | succ n ih =>
      intro s h
      cases s with
      | nil => simp [pyReplaceF]
      | cons d s' =>
          have hlen : s'.length < n := by simpa using Nat.lt_of_succ_lt_succ h
          by_cases hd : d = c
          · subst hd
            have hcond : (List.isPrefixOf [d] (d :: s') = true) ∧ ¬ ([d].isEmpty = true) :=
              ⟨by simp [List.isPrefixOf], by simp⟩
            simp only [pyReplaceF, if_pos hcond, List.length_cons, List.length_nil,
              Nat.zero_add, List.drop_succ_cons, List.drop_zero]
            rw [ih s' hlen]
            simp
          · have hcond : ¬ ((List.isPrefixOf [c] (d :: s') = true) ∧ ¬ ([c].isEmpty = true)) := by
              rintro ⟨hpre, -⟩
              simp only [List.isPrefixOf, Bool.and_eq_true, beq_iff_eq] at hpre
              exact hd hpre.1.symm
            simp only [pyReplaceF, if_neg hcond]
            rw [ih s' hlen]
            simp [hd]

theorem pyReplace_singleChar (c : Char) (rep s : List Char) :
    pyReplace [c] rep s = s.flatMap (fun d => if d = c then rep else [d]) :=
  pyReplaceF_singleChar c rep (s.length + 1) s (Nat.lt_succ_self _)

theorem pyReplace_single_kill {c : Char} {rep : List Char} (hc : c ∉ rep) (s : List Char) :
    c ∉ pyReplace [c] rep s := by
  rw [pyReplace_singleChar]
  intro h
  simp only [List.mem_flatMap] at h
  obtain ⟨d, _, hd⟩ := h
  by_cases hdc : d = c
  · rw [if_pos hdc] at hd; exact hc hd
  · rw [if_neg hdc] at hd; simp at hd; exact hdc hd.symm

theorem pyReplace_single_chars {c ch : Char} {rep s : List Char}
    (h : ch ∈ pyReplace [c] rep s) : ch ∈ s ∨ ch ∈ rep := by
  rw [pyReplace_singleChar] at h
  simp only [List.mem_flatMap] at h
  obtain ⟨d, hd, hch⟩ := h
  by_cases hdc : d = c
  · rw [if_pos hdc] at hch; exact Or.inr hch
  · rw [if_neg hdc] at hch; simp at hch; exact Or.inl (hch ▸ hd)

theorem pyReplace_single_id {c : Char} {rep : List Char} :
    ∀ {s : List Char}, c ∉ s → pyReplace [c] rep s = s := by
  intro s
  induction s with
  | nil => intro _; rfl
  | cons d s' ih =>
      intro h
      simp only [List.mem_cons, not_or] at h
      rw [pyReplace_singleChar, List.flatMap_cons,
        if_neg (fun hdc => h.1 hdc.symm), List.singleton_append]
      have := ih h.2
      rw [pyReplace_singleChar] at this
      rw [this]

/-! ## `html.unescape` identity -/

theorem unescapeF_id : ∀ n s, '&' ∉ s → unescapeF n s = s := by
  intro n
  induction n with
  | zero => intro s _; rfl
  | succ n ih =>
      intro s h
      cases s with
      | nil => rfl
      | cons c rest =>
          simp only [List.mem_cons, not_or] at h
          simp only [unescapeF, if_neg (show ¬ c = '&' from fun hc => h.1 hc.symm)]
          rw [ih rest h.2]

theorem htmlUnescape_id {s : List Char} (h : '&' ∉ s) : htmlUnescape s = s :=
  unescapeF_id _ s h

/-! ## C-comment removal identity -/

theorem removeCCommentsF_id : ∀ n s, containsSeq (toL "/*") s = false →
    removeCCommentsF n s = s := by
  intro n
  induction n with
  | zero => intro s _; rfl
  | succ n ih =>
      intro s h
      cases s with
      | nil => rfl
      | cons c rest =>
          have hcond : ¬ (c = '/' ∧ rest.head? = some '*') := by
            rintro ⟨rfl, hhd⟩
            cases rest with
            | nil => simp at hhd
            | cons d rest' =>
                simp only [List.head?_cons, Option.some_inj] at hhd
                subst hhd
                have : containsSeq (toL "/*") ('/' :: '*' :: rest') = true :=
                  containsSeq_of_isPrefixOf (by simp [toL, List.isPrefixOf])
                rw [this] at h
                exact absurd h (by simp)
          simp only [removeCCommentsF, if_neg hcond]
          congr 1
          refine ih rest ?_
          cases hr : containsSeq (toL "/*") rest with
          | false => rfl
          | true => rw [containsSeq_cons_of c hr] at h; exact absurd h (by simp)

theorem removeCComments_id {s : List Char} (h : containsSeq (toL "/*") s = false) :
    removeCComments s = s :=
  removeCCommentsF_id _ s h

/-! ## `strip` lemmas -/

theorem dropTrail_mem {f : Char → Bool} {s : List Char} {ch : Char}
    (h : ch ∈ dropTrail f s) : ch ∈ s := by
  simp only [dropTrail, List.mem_reverse] at h
  exact List.mem_reverse.mp ((List.dropWhile_sublist f).subset h)

theorem pyStrip_mem {s : List Char} {ch : Char} (h : ch ∈ pyStrip s) : ch ∈ s := by
  simp only [pyStrip] at h
  exact (List.dropWhile_sublist isWS).subset (dropTrail_mem h)

theorem dropWhile_eq_drop_my (p : Char → Bool) (l : List Char) :
    ∃ j, l.dropWhile p = l.drop j := by
  induction l with
  | nil => exact ⟨0, rfl⟩
  | cons c l ih =>
      by_cases hc : p c
      · obtain ⟨j, hj⟩ := ih
        exact ⟨j + 1, by simp [List.dropWhile, hc, hj]⟩
      · exact ⟨0, by simp [List.dropWhile, hc]⟩

theorem dropTrail_eq_take (f : Char → Bool) (l : List Char) :
    ∃ k, dropTrail f l = l.take k := by
  obtain ⟨j, hj⟩ := dropWhile_eq_drop_my f l.reverse
  refine ⟨l.length - j, ?_⟩
  rw [dropTrail, hj, List.reverse_drop]
  simp

theorem containsSeq_take_mono {u l : List Char} {k : Nat}
    (h : containsSeq u (l.take k) = true) : containsSeq u l = true := by
  have := containsSeq_append_left (y := l.drop k) h
  rwa [List.take_append_drop] at this

theorem containsSeq_drop_mono {u l : List Char} {k : Nat}
    (h : containsSeq u (l.drop k) = true) : containsSeq u l = true := by
  have := containsSeq_append_right (x := l.take k) h
  rwa [List.take_append_drop] at this

theorem containsSeq_pyStrip_mono {u s : List Char}
    (h : containsSeq u (pyStrip s) = true) : containsSeq u s = true := by
  obtain ⟨k, hk⟩ := dropTrail_eq_take isWS (s.dropWhile isWS)
  obtain ⟨j, hj⟩ := dropWhile_eq_drop_my isWS s
  rw [pyStrip, hk, hj] at h
  exact containsSeq_drop_mono (containsSeq_take_mono h)

theorem head?_dropWhile_not {p : Char → Bool} :
    ∀ {l : List Char} {c : Char}, (l.dropWhile p).head? = some c → p c = false := by
  intro l
  induction l with
  | nil => intro c h; simp [List.dropWhile] at h
  | cons d l ih =>
      intro c h
      by_cases hd : p d
      · rw [List.dropWhile_cons_of_pos hd] at h; exact ih h
      · rw [List.dropWhile_cons_of_neg hd] at h
        simp only [List.head?_cons, Option.some_inj] at h
        subst h
        simpa using hd

theorem dropWhile_eq_self_of_head {p : Char → Bool} {l : List Char}
    (h : ∀ c, l.head? = some c → p c = false) : l.dropWhile p = l := by
  cases l with
  | nil => rfl
  | cons c l => rw [List.dropWhile_cons_of_neg (by simp [h c rfl])]

theorem dropWhile_idem (p : Char → Bool) (l : List Char) :
    (l.dropWhile p).dropWhile p = l.dropWhile p :=
  dropWhile_eq_self_of_head (fun _ hc => head?_dropWhile_not hc)

theorem dropTrail_idem (f : Char → Bool) (l : List Char) :
    dropTrail f (dropTrail f l) = dropTrail f l := by
  simp only [dropTrail, List.reverse_reverse]
  rw [dropWhile_idem]

theorem head?_take_eq {l : List Char} {k : Nat} {c : Char}
    (h : (l.take k).head? = some c) : l.head? = some c := by
  cases l with
  | nil => simp at h
  | cons d l =>
      cases k with
      | zero => simp at h
      | succ k => simpa using h

theorem pyStrip_idem (s : List Char) : pyStrip (pyStrip s) = pyStrip s := by
  have h1 : (pyStrip s).dropWhile isWS = pyStrip s := by
    refine dropWhile_eq_self_of_head ?_
    intro c hc
    obtain ⟨k, hk⟩ := dropTrail_eq_take isWS (s.dropWhile isWS)
    rw [pyStrip, hk] at hc
    exact head?_dropWhile_not (head?_take_eq hc)
  rw [pyStrip, h1, pyStrip, dropTrail_idem]

/-! ## Single-character-class removal is `filter` (slugify's `[^\w\s-]`) -/

theorem subTF_cls_remove (g : Char → Bool) :
    ∀ n s, s.length < n →
      subTF [iCls g] (instT (tLit [])) n s = s.filter (fun c => !g c) := by
  intro n
  induction n with
  | zero => intro s h; omega
  | succ n ih =>
      intro s h
      cases s with
      | nil => simp [subTF, firstM, matchP, iCls, sAlts]
      | cons d s' =>
          have hlen : s'.length < n := by simpa using Nat.lt_of_succ_lt_succ h
          by_cases hd : g d
          · have : firstM [iCls g] (d :: s') = some ([d], [], s') := by
              simp [firstM, matchP, iCls, sAlts, hd]
            simp only [subTF, this]
            rw [if_neg (by simp)]
            simp only [instT, tLit, List.filter_cons, hd, List.flatMap_cons,
              List.flatMap_nil, List.append_nil, List.nil_append, Bool.not_true,
              cond_false]
            exact ih s' hlen
          · have : firstM [iCls g] (d :: s') = none := by
              simp [firstM, matchP, iCls, sAlts, hd]
            simp only [subTF, this]
            rw [ih s' hlen]
            simp [hd]

theorem pySub_cls_remove (g : Char → Bool) (s : List Char) :
    pySub [iCls g] (tLit []) s = s.filter (fun c => !g c) :=
  subTF_cls_remove g (s.length + 1) s (Nat.lt_succ_self _)

/-! ## Head-of-match evaluation toolkit

Python's engine commits to the first (highest-priority) alternative whose
continuation succeeds; for the concrete/symbolic inputs below the head
alternative always succeeds, so `head?`-chaining lemmas suffice. -/

theorem head?_flatMap_of_head {α β : Type} {l : List α} {g : α → List β} {a : α} {b : β}
    (hl : l.head? = some a) (hg : (g a).head? = some b) : (l.flatMap g).head? = some b := by
  cases l with
  | nil => simp at hl
  | cons x t =>
      have hxa : x = a := by simpa using hl
      rw [List.flatMap_cons, hxa]
      cases hga : g a with
      | nil => simp [hga] at hg
      | cons y u =>
          simp only [List.cons_append, List.head?_cons]
          rw [hga] at hg
          simpa using hg

theorem splitsAsc_getLast (w : List Char) : ∀ r, (splitsAsc w r).getLast? = some (w, r) := by
  induction w with
  | nil => intro r; simp [splitsAsc]
  | cons c w ih =>
      intro r
      simp only [splitsAsc]
      rw [List.getLast?_cons]
      cases hmap : (splitsAsc w r).map (fun p => (c :: p.1, p.2)) with
      | nil =>
          exfalso
          have := ih r
          cases hsp : splitsAsc w r with
          | nil => rw [hsp] at this; simp at this
          | cons a t => rw [hsp] at hmap; simp at hmap
      | cons a t =>
          rw [← hmap]
          rw [List.getLast?_map]
          rw [ih r]
          rfl

theorem head?_reverse_eq_getLast {α : Type} (l : List α) : l.reverse.head? = l.getLast? := by
  exact List.head?_reverse l

theorem head?_filter_of_head {α : Type} {l : List α} {p : α → Bool} {a : α}
    (hl : l.head? = some a) (hp : p a = true) : (l.filter p).head? = some a := by
  cases l with
  | nil => simp at hl
  | cons x t =>
      simp only [List.head?_cons, Option.some_inj] at hl
      subst hl
      simp [List.filter_cons, hp]

/-- Head alternative of a greedy star: the maximal run. -/
theorem sAlts_star_head (f : Char → Bool) (s : List Char) :
    (sAlts (.star f true) s).head? = some (s.takeWhile f, s.dropWhile f) := by
  simp only [sAlts, if_true]
  rw [head?_reverse_eq_getLast, splitsAsc_getLast]

/-- Head alternative of a greedy plus with a non-empty maximal run. -/
theorem sAlts_plus_head {f : Char → Bool} {s : List Char} (h : s.takeWhile f ≠ []) :
    (sAlts (.plus f) s).head? = some (s.takeWhile f, s.dropWhile f) := by
  simp only [sAlts]
  refine head?_filter_of_head ?_ (by simpa using h)
  rw [head?_reverse_eq_getLast, splitsAsc_getLast]

/-- Head alternative of an optional item whose test accepts the head. -/
theorem sAlts_opt_head_pos {f : Char → Bool} {d : Char} {s : List Char} (h : f d = true) :
    (sAlts (.opt f) (d :: s)).head? = some ([d], s) := by
  simp [sAlts, h]

theorem sAlts_lit_head (c : Char) (s : List Char) :
    (sAlts (.lit c) (c :: s)).head? = some ([c], s) := by
  simp [sAlts]

/-- Chain a simple item's head alternative with a successful continuation. -/
theorem firstM_cons_simple {it : SItem} {p : Pat} {s : List Char}
    {pr : List Char × List Char} {c : List Char} {g : List (List Char)} {r : List Char}
    (h1 : (sAlts it s).head? = some pr) (h2 : firstM p pr.2 = some (c, g, r)) :
    firstM (.simple it :: p) s = some (pr.1 ++ c, g, r) := by
  unfold firstM at h2 ⊢
  rw [matchP]
  refine head?_flatMap_of_head h1 ?_
  cases hm : matchP p pr.2 with
  | nil => rw [hm] at h2; simp at h2
  | cons m t =>
      rw [hm] at h2
      simp only [List.head?_cons, Option.some_inj] at h2
      simp [h2]

/-- Chain a group's head match with a successful continuation. -/
theorem firstM_cons_group {sub : List SItem} {p : Pat} {s : List Char}
    {pr : List Char × List Char} {c : List Char} {g : List (List Char)} {r : List Char}
    (h1 : (matchS sub s).head? = some pr) (h2 : firstM p pr.2 = some (c, g, r)) :
    firstM (.group sub :: p) s = some (pr.1 ++ c, pr.1 :: g, r) := by
  unfold firstM at h2 ⊢
  rw [matchP]
  refine head?_flatMap_of_head h1 ?_
  cases hm : matchP p pr.2 with
  | nil => rw [hm] at h2; simp at h2
  | cons m t =>
      rw [hm] at h2
      simp only [List.head?_cons, Option.some_inj] at h2
      simp [h2]

theorem firstM_nil (s : List Char) : firstM [] s = some ([], [], s) := rfl

/-- Head match inside a group: chain one element then the rest. -/
theorem matchS_cons_head {it : SItem} {its : List SItem} {s : List Char}
    {pr q : List Char × List Char}
    (h1 : (sAlts it s).head? = some pr) (h2 : (matchS its pr.2).head? = some q) :
    (matchS (it :: its) s).head? = some (pr.1 ++ q.1, q.2) := by
  rw [matchS]
  refine head?_flatMap_of_head h1 ?_
  cases hm : matchS its pr.2 with
  | nil => rw [hm] at h2; simp at h2
  | cons m t =>
      rw [hm] at h2
      simp only [List.head?_cons, Option.some_inj] at h2
      simp [h2]

theorem matchS_nil_head (s : List Char) : (matchS [] s).head? = some ([], s) := rfl

/-- Prefix literals consume themselves. -/
theorem firstM_litsP {w : List Char} {p : Pat} {s : List Char}
    {c : List Char} {g : List (List Char)} {r : List Char}
    (h : firstM p s = some (c, g, r)) :
    firstM (litsP w ++ p) (w ++ s) = some (w ++ c, g, r) := by
  unfold firstM at h ⊢
  rw [matchP_litsP_front]
  rw [List.head?_map, h]
  rfl

theorem matchP_litsP_none {w : List Char} :
    ∀ {s : List Char}, w.isPrefixOf s = false → ∀ (p : Pat), matchP (litsP w ++ p) s = [] := by
  intro s hpre p
  rw [matchP_append]
  have : matchP (litsP w) s = [] := by
    cases hm : matchP (litsP w) s with
    | nil => rfl
    | cons m t =>
        exfalso
        have hshape := matchP_litsP_shape (show m ∈ matchP (litsP w) s by rw [hm]; simp)
        rw [hshape.2.2] at hpre
        rw [isPrefixOf_append_self] at hpre
        simp at hpre
  rw [this]
  rfl

theorem firstM_litsP_none {w : List Char} {s : List Char} (hpre : w.isPrefixOf s = false)
    (p : Pat) : firstM (litsP w ++ p) s = none := by
  unfold firstM
  rw [matchP_litsP_none hpre]
  rfl

/-! ## Fuel insensitivity and step lemmas for the drivers -/

theorem subTF_nil (p : Pat) (f : List (List Char) → List Char) (n : Nat)
    (h : firstM p [] = none) : subTF p f n [] = [] := by
  cases n with
  | zero => rfl
  | succ n => simp [subTF, h]

theorem subTF_step_match {p : Pat} {f : List (List Char) → List Char} {s : List Char}
    {c : List Char} {g : List (List Char)} {r : List Char} {n : Nat}
    (h : firstM p s = some (c, g, r)) (hc : c ≠ []) :
    subTF p f (n + 1) s = f g ++ subTF p f n r := by
  simp [subTF, h, List.isEmpty_iff, hc]

theorem subTF_step_none {p : Pat} {f : List (List Char) → List Char} {d : Char}
    {s : List Char} {n : Nat} (h : firstM p (d :: s) = none) :
    subTF p f (n + 1) (d :: s) = d :: subTF p f n s := by
  simp [subTF, h]

theorem firstM_consumed_ne_nil {p : Pat} {s : List Char}
    {c : List Char} {g : List (List Char)} {r : List Char}
    (h : firstM p s = some (c, g, r)) (hc : c ≠ []) : r.length < s.length := by
  have := matchP_mem (firstM_mem h)
  simp only at this
  have : c.length + r.length = s.length := by
    rw [← this, List.length_append]
  cases hcl : c.length with
  | zero => exact absurd (List.length_eq_zero.mp hcl) hc
  | succ k => omega

theorem subTF_fuel_aux {p : Pat} {f : List (List Char) → List Char} :
    ∀ len s n m, s.length = len → s.length < n → s.length < m →
      subTF p f n s = subTF p f m s := by
  intro len
  induction len using Nat.strong_induction_on with
  | _ len ih =>
      intro s n m hlen hn hm
      subst hlen
      cases n with
      | zero => omega
      | succ n =>
          cases m with
          | zero => omega
          | succ m =>
              cases hfm : firstM p s with
              | some tr =>
                  obtain ⟨c, g, r⟩ := tr
                  by_cases hc : c = []
                  · subst hc
                    cases s with
                    | nil => simp [subTF, hfm]
                    | cons d s' =>
                        have h1 : subTF p f (n + 1) (d :: s') = f g ++ d :: subTF p f n s' := by
                          simp [subTF, hfm]
                        have h2 : subTF p f (m + 1) (d :: s') = f g ++ d :: subTF p f m s' := by
                          simp [subTF, hfm]
                        rw [h1, h2, ih s'.length (by simp) s' n m rfl (by simp at hn; omega)
                          (by simp at hm; omega)]
                  · have hr := firstM_consumed_ne_nil hfm hc
                    rw [subTF_step_match hfm hc, subTF_step_match hfm hc,
                      ih r.length (by omega) r n m rfl (by omega) (by omega)]
              | none =>
                  cases s with
                  | nil => simp [subTF, hfm]
                  | cons d s' =>
                      rw [subTF_step_none hfm, subTF_step_none hfm,
                        ih s'.length (by simp) s' n m rfl (by simp at hn; omega)
                          (by simp at hm; omega)]

theorem subTF_fuel {p : Pat} {f : List (List Char) → List Char}
    (s : List Char) (n m : Nat) (hn : s.length < n) (hm : s.length < m) :
    subTF p f n s = subTF p f m s :=
  subTF_fuel_aux s.length s n m rfl hn hm

/-- One matched step of `re.sub`, at the wrapper level. -/
theorem pySub_step_match {p : Pat} {tmpl : List TItem} {s : List Char}
    {c : List Char} {g : List (List Char)} {r : List Char}
    (h : firstM p s = some (c, g, r)) (hc : c ≠ []) :
    pySub p tmpl s = instT tmpl g ++ pySub p tmpl r := by
  unfold pySub
  rw [subTF_step_match h hc]
  congr 1
  exact subTF_fuel r s.length (r.length + 1) (firstM_consumed_ne_nil h hc)
    (Nat.lt_succ_self _)

/-- One skipped character of `re.sub`. -/
theorem pySub_step_none {p : Pat} {tmpl : List TItem} {d : Char} {s : List Char}
    (h : firstM p (d :: s) = none) :
    pySub p tmpl (d :: s) = d :: pySub p tmpl s := by
  unfold pySub
  exact subTF_step_none h

theorem pySub_nil (p : Pat) (tmpl : List TItem) (h : firstM p [] = none) :
    pySub p tmpl [] = [] :=
  subTF_nil p _ _ h

theorem searchF_fuel_aux {p : Pat} :
    ∀ len s n m, s.length = len → s.length < n → s.length < m →
      searchF p n s = searchF p m s := by
  intro len
  induction len using Nat.strong_induction_on with
  | _ len ih =>
      intro s n m hlen hn hm
      subst hlen
      cases n with
      | zero => omega
      | succ n =>
          cases m with
          | zero => omega
          | succ m =>
              cases hfm : firstM p s with
              | some tr => simp [searchF, hfm]
              | none =>
                  cases s with
                  | nil => simp [searchF, hfm]
                  | cons d s' =>
                      simp only [searchF, hfm]
                      exact ih s'.length (by simp) s' n m rfl (by simp at hn; omega)
                        (by simp at hm; omega)

theorem pySearch_head_match {p : Pat} {s : List Char}
    {c : List Char} {g : List (List Char)} {r : List Char}
    (h : firstM p s = some (c, g, r)) : pySearch p s = some g := by
  unfold pySearch
  simp [searchF, h]

theorem pySearch_skip_head {p : Pat} {d : Char} {s : List Char}
    (h : firstM p (d :: s) = none) : pySearch p (d :: s) = pySearch p s := by
  unfold pySearch
  simp only [searchF, h, List.length_cons]

theorem pySearch_nil_none {p : Pat} (h : firstM p [] = none) : pySearch p [] = none := by
  unfold pySearch
  simp [searchF, h]

/-! ## Claim C3: the page-hierarchy walk and parent-link cycles -/

/-- Two pages whose parent links form a cycle. -/
def cyclePages : List PageRec :=
  [PageRec.mk 1 "a" 2 "A", PageRec.mk 2 "b" 1 "B"]

theorem cycle_loop_none : ∀ n (path path' : List String),
    getPathLoop cyclePages n path (PageRec.mk 1 "a" 2 "A") = none ∧
    getPathLoop cyclePages n path' (PageRec.mk 2 "b" 1 "B") = none := by
  intro n
  induction n with
  | zero => intro path path'; exact ⟨rfl, rfl⟩
  | succ n ih =>
      intro path path'
      have hA : pageLookup cyclePages 2 = some (PageRec.mk 2 "b" 1 "B") := by decide
      have hB : pageLookup cyclePages 1 = some (PageRec.mk 1 "a" 2 "A") := by decide
      constructor
      · rw [show getPathLoop cyclePages (n + 1) path (PageRec.mk 1 "a" 2 "A") =
            getPathLoop cyclePages n ("b" :: path) (PageRec.mk 2 "b" 1 "B") by
          simp [getPathLoop, hA]]
        exact (ih path' ("b" :: path)).2
      · rw [show getPathLoop cyclePages (n + 1) path' (PageRec.mk 2 "b" 1 "B") =
            getPathLoop cyclePages n ("a" :: path') (PageRec.mk 1 "a" 2 "A") by
          simp [getPathLoop, hB]]
        exact (ih ("a" :: path') path').1


/-- Membership of a successful lookup. -/
theorem pageLookup_mem {ps : List PageRec} {i : Nat} {q : PageRec}
    (h : pageLookup ps i = some q) : q ∈ ps := by
  have := List.mem_of_find?_eq_some h
  exact List.mem_reverse.mp this

/-- Decidable acyclicity certificate: a rank that strictly decreases along
every resolvable parent link. -/
def rankOk (ps : List PageRec) (rk : Nat → Nat) : Bool :=
  ps.all (fun p =>
    match pageLookup ps p.parentId with
    | some q => decide (rk q.id < rk p.id)
    | none => true)

theorem getPathLoop_isSome_of_rank (ps : List PageRec) (rk : Nat → Nat)
    (hok : rankOk ps rk = true) :
    ∀ n p path, p ∈ ps → rk p.id < n → (getPathLoop ps n path p).isSome = true := by
  intro n
  induction n with
  | zero => intro p path _ h; omega
  | succ n ih =>
      intro p path hp h
      by_cases hpar : p.parentId > 0
      · cases hl : pageLookup ps p.parentId with
        | none => simp [getPathLoop, hpar, hl]
        | some q =>
            have hq_mem : q ∈ ps := pageLookup_mem hl
            have hrk : rk q.id < rk p.id := by
              have hall := List.all_eq_true.mp hok p hp
              rw [hl] at hall
              simpa using hall
            simp only [getPathLoop, if_pos hpar, hl]
            exact ih q (q.slug :: path) hq_mem (by omega)
      · simp [getPathLoop, hpar]

/-- Claim C3 (counterexample): the claim says `get_path` terminates on every
collection, including ones whose parent links form a cycle, by tracking
visited ancestors.  The source keeps no visited set: on the two-page cycle
`cyclePages` the walk started at page 1 never terminates, whatever fuel it
is given. -/
theorem C3_counterexample : ¬ getPathTerminates cyclePages (PageRec.mk 1 "a" 2 "A") := by
  rintro ⟨fuel, h⟩
  rw [get_path, (cycle_loop_none fuel ["a"] ["b"]).1] at h
  simp at h

/-- Claim C3 (amended): `get_path` terminates for every page of a collection
whose parent links admit a strictly decreasing rank (equivalently, are
acyclic); on cyclic parent links the walk loops forever, since the code
keeps no visited set. -/
theorem C3_amended (ps : List PageRec) (rk : Nat → Nat) (p : PageRec)
    (hok : rankOk ps rk = true) (hp : p ∈ ps) : getPathTerminates ps p := by
  refine ⟨rk p.id + 1, ?_⟩
  rw [get_path]
  have h := getPathLoop_isSome_of_rank ps rk hok (rk p.id + 1) p [p.slug] hp
    (Nat.lt_succ_self _)
  cases hl : getPathLoop ps (rk p.id + 1) [p.slug] p with
  | none => rw [hl] at h; simp at h
  | some path => simp [hl]

/-- Witness for C3 (amended): the three-level hierarchy root → about → team
is acyclic (rank = page id), and the walk terminates on the `team` page. -/
theorem C3_amended_witness :
    getPathTerminates
      [PageRec.mk 1 "root" 0 "R", PageRec.mk 2 "about" 1 "A", PageRec.mk 3 "team" 2 "T"]
      (PageRec.mk 3 "team" 2 "T") :=
  C3_amended _ (fun i => i) _ (by decide) (by decide)

/-! ## Claim C2: no raw brace survives in the final output -/

theorem notMem_pySub {p : Pat} {tmpl : List TItem} {s : List Char} {ch : Char}
    (h1 : ch ∉ s) (h2 : ch ∉ tmplChars tmpl) : ch ∉ pySub p tmpl s :=
  fun h => (pySub_chars h).elim h1 h2

theorem notMem_pyStrip {s : List Char} {ch : Char} (h : ch ∉ s) : ch ∉ pyStrip s :=
  fun hh => h (pyStrip_mem hh)

theorem escapeBraces_no_brace (z : List Char) :
    '{' ∉ escapeBraces z ∧ '}' ∉ escapeBraces z := by
  have h1o : '{' ∉ pyReplace (toL "\x7b") (toL "&#123;") z :=
    pyReplace_single_kill (by decide) z
  exact ⟨fun h => (pyReplace_single_chars h).elim h1o (by decide),
    pyReplace_single_kill (by decide) _⟩

theorem wsCleanup_notMem {z : List Char} {ch : Char} (hch : ch ∉ toL " \n")
    (h : ch ∉ z) : ch ∉ wsCleanup z := by
  have hs : ch ≠ ' ' ∧ ch ≠ '\n' := by
    constructor <;> rintro rfl <;> simp [toL] at hch
  refine notMem_pySub (notMem_pySub (notMem_pySub (notMem_pySub h ?_) ?_) ?_) ?_ <;>
    simp [tmplChars, tLit, toL, hs.1, hs.2]

/-- After the brace-escaping tail of `html_to_markdown`, no brace remains,
whatever the earlier stages produced. -/
theorem html_to_markdown_no_brace (s : List Char) :
    '{' ∉ html_to_markdown s ∧ '}' ∉ html_to_markdown s := by
  rw [html_to_markdown]
  by_cases hs : s.isEmpty
  · rw [if_pos hs]; simp
  · rw [if_neg hs]
    have he := escapeBraces_no_brace (htmlUnescape (tagStages s))
    exact ⟨notMem_pyStrip (wsCleanup_notMem (by decide) he.1),
      notMem_pyStrip (wsCleanup_notMem (by decide) he.2)⟩

/-- Claim C2: for every input body text, the final output of
`transform_content` contains no raw `{` or `}` character; literal braces
survive only in their numeric character-reference form, because
`html_to_markdown` escapes them after entity decoding and every later step
introduces no brace. -/
theorem C2_theorem (content base : List Char) (reg : List (List Char))
    (out : List Char) (reg' : List (List Char))
    (h : transform_content content base reg = some (out, reg')) :
    '{' ∉ out ∧ '}' ∉ out := by
  rw [transform_content] at h
  by_cases hc : content.isEmpty
  · rw [if_pos hc] at h
    simp only [Option.some.injEq, Prod.mk.injEq] at h
    obtain ⟨h1, -⟩ := h
    subst h1
    simp
  · rw [if_neg hc] at h
    cases hvc : convert_vc_shortcodes (convert_gutenberg_blocks content) reg with
    | none => rw [hvc] at h; simp at h
    | some pr =>
        obtain ⟨c, r⟩ := pr
        rw [hvc] at h
        simp only [Option.some.injEq, Prod.mk.injEq] at h
        obtain ⟨h1, -⟩ := h
        subst h1
        have hy := html_to_markdown_no_brace (convert_internal_links c base)
        constructor
        · exact notMem_pyStrip (notMem_pySub hy.1 (by decide))
        · exact notMem_pyStrip (notMem_pySub hy.2 (by decide))

/-- Witness for C2 at a concrete body containing both braces: the pipeline
yields `a&#123;b&#125;`, which indeed contains no raw brace. -/
theorem C2_witness :
    '{' ∉ toL "a&#123;b&#125;" ∧ '}' ∉ toL "a&#123;b&#125;" :=
  C2_theorem (toL "a{b}") (toL "http://example.com") [] (toL "a&#123;b&#125;") []
    (by decide)

/-! ## Claim C5: the batch report's unknown-shortcode list -/

/-- Code-point lexicographic order on character lists — the order Python's
`sorted` uses on the corresponding strings. -/
def lexLe : List Char → List Char → Bool
  | [], _ => true
  | _ :: _, [] => false
  | a :: x, b :: y => if a = b then lexLe x y else decide (a.toNat < b.toNat)

theorem addUnknown_nodup {reg : List (List Char)} (h : reg.Nodup) (nm : List Char) :
    (addUnknown reg nm).Nodup := by
  unfold addUnknown
  split
  · exact h
  · split
    · exact h
    · next hmem =>
        simp only [List.nodup_append, List.nodup_cons, List.nodup_nil]
        refine ⟨h, by simp, ?_⟩
        intro x hx
        simp only [List.mem_singleton]
        rintro rfl
        exact hmem (by simpa using hx)

theorem mem_addUnknown {reg : List (List Char)} {nm x : List Char} :
    x ∈ addUnknown reg nm ↔ x ∈ reg ∨ (x = nm ∧ nm ∉ knownShortcodes) := by
  unfold addUnknown
  split
  · next hk =>
      constructor
      · exact Or.inl
      · rintro (h | ⟨rfl, hnk⟩)
        · exact h
        · exact absurd (by simpa using hk) hnk
  · next hk =>
      split
      · next hmem =>
          constructor
          · exact Or.inl
          · rintro (h | ⟨rfl, _⟩)
            · exact h
            · simpa using hmem
      · constructor
        · intro h
          rcases List.mem_append.mp h with h | h
          · exact Or.inl h
          · refine Or.inr ⟨by simpa using h, fun hmem => ?_⟩
            exact hk (by simpa using hmem)
        · rintro (h | ⟨rfl, _⟩)
          · exact List.mem_append_left _ h
          · exact List.mem_append_right _ (by simp)

theorem foldl_addUnknown_nodup (names : List (List Char)) :
    ∀ reg, reg.Nodup → (names.foldl addUnknown reg).Nodup := by
  induction names with
  | nil => intro reg h; exact h
  | cons nm names ih => intro reg h; exact ih _ (addUnknown_nodup h nm)

theorem mem_foldl_addUnknown (names : List (List Char)) :
    ∀ reg x, x ∈ names.foldl addUnknown reg ↔
      x ∈ reg ∨ (x ∈ names ∧ x ∉ knownShortcodes) := by
  induction names with
  | nil => intro reg x; simp
  | cons nm names ih =>
      intro reg x
      rw [List.foldl_cons, ih]
      rw [mem_addUnknown]
      constructor
      · rintro ((h | ⟨rfl, hk⟩) | ⟨h, hk⟩)
        · exact Or.inl h
        · exact Or.inr ⟨by simp, hk⟩
        · exact Or.inr ⟨by simp [h], hk⟩
      · rintro (h | ⟨h, hk⟩)
        · exact Or.inl (Or.inl h)
        · rcases List.mem_cons.mp h with rfl | h
          · exact Or.inl (Or.inr ⟨rfl, hk⟩)
          · exact Or.inr ⟨h, hk⟩

/-- The names the tracking pass of `convert_vc_shortcodes` sees in a body
that `transform_content` processes. -/
def scannedNames (content : List Char) : List (List Char) :=
  pyScan pScanSc (convert_gutenberg_blocks content)

/-- The registry a successful `convert_vc_shortcodes` run returns is the
fold of the tracking pass over the previous registry. -/
theorem convert_vc_reg {c : List Char} {reg : List (List Char)}
    {out : List Char} {reg' : List (List Char)}
    (h : convert_vc_shortcodes c reg = some (out, reg')) :
    reg' = (pyScan pScanSc c).foldl addUnknown reg := by
  rw [convert_vc_shortcodes] at h
  by_cases hc : c.isEmpty
  · rw [if_pos hc] at h
    simp only [Option.some.injEq, Prod.mk.injEq] at h
    have : c = [] := List.isEmpty_iff.mp hc
    subst this
    rw [← h.2]
    rfl
  · rw [if_neg hc] at h
    cases hb : convert_vc_body c with
    | none => rw [hb] at h; simp at h
    | some o =>
        rw [hb] at h
        simp only [Option.map_some', Option.some.injEq, Prod.mk.injEq] at h
        exact h.2.symm

/-- The registry a successful `transform_content` run returns. -/
theorem transform_content_reg {content base : List Char} {reg : List (List Char)}
    {out : List Char} {reg' : List (List Char)}
    (h : transform_content content base reg = some (out, reg')) :
    reg' = (scannedNames content).foldl addUnknown reg := by
  rw [transform_content] at h
  by_cases hc : content.isEmpty
  · rw [if_pos hc] at h
    simp only [Option.some.injEq, Prod.mk.injEq] at h
    have : content = [] := List.isEmpty_iff.mp hc
    subst this
    rw [← h.2]
    rfl
  · rw [if_neg hc] at h
    cases hvc : convert_vc_shortcodes (convert_gutenberg_blocks content) reg with
    | none => rw [hvc] at h; simp at h
    | some pr =>
        obtain ⟨c, r⟩ := pr
        rw [hvc] at h
        simp only [Option.some.injEq, Prod.mk.injEq] at h
        rw [← h.2]
        exact convert_vc_reg hvc

/-- The registry after a successful batch: fold over all scanned names. -/
theorem runBatchRegistry_eq (contents : List (List Char)) (base : List Char) :
    ∀ reg₀ reg', (contents.foldlM (fun reg c => (transform_content c base reg).map (·.2)) reg₀ =
        some reg') →
      reg' = (contents.flatMap scannedNames).foldl addUnknown reg₀ := by
  induction contents with
  | nil => intro reg₀ reg' h; simp at h; simp [h.symm]
  | cons c cs ih =>
      intro reg₀ reg' h
      rw [List.foldlM_cons] at h
      cases ht : transform_content c base reg₀ with
      | none => rw [ht] at h; simp [Option.map, Option.bind] at h
      | some pr =>
          obtain ⟨o, r⟩ := pr
          rw [ht] at h
          simp only [Option.map_some', Option.some_bind] at h
          have h1 := transform_content_reg ht
          have h2 := ih r reg' h
          rw [h2, h1, List.flatMap_cons, List.foldl_append]

/-- Claim C5 (counterexample): the claim says the batch report's
`unknownShortcodes` list is sorted.  The code stores
`list(unknown_shortcodes)` without sorting (only the console print sorts):
a batch whose unknown macros appear in a non-alphabetical order produces a
non-sorted report list.  (The Python set's iteration order is unspecified;
the model uses insertion order.  No order the set could take is *guaranteed*
sorted, and the code applies no sort either way.) -/
theorem C5_counterexample :
    (runBatchRegistry [toL "[zzz]", toL "[aaa]"] (toL "http://example.com")).map
        reportUnknownShortcodes = some [toL "zzz", toL "aaa"] ∧
    ¬ List.Sorted (fun a b => lexLe a b = true) [toL "zzz", toL "aaa"] := by
  constructor
  · decide
  · decide

/-- Claim C5 (amended): after a successful batch run the report's
`unknownShortcodes` list is deduplicated — each unknown macro name appears
exactly once even if it occurred in several items — and contains exactly
the names outside the known vocabulary that the tracking pass scanned in
some item's body; its order is not guaranteed to be sorted. -/
theorem C5_amended (contents : List (List Char)) (base : List Char)
    (reg' : List (List Char)) (h : runBatchRegistry contents base = some reg') :
    (reportUnknownShortcodes reg').Nodup ∧
    ∀ nm, nm ∈ reportUnknownShortcodes reg' ↔
      (nm ∉ knownShortcodes ∧ ∃ c ∈ contents, nm ∈ scannedNames c) := by
  have heq := runBatchRegistry_eq contents base [] reg' h
  subst heq
  constructor
  · exact foldl_addUnknown_nodup _ [] List.nodup_nil
  · intro nm
    rw [reportUnknownShortcodes, mem_foldl_addUnknown]
    simp only [List.not_mem_nil, false_or, List.mem_flatMap]
    constructor
    · rintro ⟨⟨c, hc, hnm⟩, hk⟩
      exact ⟨hk, c, hc, hnm⟩
    · rintro ⟨hk, c, hc, hnm⟩
      exact ⟨⟨c, hc, hnm⟩, hk⟩

/-- Witness for C5 (amended) at a concrete two-item batch with a repeated
unknown macro: `foo_bar` is reported exactly once. -/
theorem C5_amended_witness :
    ([toL "foo_bar"] : List (List Char)).Nodup ∧
    ∀ nm, nm ∈ reportUnknownShortcodes [toL "foo_bar"] ↔
      (nm ∉ knownShortcodes ∧
        ∃ c ∈ [toL "[foo_bar x=\"1\"]text[/foo_bar]", toL "[foo_bar]"],
          nm ∈ scannedNames c) := by
  have h := C5_amended [toL "[foo_bar x=\"1\"]text[/foo_bar]", toL "[foo_bar]"]
    (toL "http://example.com") [toL "foo_bar"] (by decide)
  exact ⟨h.1, h.2⟩


/-! ## Digit-string lemmas -/

theorem digitChar_isDigit {n : Nat} (h : n < 10) : isDigitC (Nat.digitChar n) = true := by
  interval_cases n <;> decide

theorem digitChar_val {n : Nat} (h : n < 10) : (Nat.digitChar n).toNat - 48 = n := by
  interval_cases n <;> decide

theorem natDigitsF_all_digits : ∀ fuel n, n < fuel →
    ∀ c ∈ natDigitsF fuel n, isDigitC c = true := by
  intro fuel
  induction fuel with
  | zero => intro n h; omega
  | succ fuel ih =>
      intro n h c hc
      rw [natDigitsF] at hc
      by_cases hn : n < 10
      · rw [if_pos hn] at hc
        simp only [List.mem_singleton] at hc
        subst hc
        exact digitChar_isDigit hn
      · rw [if_neg hn] at hc
        rcases List.mem_append.mp hc with hc | hc
        · have hd : n / 10 < fuel := by
            have := Nat.div_lt_self (by omega : 0 < n) (by omega : 1 < 10)
            omega
          exact ih (n / 10) hd c hc
        · simp only [List.mem_singleton] at hc
          subst hc
          exact digitChar_isDigit (Nat.mod_lt n (by omega))

theorem natDigits_all_digits (n : Nat) : ∀ c ∈ natDigits n, isDigitC c = true :=
  natDigitsF_all_digits (n + 1) n (Nat.lt_succ_self n)

theorem natDigitsF_ne_nil : ∀ fuel n, 0 < fuel → natDigitsF fuel n ≠ [] := by
  intro fuel n h
  cases fuel with
  | zero => omega
  | succ fuel =>
      rw [natDigitsF]
      by_cases hn : n < 10
      · rw [if_pos hn]; simp
      · rw [if_neg hn]; simp

theorem natDigits_ne_nil (n : Nat) : natDigits n ≠ [] :=
  natDigitsF_ne_nil (n + 1) n (Nat.succ_pos n)

theorem digit_notMem {c : Char} (hc : isDigitC c = false) {n : Nat} : c ∉ natDigits n :=
  fun h => by rw [natDigits_all_digits n c h] at hc; exact absurd hc (by simp)

theorem digitsValGo_append (xs ys : List Char) :
    ∀ acc, digitsValGo acc (xs ++ ys) = (digitsValGo acc xs).bind (fun a => digitsValGo a ys) := by
  induction xs with
  | nil => intro acc; simp [digitsValGo]
  | cons c xs ih =>
      intro acc
      by_cases hc : isDigitC c
      · simp only [List.cons_append, digitsValGo, if_pos hc]
        exact ih _
      · simp only [List.cons_append, digitsValGo, if_neg hc]
        rfl

theorem digitsValGo_natDigitsF : ∀ fuel n acc, n < fuel →
    digitsValGo acc (natDigitsF fuel n) =
      some (acc * 10 ^ (natDigitsF fuel n).length + n) := by
  intro fuel
  induction fuel with
  | zero => intro n acc h; omega
  | succ fuel ih =>
      intro n acc h
      rw [natDigitsF]
      by_cases hn : n < 10
      · rw [if_pos hn]
        simp only [digitsValGo, if_pos (digitChar_isDigit hn), List.length_singleton]
        rw [digitChar_val hn]
        norm_num
      · rw [if_neg hn]
        have hd : n / 10 < fuel := by
          have := Nat.div_lt_self (by omega : 0 < n) (by omega : 1 < 10)
          omega
        rw [digitsValGo_append, ih (n / 10) acc hd]
        simp only [Option.some_bind, digitsValGo,
          if_pos (digitChar_isDigit (Nat.mod_lt n (by omega : 0 < 10))), List.length_append,
          List.length_singleton]
        rw [digitChar_val (Nat.mod_lt n (by omega : 0 < 10))]
        congr 1
        have hmod := Nat.div_add_mod n 10
        ring_nf
        omega

theorem pyIntParse_natDigits (n : Nat) : pyIntParse (natDigits n) = some (n : Int) := by
  cases hd : natDigits n with
  | nil => exact absurd hd (natDigits_ne_nil n)
  | cons c rest =>
      have hc : isDigitC c = true := natDigits_all_digits n c (by rw [hd]; simp)
      have hcm : c ≠ '-' := by rintro rfl; simp [isDigitC] at hc
      have hcp : c ≠ '+' := by rintro rfl; simp [isDigitC] at hc
      rw [pyIntParse]
      rw [if_neg hcm, if_neg hcp]
      have : digitsValGo 0 (c :: rest) = some n := by
        rw [← hd]
        have := digitsValGo_natDigitsF (n + 1) n 0 (Nat.lt_succ_self n)
        rw [natDigits] at *
        simpa using this
      rw [this]
      rfl

/-! ## takeWhile/split helpers over symbolic runs -/

theorem takeWhile_all_append {f : Char → Bool} {w : List Char} {q : Char}
    (hall : ∀ c ∈ w, f c = true) (hq : f q = false) (r : List Char) :
    (w ++ q :: r).takeWhile f = w ∧ (w ++ q :: r).dropWhile f = q :: r := by
  induction w with
  | nil => simp [List.takeWhile, List.dropWhile, hq]
  | cons c w ih =>
      have hc : f c = true := hall c (by simp)
      have ih' := ih (fun c hc => hall c (by simp [hc]))
      constructor
      · simp only [List.cons_append, List.takeWhile_cons, hc, if_true, ih'.1]
      · simp only [List.cons_append, List.dropWhile_cons, hc, if_true, ih'.2]

theorem pySplitGo_no_sep {c : Char} :
    ∀ {y : List Char} fuel acc, c ∉ y → y.length < fuel →
      pySplitGo [c] fuel acc y = [acc.reverse ++ y] := by
  intro y
  induction y with
  | nil =>
      intro fuel acc _ hf
      cases fuel with
      | zero => omega
      | succ fuel => simp [pySplitGo]
  | cons d y ih =>
      intro fuel acc hmem hf
      cases fuel with
      | zero => omega
      | succ fuel =>
          simp only [List.mem_cons, not_or] at hmem
          have hcond : ¬ ((List.isPrefixOf [c] (d :: y) = true) ∧ ¬ ([c].isEmpty = true)) := by
            rintro ⟨hpre, -⟩
            simp only [List.isPrefixOf, Bool.and_eq_true, beq_iff_eq] at hpre
            exact hmem.1 hpre.1
          simp only [pySplitGo, if_neg hcond]
          rw [ih fuel (d :: acc) hmem.2 (by simpa using Nat.lt_of_succ_lt_succ hf)]
          simp

theorem pySplitGo_single_once {c : Char} {y : List Char} (hy : c ∉ y) :
    ∀ x : List Char, c ∉ x → ∀ fuel acc, (x ++ c :: y).length < fuel →
      pySplitGo [c] fuel acc (x ++ c :: y) = (acc.reverse ++ x) :: [y] := by
  intro x
  induction x with
  | nil =>
      intro _ fuel acc hf
      cases fuel with
      | zero => simp at hf
      | succ fuel =>
          have hcond : (List.isPrefixOf [c] (c :: y) = true) ∧ ¬ ([c].isEmpty = true) :=
            ⟨by simp [List.isPrefixOf], by simp⟩
          simp only [List.nil_append, pySplitGo, if_pos hcond, List.length_singleton,
            List.drop_succ_cons, List.drop_zero]
          rw [pySplitGo_no_sep fuel [] hy (by simp at hf; omega)]
          simp
  | cons d x ih =>
      intro hx fuel acc hf
      cases fuel with
      | zero => simp at hf
      | succ fuel =>
          simp only [List.mem_cons, not_or] at hx
          have hcond : ¬ ((List.isPrefixOf [c] (d :: (x ++ c :: y)) = true) ∧
              ¬ ([c].isEmpty = true)) := by
            rintro ⟨hpre, -⟩
            simp only [List.isPrefixOf, Bool.and_eq_true, beq_iff_eq] at hpre
            exact hx.1 hpre.1
          simp only [List.cons_append, pySplitGo, if_neg hcond]
          rw [ih hx.2 fuel (d :: acc) (by simp at hf ⊢; omega)]
          simp

theorem pySplit_single_once {c : Char} {x y : List Char} (hx : c ∉ x) (hy : c ∉ y) :
    pySplit [c] (x ++ c :: y) = [x, y] := by
  rw [pySplit]
  have := pySplitGo_single_once hy x hx ((x ++ c :: y).length + 1) [] (Nat.lt_succ_self _)
  simpa using this

/-! ## `re.search` evaluation lemmas for attribute patterns -/

theorem isPrefixOf_cons_ne {c d : Char} (h : c ≠ d) (w s : List Char) :
    (c :: w).isPrefixOf (d :: s) = false := by
  simp [List.isPrefixOf]
  exact fun hcd => absurd hcd h

theorem firstM_none_of_hasLit {ch : Char} {p : Pat}
    (hlit : Item.simple (SItem.lit ch) ∈ p) {s : List Char} (h : ch ∉ s) :
    firstM p s = none := by
  cases hfm : firstM p s with
  | none => rfl
  | some m =>
      exfalso
      have hm := firstM_mem hfm
      have h1 := matchP_hasLit_mem hlit hm
      have h2 := matchP_mem hm
      exact h (h2 ▸ List.mem_append_left _ h1)

theorem pySearch_none_of_hasLit {ch : Char} {p : Pat}
    (hlit : Item.simple (SItem.lit ch) ∈ p) :
    ∀ {s : List Char}, ch ∉ s → pySearch p s = none := by
  intro s
  induction s with
  | nil => intro _; exact pySearch_nil_none (firstM_none_of_hasLit hlit (by simp))
  | cons d s ih =>
      intro h
      rw [pySearch_skip_head (firstM_none_of_hasLit hlit h)]
      exact ih (fun hm => h (List.mem_cons_of_mem _ hm))

/-- The head match of a captured `([^Q]+)` run followed by the literal `Q`. -/
theorem firstM_group_plus_lit {f : Char → Bool} {q : Char} {v r : List Char}
    (hv : v ≠ []) (hall : ∀ c ∈ v, f c = true) (hq : f q = false) :
    firstM [Item.group [.plus f], iLit q] (v ++ q :: r) =
      some (v ++ [q], [v], r) := by
  have htw := takeWhile_all_append hall hq r
  have h1 : (matchS [SItem.plus f] (v ++ q :: r)).head? = some (v, q :: r) := by
    have := matchS_cons_head
      (sAlts_plus_head (f := f) (s := v ++ q :: r) (by rw [htw.1]; exact hv))
      (matchS_nil_head _)
    rw [htw.1, htw.2] at this
    simpa using this
  have h2 : firstM [iLit q] (q :: r) = some ([q], [], r) := by
    have := firstM_cons_simple (p := []) (sAlts_lit_head q r) (firstM_nil r)
    simpa using this
  have := firstM_cons_group (p := [iLit q]) h1 h2
  simpa using this

/-- `re.search` of `name="([^"]+)"` against `name="` + value + `"` + rest. -/
theorem firstM_pAttr (name : String) {v : List Char} (r : List Char)
    (hv : v ≠ []) (hq : '"' ∉ v) :
    firstM (pAttr name) (toL (name ++ "=\"") ++ (v ++ '"' :: r)) =
      some (toL (name ++ "=\"") ++ (v ++ ['"']), [v], r) := by
  unfold pAttr
  refine firstM_litsP ?_
  exact firstM_group_plus_lit hv
    (fun c hc => by simp [neC]; rintro rfl; exact hq hc) (by simp [neC])

/-! ## Claim C4: column width fractions -/

set_option maxRecDepth 16384 in
set_option maxHeartbeats 1600000 in
/-- Claim C4 (counterexample): the claim says a width fraction `a/b` becomes
`w-<round(100*a/b)>`, the percentage rounded to nearest.  For `2/3` that
would be `w-67`, but `int(…)` truncates the float product `66.666…`: the
code emits `w-66`. -/
theorem C4_counterexample :
    convert_column (toL " width=\"2/3\"") = some (toL "<div class=\"column w-66\">") ∧
    convert_column (toL " width=\"2/3\"") ≠ some (toL "<div class=\"column w-67\">") := by
  constructor
  · decide
  · decide

set_option maxRecDepth 16384 in
set_option maxHeartbeats 1600000 in
/-- Claim C4 (amended): for every width fraction `a/b` (decimal numerals,
`b > 0`, both within the float-safe range) the emitted class is
`w-<int((a/b)*100)>` — the binary64 quotient times 100, TRUNCATED toward
zero, not rounded to nearest — next to the base class `column`; with no
width attribute only the base class is emitted.  Because the percentage
travels through doubles, it is `⌊100a/b⌋` or, when rounding error pulls an
exact integer percentage just below itself, `⌊100a/b⌋ - 1` (verified here
for every numerator and denominator up to 12): `2/3` gives `w-66` where
rounding would give 67, and `23/5` gives `w-459` where the exact value is
460. -/
theorem C4_amended (a b : Nat) (hb : 0 < b) (ha : a ≤ 10 ^ 15) (hbu : b ≤ 10 ^ 15) :
    (convert_column (toL " width=\"" ++ (natDigits a ++ '/' :: natDigits b) ++ toL "\"") =
      some (toL "<div class=\"column w-" ++ natDigits (pyPct a b) ++ toL "\">") ∧
    convert_column [] = some (toL "<div class=\"column\">")) ∧
    (pyPct 2 3 = 66 ∧ 100 * 2 / 3 = 66) ∧
    (pyPct 23 5 = 459 ∧ 100 * 23 / 5 = 460) ∧
    (pyPct 29 100 = 28 ∧ 100 * 29 / 100 = 29) ∧
    (∀ a' ≤ 12, ∀ b' ≤ 12, 0 < b' →
      pyPct a' b' = 100 * a' / b' ∨ pyPct a' b' + 1 = 100 * a' / b') := by
  refine ⟨⟨?_, by decide⟩, by decide, by decide, by decide, by decide⟩
  have hwa_ne : (natDigits a ++ '/' :: natDigits b) ≠ [] := by
    intro h
    exact natDigits_ne_nil a (by simpa using congrArg (List.take (natDigits a).length) h)
  have hq : '"' ∉ natDigits a ++ '/' :: natDigits b := by
    intro h
    rcases List.mem_append.mp h with h | h
    · exact digit_notMem (by decide) h
    · rcases List.mem_cons.mp h with h | h
      · exact absurd h (by decide)
      · exact digit_notMem (by decide) h
  have hattrs : toL " width=\"" ++ (natDigits a ++ '/' :: natDigits b) ++ toL "\"" =
      ' ' :: (toL "width=\"" ++ ((natDigits a ++ '/' :: natDigits b) ++ '"' :: [])) := by
    simp [toL]
  have hskip : firstM (pAttr "width")
      (' ' :: (toL "width=\"" ++ ((natDigits a ++ '/' :: natDigits b) ++ '"' :: []))) = none := by
    show firstM (litsP (toL ("width" ++ "=\"")) ++ _) _ = none
    refine firstM_litsP_none ?_ _
    rw [show toL ("width" ++ "=\"") = 'w' :: toL "idth=\"" from rfl]
    exact isPrefixOf_cons_ne (by decide) _ _
  have hwidth : pySearch (pAttr "width")
      (toL " width=\"" ++ (natDigits a ++ '/' :: natDigits b) ++ toL "\"") =
      some [natDigits a ++ '/' :: natDigits b] := by
    rw [hattrs]
    rw [show toL "width=\"" ++ (natDigits a ++ '/' :: natDigits b ++ ['"']) =
      toL "width=\"" ++ ((natDigits a ++ '/' :: natDigits b) ++ '"' :: []) by simp]
    rw [pySearch_skip_head hskip]
    exact pySearch_head_match (firstM_pAttr "width" [] hwa_ne hq)
  have hoffset : pySearch (pAttr "offset")
      (toL " width=\"" ++ (natDigits a ++ '/' :: natDigits b) ++ toL "\"") = none := by
    have hmo : Item.simple (SItem.lit 'o') ∈ pAttr "offset" := by
      show Item.simple (SItem.lit 'o') ∈ litsP (toL ("offset" ++ "=\"")) ++ _
      exact List.mem_append_left _ (List.mem_map_of_mem _ (by decide))
    refine pySearch_none_of_hasLit hmo ?_
    · intro h
      rcases List.mem_append.mp h with h | h
      · rcases List.mem_append.mp h with h | h
        · exact absurd h (by decide)
        · rcases List.mem_append.mp h with h | h
          · exact digit_notMem (by decide) h
          · rcases List.mem_cons.mp h with h | h
            · exact absurd h (by decide)
            · exact digit_notMem (by decide) h
      · exact absurd h (by decide)
  have hslash : containsSeq (toL "/") (natDigits a ++ '/' :: natDigits b) = true := by
    exact containsSeq_single_of_mem (List.mem_append_right _ (List.mem_cons_self _ _))
  have hsplit : pySplit (toL "/") (natDigits a ++ '/' :: natDigits b) =
      [natDigits a, natDigits b] :=
    pySplit_single_once (digit_notMem (by decide)) (digit_notMem (by decide))
  have hbz : ¬ ((b : Int) = 0) := by exact_mod_cast hb.ne'
  simp only [convert_column, hwidth, hoffset,
    show ∀ x : List Char, grp1 [x] = x from fun x => rfl, hslash, if_true, hsplit,
    pyIntParse_natDigits]
  rw [if_neg hbz]
  have hofn : pyFloatPct ((a : Nat) : Int) ((b : Nat) : Int) = ((pyPct a b : Nat) : Int) := by
    rw [pyFloatPct, if_neg (by omega)]
    simp [Int.natAbs_ofNat]
  rw [hofn]
  have hAbs : intStr ((pyPct a b : Nat) : Int) = natDigits (pyPct a b) := by
    rw [intStr, if_neg (by exact_mod_cast Nat.not_lt_zero _)]
    rw [Int.natAbs_ofNat]
  rw [hAbs]
  simp [List.intercalate, toL, List.intersperse]

set_option maxRecDepth 16384 in
set_option maxHeartbeats 1600000 in
/-- Witness for the amended C4 theorem at the fraction `2/3`: the emitted
class is `w-66` (float-truncated), and the attribute-free case yields the
bare `column` class. -/
theorem C4_amended_witness :
    (0 < 3 ∧ 2 ≤ 10 ^ 15 ∧ 3 ≤ 10 ^ 15) ∧
    ((convert_column (toL " width=\"" ++ (natDigits 2 ++ '/' :: natDigits 3) ++ toL "\"") =
        some (toL "<div class=\"column w-" ++ natDigits (pyPct 2 3) ++ toL "\">") ∧
      convert_column [] = some (toL "<div class=\"column\">")) ∧
    (pyPct 2 3 = 66 ∧ 100 * 2 / 3 = 66) ∧
    (pyPct 23 5 = 459 ∧ 100 * 23 / 5 = 460) ∧
    (pyPct 29 100 = 28 ∧ 100 * 29 / 100 = 29) ∧
    (∀ a' ≤ 12, ∀ b' ≤ 12, 0 < b' →
      pyPct a' b' = 100 * a' / b' ∨ pyPct a' b' + 1 = 100 * a' / b')) :=
  ⟨⟨by decide, by decide, by decide⟩, C4_amended 2 3 (by decide) (by decide) (by decide)⟩

/-! ## Claim C6: default permalink slug -/

theorem escQ_eq (t : List Char) :
    escQ t = t.flatMap (fun d => if d = '"' then toL "\\\"" else [d]) := by
  show pyReplace (toL "\"") (toL "\\\"") t = _
  rw [show (toL "\"") = ['"'] from rfl]
  exact pyReplace_singleChar _ _ _

theorem procChar_flatMap (kp : Char → Bool) : ∀ l : List Char,
    ((asciiFold l).map Char.toLower).filter kp =
      l.flatMap (fun d => ((asciiFold [d]).map Char.toLower).filter kp) := by
  intro l
  induction l with
  | nil => rfl
  | cons d l' ih =>
      rw [List.flatMap_cons, ← ih]
      by_cases hd : d.toNat < 128
      · rw [show asciiFold (d :: l') = d :: asciiFold l' by
          simp [asciiFold, List.filter_cons, hd]]
        rw [show asciiFold [d] = [d] by simp [asciiFold, hd]]
        rw [List.map_cons, List.filter_cons, List.map_cons, List.map_nil,
          List.filter_cons]
        by_cases hk : kp (Char.toLower d)
        · rw [if_pos hk, if_pos hk]; rfl
        · rw [if_neg hk, if_neg hk]; rfl
      · rw [show asciiFold (d :: l') = asciiFold l' by
          simp [asciiFold, List.filter_cons, hd]]
        rw [show asciiFold [d] = [] by simp [asciiFold, hd]]
        rfl

theorem slugify_escQ (t : List Char) : slugify (escQ t) = slugify t := by
  have hcore : ∀ s : List Char,
      pySub pNonWord (tLit []) ((asciiFold s).map Char.toLower) =
        ((asciiFold s).map Char.toLower).filter
          (fun c => !(!(isWordC c || isWS c || c = '-'))) := by
    intro s
    show pySub [iCls (fun c => !(isWordC c || isWS c || c = '-'))] (tLit []) _ = _
    exact pySub_cls_remove _ _
  have hmid : pySub pNonWord (tLit []) ((asciiFold (escQ t)).map Char.toLower) =
      pySub pNonWord (tLit []) ((asciiFold t).map Char.toLower) := by
    rw [hcore, hcore]
    rw [procChar_flatMap _ (escQ t), procChar_flatMap _ t]
    rw [escQ_eq, List.flatMap_assoc]
    congr 1
    funext d
    by_cases hd : d = '"'
    · subst hd
      decide
    · rw [if_neg hd]
      simp
  show pyStripChar '-' (pySub pDashWS (tLit (toL "-"))
      (pySub pNonWord (tLit []) ((asciiFold (escQ t)).map Char.toLower))) = slugify t
  rw [hmid]
  rfl

/-- Claim C6: when a record supplies no slug the permalink frontmatter field
is the slugified title (quote-escaping the title first does not change the
slug), the title field carries the quote-escaped title; on the record with
title `Hello "World"` this yields permalink `hello-world` and title field
`"Hello \"World\""`. -/
theorem C6_theorem (item : WPItem) (t item_type now : List Char)
    (ht : item.title = some t) (hs : item.slug = none) :
    (frontmatter_lines item item_type now).get? 1 =
        some (toL "title: \"" ++ escQ t ++ toL "\"") ∧
    (frontmatter_lines item item_type now).get? 2 =
        some (toL "permalink: \"" ++ slugify t ++ toL "\"") ∧
    escQ (toL "Hello \"World\"") = toL "Hello \\\"World\\\"" ∧
    slugify (toL "Hello \"World\"") = toL "hello-world" := by
  refine ⟨?_, ?_, by decide, by decide⟩
  · simp only [frontmatter_lines, ht, hs, Option.getD_some]
    simp [List.get?]
  · simp only [frontmatter_lines, ht, hs, Option.getD_some]
    rw [slugify_escQ]
    simp [List.get?]

/-- A record carrying only a title, as passed to `generate_frontmatter`. -/
def itemTitled (t : List Char) : WPItem :=
  ⟨some t, none, none, none, none, none, [], [], none, none, none, none, none, none⟩

/-- Witness for C6 on the record titled `Hello "World"`: permalink line
`permalink: "hello-world"` and title line with escaped quotes. -/
theorem C6_theorem_witness :
    (frontmatter_lines (itemTitled (toL "Hello \"World\"")) (toL "post") (toL "now")).get? 2 =
      some (toL "permalink: \"hello-world\"") := by
  have h := C6_theorem (itemTitled (toL "Hello \"World\"")) (toL "Hello \"World\"")
    (toL "post") (toL "now") rfl rfl
  rw [h.2.1, h.2.2.2]
  decide

/-! ## Claim C7: date-based permalinks become /blog/ links -/

theorem sAlts_cls_head {f : Char → Bool} {d : Char} (s : List Char) (h : f d = true) :
    (sAlts (.cls f) (d :: s)).head? = some ([d], s) := by
  simp [sAlts, h]

theorem matchS_cls_list {f : Char → Bool} :
    ∀ (w : List Char), (∀ c ∈ w, f c = true) → ∀ r : List Char,
      (matchS (w.map (fun _ => SItem.cls f)) (w ++ r)).head? = some (w, r) := by
  intro w
  induction w with
  | nil => intro _ r; exact matchS_nil_head r
  | cons c w ih =>
      intro hall r
      have hc : f c = true := hall c (by simp)
      have := matchS_cons_head (sAlts_cls_head (w ++ r) hc)
        (ih (fun c hc2 => hall c (by simp [hc2])) r)
      simpa using this

theorem sAlts_lit_mem {c : Char} {s : List Char} {pr : List Char × List Char}
    (h : pr ∈ sAlts (.lit c) s) : pr.1 = [c] := by
  cases s with
  | nil => simp [sAlts] at h
  | cons d s' =>
      simp only [sAlts] at h
      by_cases hd : d = c
      · rw [if_pos hd] at h
        simp only [List.mem_singleton] at h
        rw [h]
        simp [hd]
      · rw [if_neg hd] at h
        simp at h

/-- Any match of `([^:])//` contains the two-slash word. -/
theorem matchP_dblSlash_contains {s : List Char} {m}
    (hm : m ∈ matchP pDblSlash s) : containsSeq (toL "//") m.1 = true := by
  rw [show (toL "//") = ['/', '/'] from rfl]
  rw [show pDblSlash = Item.group [SItem.cls (neC ':')] ::
    [Item.simple (SItem.lit '/'), Item.simple (SItem.lit '/')] from rfl] at hm
  simp only [matchP] at hm
  obtain ⟨p, hp, hmem⟩ := List.mem_flatMap.mp hm
  obtain ⟨q, hq, hqe⟩ := List.mem_map.mp hmem
  obtain ⟨u, hu, hmem2⟩ := List.mem_flatMap.mp hq
  obtain ⟨w, hw, hwe⟩ := List.mem_map.mp hmem2
  obtain ⟨v, hv, hmem3⟩ := List.mem_flatMap.mp hw
  obtain ⟨t, ht, hte⟩ := List.mem_map.mp hmem3
  have ht' : t = ([], [], v.2) := by simpa using ht
  have hu1 : u.1 = ['/'] := sAlts_lit_mem hu
  have hv1 : v.1 = ['/'] := sAlts_lit_mem hv
  have hq1 : q.1 = ['/', '/'] := by
    rw [← hwe]
    show u.1 ++ w.1 = _
    rw [hu1, ← hte]
    show ['/'] ++ (v.1 ++ t.1) = _
    rw [hv1, ht']
    rfl
  rw [← hqe]
  show containsSeq ['/', '/'] (p.1 ++ q.1) = true
  refine containsSeq_append_right ?_
  rw [hq1]
  decide

/-- Claim C7: the LinkRewriter sends a date-based permalink under the base
URL to its `/blog/` form: for every base URL and every well-formed date
link `base/YYYY/MM/DD/slug/` (digit date parts; slug nonempty and free of
slash and quote; the resulting `/blog/slug/` not containing the base URL
itself), `convert_internal_links` returns exactly `/blog/slug/` — the date
rule fires on the whole link and the later generic-path and double-slash
rules leave the result unchanged. -/
theorem C7_theorem (base slug : List Char) (y1 y2 y3 y4 m1 m2 d1 d2 : Char)
    (hbase : base ≠ [])
    (hy1 : isDigitC y1 = true) (hy2 : isDigitC y2 = true)
    (hy3 : isDigitC y3 = true) (hy4 : isDigitC y4 = true)
    (hm1 : isDigitC m1 = true) (hm2 : isDigitC m2 = true)
    (hd1 : isDigitC d1 = true) (hd2 : isDigitC d2 = true)
    (hslug_ne : slug ≠ [])
    (hslug : ∀ c ∈ slug, c ≠ '/' ∧ c ≠ '"')
    (hnb : containsSeq base (toL "/blog/" ++ slug ++ toL "/") = false) :
    convert_internal_links
        (base ++ '/' :: ([y1, y2, y3, y4] ++ '/' :: ([m1, m2] ++ '/' ::
          ([d1, d2] ++ '/' :: (slug ++ ['/'])))))
        base =
      toL "/blog/" ++ slug ++ toL "/" := by
  have hfs : ∀ c ∈ slug, (fun c => !(c = '/' || c = '"')) c = true := by
    intro c hc
    have h := hslug c hc
    simp [h.1, h.2]
  have htw := takeWhile_all_append (f := (fun c => !(c = '/' || c = '"'))) (q := '/') hfs
    (by decide) ([] : List Char)
  have hOpt : firstM [iOpt (eqC '/')] ['/'] = some (['/'], [], []) := by
    have := firstM_cons_simple (p := [])
      (sAlts_opt_head_pos (f := eqC '/') (d := '/') (s := []) (by decide)) (firstM_nil [])
    simpa using this
  have hSlug : firstM [Item.group [.plus (fun c => !(c = '/' || c = '"'))], iOpt (eqC '/')]
      (slug ++ '/' :: []) = some (slug ++ ['/'], [slug], []) := by
    have h1 : (matchS [SItem.plus (fun c => !(c = '/' || c = '"'))] (slug ++ '/' :: [])).head? =
        some (slug, ['/']) := by
      have := matchS_cons_head
        (sAlts_plus_head (f := (fun c => !(c = '/' || c = '"'))) (s := slug ++ '/' :: [])
          (by rw [htw.1]; exact hslug_ne))
        (matchS_nil_head _)
      rw [htw.1, htw.2] at this
      simpa using this
    have := firstM_cons_group h1 hOpt
    simpa using this
  have hD2 : firstM [iLit '/', Item.group [.plus (fun c => !(c = '/' || c = '"'))],
      iOpt (eqC '/')] ('/' :: (slug ++ ['/'])) =
      some ('/' :: (slug ++ ['/']), [slug], []) := by
    have := firstM_cons_simple (sAlts_lit_head '/' (slug ++ ['/'])) hSlug
    simpa using this
  have hDay : firstM
      [Item.group [SItem.cls isDigitC, SItem.cls isDigitC], iLit '/',
       Item.group [.plus (fun c => !(c = '/' || c = '"'))], iOpt (eqC '/')]
      ([d1, d2] ++ '/' :: (slug ++ ['/'])) =
      some ([d1, d2] ++ '/' :: (slug ++ ['/']), [[d1, d2], slug], []) := by
    have hm : (matchS [SItem.cls isDigitC, SItem.cls isDigitC]
        ([d1, d2] ++ '/' :: (slug ++ ['/']))).head? =
        some ([d1, d2], '/' :: (slug ++ ['/'])) :=
      matchS_cls_list [d1, d2]
        (by intro c hc; simp at hc; rcases hc with rfl | rfl; exacts [hd1, hd2]) _
    have := firstM_cons_group hm hD2
    simpa using this
  have hM2 : firstM
      (iLit '/' :: [Item.group [SItem.cls isDigitC, SItem.cls isDigitC], iLit '/',
       Item.group [.plus (fun c => !(c = '/' || c = '"'))], iOpt (eqC '/')])
      ('/' :: ([d1, d2] ++ '/' :: (slug ++ ['/']))) =
      some ('/' :: ([d1, d2] ++ '/' :: (slug ++ ['/'])), [[d1, d2], slug], []) := by
    have := firstM_cons_simple (sAlts_lit_head '/' ([d1, d2] ++ '/' :: (slug ++ ['/']))) hDay
    simpa using this
  have hMon : firstM
      [Item.group [SItem.cls isDigitC, SItem.cls isDigitC], iLit '/',
       Item.group [SItem.cls isDigitC, SItem.cls isDigitC], iLit '/',
       Item.group [.plus (fun c => !(c = '/' || c = '"'))], iOpt (eqC '/')]
      ([m1, m2] ++ '/' :: ([d1, d2] ++ '/' :: (slug ++ ['/']))) =
      some ([m1, m2] ++ '/' :: ([d1, d2] ++ '/' :: (slug ++ ['/'])),
        [[m1, m2], [d1, d2], slug], []) := by
    have hm : (matchS [SItem.cls isDigitC, SItem.cls isDigitC]
        ([m1, m2] ++ '/' :: ([d1, d2] ++ '/' :: (slug ++ ['/'])))).head? =
        some ([m1, m2], '/' :: ([d1, d2] ++ '/' :: (slug ++ ['/']))) :=
      matchS_cls_list [m1, m2]
        (by intro c hc; simp at hc; rcases hc with rfl | rfl; exacts [hm1, hm2]) _
    have := firstM_cons_group hm hM2
    simpa using this
  have hY2 : firstM
      (iLit '/' :: [Item.group [SItem.cls isDigitC, SItem.cls isDigitC], iLit '/',
       Item.group [SItem.cls isDigitC, SItem.cls isDigitC], iLit '/',
       Item.group [.plus (fun c => !(c = '/' || c = '"'))], iOpt (eqC '/')])
      ('/' :: ([m1, m2] ++ '/' :: ([d1, d2] ++ '/' :: (slug ++ ['/'])))) =
      some ('/' :: ([m1, m2] ++ '/' :: ([d1, d2] ++ '/' :: (slug ++ ['/']))),
        [[m1, m2], [d1, d2], slug], []) := by
    have := firstM_cons_simple
      (sAlts_lit_head '/' ([m1, m2] ++ '/' :: ([d1, d2] ++ '/' :: (slug ++ ['/'])))) hMon
    simpa using this
  have hYear : firstM
      [Item.group [SItem.cls isDigitC, SItem.cls isDigitC, SItem.cls isDigitC,
        SItem.cls isDigitC], iLit '/',
       Item.group [SItem.cls isDigitC, SItem.cls isDigitC], iLit '/',
       Item.group [SItem.cls isDigitC, SItem.cls isDigitC], iLit '/',
       Item.group [.plus (fun c => !(c = '/' || c = '"'))], iOpt (eqC '/')]
      ([y1, y2, y3, y4] ++ '/' :: ([m1, m2] ++ '/' :: ([d1, d2] ++ '/' :: (slug ++ ['/'])))) =
      some ([y1, y2, y3, y4] ++ '/' :: ([m1, m2] ++ '/' :: ([d1, d2] ++ '/' :: (slug ++ ['/']))),
        [[y1, y2, y3, y4], [m1, m2], [d1, d2], slug], []) := by
    have hm : (matchS [SItem.cls isDigitC, SItem.cls isDigitC, SItem.cls isDigitC,
        SItem.cls isDigitC]
        ([y1, y2, y3, y4] ++ '/' :: ([m1, m2] ++ '/' :: ([d1, d2] ++ '/' :: (slug ++ ['/']))))).head? =
        some ([y1, y2, y3, y4], '/' :: ([m1, m2] ++ '/' :: ([d1, d2] ++ '/' :: (slug ++ ['/'])))) :=
      matchS_cls_list [y1, y2, y3, y4]
        (by intro c hc; simp at hc; rcases hc with rfl | rfl | rfl | rfl;
            exacts [hy1, hy2, hy3, hy4]) _
    have := firstM_cons_group hm hY2
    simpa using this
  have hTop : firstM
      (iLit '/' :: [Item.group [SItem.cls isDigitC, SItem.cls isDigitC, SItem.cls isDigitC,
        SItem.cls isDigitC], iLit '/',
       Item.group [SItem.cls isDigitC, SItem.cls isDigitC], iLit '/',
       Item.group [SItem.cls isDigitC, SItem.cls isDigitC], iLit '/',
       Item.group [.plus (fun c => !(c = '/' || c = '"'))], iOpt (eqC '/')])
      ('/' :: ([y1, y2, y3, y4] ++ '/' :: ([m1, m2] ++ '/' ::
        ([d1, d2] ++ '/' :: (slug ++ ['/']))))) =
      some ('/' :: ([y1, y2, y3, y4] ++ '/' :: ([m1, m2] ++ '/' ::
        ([d1, d2] ++ '/' :: (slug ++ ['/'])))),
        [[y1, y2, y3, y4], [m1, m2], [d1, d2], slug], []) := by
    have := firstM_cons_simple
      (sAlts_lit_head '/' ([y1, y2, y3, y4] ++ '/' :: ([m1, m2] ++ '/' ::
        ([d1, d2] ++ '/' :: (slug ++ ['/']))))) hYear
    simpa using this
  have hd : firstM (pDateLink base)
      (base ++ '/' :: ([y1, y2, y3, y4] ++ '/' :: ([m1, m2] ++ '/' ::
        ([d1, d2] ++ '/' :: (slug ++ ['/']))))) =
      some (base ++ '/' :: ([y1, y2, y3, y4] ++ '/' :: ([m1, m2] ++ '/' ::
        ([d1, d2] ++ '/' :: (slug ++ ['/'])))),
        [[y1, y2, y3, y4], [m1, m2], [d1, d2], slug], []) :=
    firstM_litsP (w := base) hTop
  have hnil1 : firstM (pDateLink base) [] = none := by
    show firstM (litsP base ++ _) [] = none
    refine firstM_litsP_none ?_ _
    cases base with
    | nil => exact absurd rfl hbase
    | cons b bs => rfl
  have hs1 : pySub (pDateLink base)
      [TItem.litS (toL "/blog/"), TItem.ref 4, TItem.litS (toL "/")]
      (base ++ '/' :: ([y1, y2, y3, y4] ++ '/' :: ([m1, m2] ++ '/' ::
        ([d1, d2] ++ '/' :: (slug ++ ['/']))))) =
      toL "/blog/" ++ slug ++ toL "/" := by
    rw [pySub_step_match hd (by simp)]
    rw [pySub_nil _ _ hnil1]
    simp [instT, List.getD]
  have hs2 : pySub (pPageLink base)
      [TItem.litS (toL "/"), TItem.ref 1, TItem.litS (toL "/")]
      (toL "/blog/" ++ slug ++ toL "/") = toL "/blog/" ++ slug ++ toL "/" := by
    show pySub (litsP base ++ _) _ _ = _
    exact pySub_id_litsP hnb
  have hnoDbl : containsSeq (toL "//") (toL "/blog/" ++ slug ++ toL "/") = false := by
    cases hcs : containsSeq (toL "//") (toL "/blog/" ++ slug ++ toL "/") with
    | false => rfl
    | true =>
        exfalso
        rw [show (toL "//") = ['/', '/'] from rfl, List.append_assoc] at hcs
        rcases containsSeq_pair_append hcs with h1 | h1 | h1
        · exact absurd h1 (by decide)
        · rcases containsSeq_pair_append h1 with h2 | h2 | h2
          · exact (hslug '/' (mem_of_containsSeq_pair h2)).1 rfl
          · exact absurd h2 (by decide)
          · cases hlast : slug.getLast? with
            | none => rw [hlast] at h2; exact absurd h2.1 (by simp)
            | some a =>
                rw [hlast] at h2
                have ha : a ∈ slug := List.mem_of_mem_getLast? hlast
                have : a = '/' := by simpa using h2.1
                exact (hslug a ha).1 this
        · cases slug with
          | nil => exact hslug_ne rfl
          | cons a as =>
              have : a = '/' := by simpa using h1.2
              exact (hslug a (by simp)).1 this
  have hs3 : pySub pDblSlash [TItem.ref 1, TItem.litS (toL "/")]
      (toL "/blog/" ++ slug ++ toL "/") = toL "/blog/" ++ slug ++ toL "/" := by
    unfold pySub
    exact subTF_id_of_contain (fun s' m hm => matchP_dblSlash_contains hm) _ hnoDbl _
  unfold convert_internal_links
  rw [if_neg (by simp)]
  show pySub pDblSlash [TItem.ref 1, TItem.litS (toL "/")]
      (pySub (pPageLink base) [TItem.litS (toL "/"), TItem.ref 1, TItem.litS (toL "/")]
        (pySub (pDateLink base) [TItem.litS (toL "/blog/"), TItem.ref 4, TItem.litS (toL "/")]
          (base ++ '/' :: ([y1, y2, y3, y4] ++ '/' :: ([m1, m2] ++ '/' ::
            ([d1, d2] ++ '/' :: (slug ++ ['/']))))))) =
      toL "/blog/" ++ slug ++ toL "/"
  rw [hs1, hs2, hs3]

/-- Witness for C7: `http://example.com/2021/05/03/hello/` on base
`http://example.com` rewrites to `/blog/hello/`. -/
theorem C7_theorem_witness :
    convert_internal_links (toL "http://example.com/2021/05/03/hello/")
      (toL "http://example.com") = toL "/blog/hello/" := by
  have h := C7_theorem (toL "http://example.com") (toL "hello")
    '2' '0' '2' '1' '0' '5' '0' '3' (by decide)
    (by decide) (by decide) (by decide) (by decide)
    (by decide) (by decide) (by decide) (by decide)
    (by decide) (by decide) (by decide)
  rw [show (toL "http://example.com/2021/05/03/hello/") =
    toL "http://example.com" ++ '/' :: (['2', '0', '2', '1'] ++ '/' ::
      (['0', '5'] ++ '/' :: (['0', '3'] ++ '/' :: (toL "hello" ++ ['/'])))) from by decide]
  rw [h]
  decide

/-! ## Claim C8: links to other hosts -/

/-- Claim C8 (counterexample): the claim says every absolute link to another
host is left unchanged character-for-character, but the double-slash cleanup
`([^:])//` also collapses doubled path separators inside other-host links:
`http://other.com/a//b` loses a slash even though its host is not the base
URL. -/
theorem C8_counterexample :
    convert_internal_links (toL "see http://other.com/a//b")
        (toL "http://example.com") = toL "see http://other.com/a/b" ∧
    convert_internal_links (toL "see http://other.com/a//b")
        (toL "http://example.com") ≠ toL "see http://other.com/a//b" := by
  constructor
  · decide
  · decide

/-- `true` iff every occurrence of `//` in the text directly follows a `:`
(the URL scheme marker), so the `([^:])//` cleanup finds nothing. -/
def noBareDblSlash : List Char → Bool
  | [] => true
  | c :: rest =>
      (if rest.take 2 = ['/', '/'] then c = ':' else true) && noBareDblSlash rest

theorem noBareDblSlash_spec : ∀ {content : List Char}, noBareDblSlash content = true →
    ∀ x c r, content = x ++ c :: '/' :: '/' :: r → c = ':' := by
  intro content
  induction content with
  | nil =>
      intro _ x c r hx
      exact absurd hx (by simp)
  | cons d rest ih =>
      intro h x c r hx
      have h2 : noBareDblSlash rest = true := by
        simp only [noBareDblSlash, Bool.and_eq_true] at h
        exact h.2
      cases x with
      | nil =>
          simp only [List.nil_append, List.cons.injEq] at hx
          obtain ⟨rfl, hrest⟩ := hx
          simp only [noBareDblSlash, Bool.and_eq_true] at h
          have h1 := h.1
          rw [hrest] at h1
          simpa using h1
      | cons e x' =>
          simp only [List.cons_append, List.cons.injEq] at hx
          exact ih h2 x' c r hx.2

theorem sAlts_cls_mem {f : Char → Bool} {s : List Char} {pr : List Char × List Char}
    (h : pr ∈ sAlts (.cls f) s) :
    ∃ c s', s = c :: s' ∧ f c = true ∧ pr = ([c], s') := by
  cases s with
  | nil => simp [sAlts] at h
  | cons d s' =>
      simp only [sAlts] at h
      by_cases hf : f d
      · rw [if_pos hf] at h
        simp only [List.mem_singleton] at h
        exact ⟨d, s', rfl, hf, h⟩
      · rw [if_neg hf] at h
        simp at h

theorem sAlts_lit_mem2 {c : Char} {s : List Char} {pr : List Char × List Char}
    (h : pr ∈ sAlts (.lit c) s) : ∃ s', s = c :: s' ∧ pr = ([c], s') := by
  cases s with
  | nil => simp [sAlts] at h
  | cons d s' =>
      simp only [sAlts] at h
      by_cases hd : d = c
      · rw [if_pos hd] at h
        simp only [List.mem_singleton] at h
        subst hd
        exact ⟨s', rfl, h⟩
      · rw [if_neg hd] at h
        simp at h

/-- Shape of any `([^:])//` match position: the text there starts with a
non-colon character followed by two slashes. -/
theorem matchP_dblSlash_shape {s : List Char} {m}
    (hm : m ∈ matchP pDblSlash s) :
    ∃ c r, s = c :: '/' :: '/' :: r ∧ neC ':' c = true := by
  rw [show pDblSlash = Item.group [SItem.cls (neC ':')] ::
    [Item.simple (SItem.lit '/'), Item.simple (SItem.lit '/')] from rfl] at hm
  simp only [matchP, matchS] at hm
  obtain ⟨p, hp, hmem⟩ := List.mem_flatMap.mp hm
  obtain ⟨q, hq, hqe⟩ := List.mem_map.mp hmem
  obtain ⟨a, ha, hmemA⟩ := List.mem_flatMap.mp hp
  obtain ⟨b, hb, hbe⟩ := List.mem_map.mp hmemA
  have hb' : b = ([], a.2) := by simpa using hb
  obtain ⟨c0, s0, hs0, hc0, ha'⟩ := sAlts_cls_mem ha
  have hp2 : p.2 = s0 := by rw [← hbe, hb', ha']
  obtain ⟨u, hu, hmem2⟩ := List.mem_flatMap.mp hq
  obtain ⟨s1, hs1, hu'⟩ := sAlts_lit_mem2 hu
  obtain ⟨w, hw, hwe⟩ := List.mem_map.mp hmem2
  obtain ⟨v, hv, hmem3⟩ := List.mem_flatMap.mp hw
  obtain ⟨s2, hs2, hv'⟩ := sAlts_lit_mem2 hv
  refine ⟨c0, s2, ?_, hc0⟩
  rw [hs0]
  have e1 : s0 = '/' :: s1 := by rw [← hp2, hs1]
  have e2 : s1 = '/' :: s2 := by
    have hu2 : u.2 = s1 := by rw [hu']
    rw [← hu2, hs2]
  rw [e1, e2]

/-- The double-slash cleanup is the identity on text whose every `//`
follows a colon. -/
theorem pySub_dblSlash_id {tmpl : List TItem} {content : List Char}
    (h : noBareDblSlash content = true) :
    pySub pDblSlash tmpl content = content := by
  unfold pySub
  refine subTF_id_of_noMatch _ _ _ _ (fun i => ?_)
  cases hfm : firstM pDblSlash (content.drop i) with
  | none => rfl
  | some m =>
      exfalso
      have hm := firstM_mem hfm
      obtain ⟨c, r, hdrop, hc⟩ := matchP_dblSlash_shape hm
      have hcontent : content = content.take i ++ c :: '/' :: '/' :: r := by
        conv_lhs => rw [← List.take_append_drop i content]
        rw [hdrop]
      have hcc := noBareDblSlash_spec h _ _ _ hcontent
      rw [hcc] at hc
      simp [neC] at hc

/-- Claim C8 (amended): `convert_internal_links` leaves content unchanged
when the content contains no occurrence of the base URL and every `//` in
it follows a `:`; in particular a bare `//` inside an other-host link IS
rewritten (see the counterexample), so the claim's frame property only
holds under the extra double-slash condition. -/
theorem C8_amended (content base : List Char)
    (hb : containsSeq base content = false)
    (hdbl : noBareDblSlash content = true) :
    convert_internal_links content base = content := by
  unfold convert_internal_links
  by_cases hce : content.isEmpty
  · rw [if_pos hce]
    exact (List.isEmpty_iff.mp hce).symm
  · rw [if_neg hce]
    show pySub pDblSlash [TItem.ref 1, TItem.litS (toL "/")]
        (pySub (pPageLink base) [TItem.litS (toL "/"), TItem.ref 1, TItem.litS (toL "/")]
          (pySub (pDateLink base) [TItem.litS (toL "/blog/"), TItem.ref 4, TItem.litS (toL "/")]
            content)) = content
    have h1 : pySub (pDateLink base)
        [TItem.litS (toL "/blog/"), TItem.ref 4, TItem.litS (toL "/")] content = content := by
      show pySub (litsP base ++ _) _ _ = _
      exact pySub_id_litsP hb
    have h2 : pySub (pPageLink base)
        [TItem.litS (toL "/"), TItem.ref 1, TItem.litS (toL "/")] content = content := by
      show pySub (litsP base ++ _) _ _ = _
      exact pySub_id_litsP hb
    rw [h1, h2]
    exact pySub_dblSlash_id hdbl

/-- Witness for the amended C8 theorem: a clean other-host link passes
through unchanged. -/
theorem C8_amended_witness :
    containsSeq (toL "http://example.com") (toL "see http://other.com/page.") = false ∧
    noBareDblSlash (toL "see http://other.com/page.") = true ∧
    convert_internal_links (toL "see http://other.com/page.")
      (toL "http://example.com") = toL "see http://other.com/page." :=
  ⟨by decide, by decide, C8_amended _ _ (by decide) (by decide)⟩

/-! ## Claim C9: button macros -/

theorem searchF_none_of_noMatch {p : Pat} :
    ∀ n s, (∀ i, firstM p (List.drop i s) = none) → searchF p n s = none := by
  intro n
  induction n with
  | zero => intro s _; rfl
  | succ n ih =>
      intro s h
      have h0 := h 0
      simp only [List.drop_zero] at h0
      cases s with
      | nil => simp [searchF, h0]
      | cons d s' =>
          simp only [searchF, h0]
          exact ih s' (fun i => by simpa using h (i + 1))

theorem pySearch_none_of_noMatch {p : Pat} {s : List Char}
    (h : ∀ i, firstM p (List.drop i s) = none) : pySearch p s = none :=
  searchF_none_of_noMatch _ s h

/-- Skip a whole leading region of the searched text: if no match can start
inside the region (at any of its nonempty suffixes), the search result is
the search on the rest. -/
theorem pySearch_append2 {p : Pat} {y : List Char} :
    ∀ {x : List Char}, (∀ x2, x2 ≠ [] → (∃ x1, x = x1 ++ x2) →
      firstM p (x2 ++ y) = none) →
    pySearch p (x ++ y) = pySearch p y := by
  intro x
  induction x with
  | nil => intro _; simp
  | cons c x' ih =>
      intro h
      have h0 : firstM p ((c :: x') ++ y) = none := h (c :: x') (by simp) ⟨[], rfl⟩
      rw [List.cons_append, pySearch_skip_head (by simpa using h0)]
      refine ih (fun x2 hne hx => ?_)
      obtain ⟨x1, hx1⟩ := hx
      exact h x2 hne ⟨c :: x1, by rw [hx1]; rfl⟩

/-- No occurrence of `link="` can start inside the title value: the value
holds no quote and does not contain `link=`. -/
theorem link_prefix_suffix_false {T : List Char} (hq : '"' ∉ T)
    (hnl : containsSeq (toL "link=") T = false) :
    ∀ t2 rest, t2 ≠ [] → (∃ t1, T = t1 ++ t2) →
      (toL "link=\"").isPrefixOf (t2 ++ '"' :: rest) = false := by
  intro t2 rest hne hsuf
  obtain ⟨t1, hT⟩ := hsuf
  cases hpre : (toL "link=\"").isPrefixOf (t2 ++ '"' :: rest) with
  | false => rfl
  | true =>
      exfalso
      obtain ⟨r', hr'⟩ := exists_of_isPrefixOf hpre
      rw [show (toL "link=\"") = ['l', 'i', 'n', 'k', '=', '"'] from rfl] at hr'
      rcases List.append_eq_append_iff.mp hr' with ⟨a', h1, h2⟩ | ⟨c', h1, h2⟩
      · -- h1 : ['l','i','n','k','=','"'] = t2 ++ a'
        cases a' with
        | nil =>
            rw [List.append_nil] at h1
            apply hq
            rw [hT, ← h1]
            exact List.mem_append_right _ (by decide)
        | cons d a2 =>
            have hd : d = '"' := by
              have h2' := h2
              simp only [List.cons_append] at h2'
              exact (List.cons.injEq '"' rest d (a2 ++ r')).mp h2' |>.1.symm
            subst hd
            rcases t2 with _ | ⟨c1, t2⟩
            · exact hne rfl
            · simp only [List.cons_append] at h1
              injection h1 with e1 h1
              rcases t2 with _ | ⟨c2, t2⟩
              · simp only [List.nil_append] at h1
                injection h1 with e2 h1
                exact absurd e2 (by decide)
              · simp only [List.cons_append] at h1
                injection h1 with e2 h1
                rcases t2 with _ | ⟨c3, t2⟩
                · simp only [List.nil_append] at h1
                  injection h1 with e3 h1
                  exact absurd e3 (by decide)
                · simp only [List.cons_append] at h1
                  injection h1 with e3 h1
                  rcases t2 with _ | ⟨c4, t2⟩
                  · simp only [List.nil_append] at h1
                    injection h1 with e4 h1
                    exact absurd e4 (by decide)
                  · simp only [List.cons_append] at h1
                    injection h1 with e4 h1
                    rcases t2 with _ | ⟨c5, t2⟩
                    · simp only [List.nil_append] at h1
                      injection h1 with e5 h1
                      exact absurd e5 (by decide)
                    · simp only [List.cons_append] at h1
                      injection h1 with e5 h1
                      rcases t2 with _ | ⟨c6, t2⟩
                      · -- t2 = [c1,c2,c3,c4,c5] = "link="
                        subst e1; subst e2; subst e3; subst e4; subst e5
                        rw [hT] at hnl
                        have h5 : containsSeq (toL "link=")
                            (t1 ++ ['l', 'i', 'n', 'k', '=']) = true :=
                          containsSeq_append_right (by decide)
                        rw [h5] at hnl
                        exact absurd hnl (by simp)
                      · simp only [List.cons_append] at h1
                        injection h1 with e6 h1
                        apply hq
                        rw [hT]
                        refine List.mem_append_right _ ?_
                        rw [← e6]
                        simp
      · -- t2 = ['l','i','n','k','=','"'] ++ c'
        apply hq
        rw [hT, h1]
        exact List.mem_append_right _ (List.mem_append_left _ (by decide))

/-- No match of the `link="([^"]+)"` pattern can start inside
` title="<T>"`. -/
theorem pAttr_link_noStart {T : List Char} (hTne : T ≠ []) (hq : '"' ∉ T)
    (hnl : containsSeq (toL "link=") T = false) (y : List Char) :
    ∀ x2, x2 ≠ [] → (∃ x1, toL " title=\"" ++ (T ++ ['"']) = x1 ++ x2) →
      firstM (pAttr "link") (x2 ++ y) = none := by
  intro x2 hne hsuf
  have hpre : (toL ("link" ++ "=\"")).isPrefixOf (x2 ++ y) = false := by
    rw [show toL ("link" ++ "=\"") = ['l', 'i', 'n', 'k', '=', '"'] from rfl]
    obtain ⟨x1, hx⟩ := hsuf
    rcases List.append_eq_append_iff.mp hx with ⟨a', h1, h2⟩ | ⟨a2, h1, h2⟩
    · rcases List.append_eq_append_iff.mp h2 with ⟨b', h3, h4⟩ | ⟨t2, h3, h4⟩
      · rcases b' with _ | ⟨e, b2⟩
        · simp only [List.nil_append] at h4
          rw [← h4]
          exact isPrefixOf_cons_ne (by decide) _ _
        · simp only [List.cons_append] at h4
          injection h4 with e1 h4
          exact absurd h4.symm (by simp [hne])
      · rcases t2 with _ | ⟨e, t2⟩
        · simp only [List.nil_append] at h4
          rw [h4]
          exact isPrefixOf_cons_ne (by decide) _ _
        · have h5 := link_prefix_suffix_false hq hnl (e :: t2) y (by simp) ⟨a', h3⟩
          rw [h4]
          simpa [List.append_assoc] using h5
    · have ha2 : a2 ∈ ([' ', 't', 'i', 't', 'l', 'e', '=', '"'] : List Char).tails := by
        rw [List.mem_tails]
        exact ⟨x1, by rw [← h1]; rfl⟩
      rw [h2]
      fin_cases ha2
      · simp [List.isPrefixOf]
      · simp [List.isPrefixOf]
      · simp [List.isPrefixOf]
      · simp [List.isPrefixOf]
      · simp [List.isPrefixOf]
      · simp [List.isPrefixOf]
      · simp [List.isPrefixOf]
      · simp [List.isPrefixOf]
      · simpa using link_prefix_suffix_false hq hnl T y hTne ⟨[], rfl⟩
  show firstM (litsP (toL ("link" ++ "=\"")) ++ _) (x2 ++ y) = none
  exact firstM_litsP_none hpre _

/-- Claim C9: for every button macro, the emitted link element points to
the `url:` sub-field of the `link` attribute (the segment before the next
`|`), carries the `title` attribute as visible text, and defaults the
destination to `#` when there is no `link` attribute.  Stated for every
title value `T` (nonempty, free of quote, ampersand and the literal
`link=`) and every destination `U` (nonempty, free of quote, ampersand and
pipe); the claim's instance `title="Go" link="url:/contact|title:Contact"`
is the witness. -/
theorem C9_theorem (T U : List Char)
    (hTne : T ≠ []) (hq : '"' ∉ T) (hTamp : '&' ∉ T)
    (hnl : containsSeq (toL "link=") T = false)
    (hUne : U ≠ []) (hUq : '"' ∉ U) (hUamp : '&' ∉ U) (hUbar : '|' ∉ U) :
    convert_button (toL " title=\"" ++ T ++ toL "\" link=\"url:" ++ U ++
        toL "|title:Contact\"") =
      toL "<a href=\"" ++ U ++ toL "\" class=\"btn btn-primary\">" ++ T ++ toL "</a>" ∧
    convert_button (toL " title=\"" ++ T ++ toL "\"") =
      toL "<a href=\"#\" class=\"btn btn-primary\">" ++ T ++ toL "</a>" := by
  have hskipT : ∀ r0 : List Char,
      firstM (pAttr "title") (' ' :: (toL "title=\"" ++ (T ++ '"' :: r0))) = none := by
    intro r0
    show firstM (litsP (toL ("title" ++ "=\"")) ++ _) _ = none
    refine firstM_litsP_none ?_ _
    rw [show toL ("title" ++ "=\"") = 't' :: toL "itle=\"" from rfl]
    exact isPrefixOf_cons_ne (by decide) _ _
  have hVq : '"' ∉ toL "url:" ++ (U ++ toL "|title:Contact") := by
    intro h
    rcases List.mem_append.mp h with h | h
    · exact absurd h (by decide)
    · rcases List.mem_append.mp h with h | h
      · exact hUq h
      · exact absurd h (by decide)
  have hVamp : '&' ∉ toL "url:" ++ (U ++ toL "|title:Contact") := by
    intro h
    rcases List.mem_append.mp h with h | h
    · exact absurd h (by decide)
    · rcases List.mem_append.mp h with h | h
      · exact hUamp h
      · exact absurd h (by decide)
  have hVne : toL "url:" ++ (U ++ toL "|title:Contact") ≠ [] := by simp [toL]
  constructor
  · -- with a link attribute
    have htA : toL " title=\"" ++ T ++ toL "\" link=\"url:" ++ U ++ toL "|title:Contact\"" =
        ' ' :: (toL "title=\"" ++ (T ++ '"' :: (' ' :: (toL "link=\"" ++
          ((toL "url:" ++ (U ++ toL "|title:Contact")) ++ '"' :: []))))) := by
      simp [toL]
    have htitle : pySearch (pAttr "title")
        (toL " title=\"" ++ T ++ toL "\" link=\"url:" ++ U ++ toL "|title:Contact\"") =
        some [T] := by
      rw [htA, pySearch_skip_head (hskipT _)]
      exact pySearch_head_match (firstM_pAttr "title" _ hTne hq)
    have hxy : toL " title=\"" ++ T ++ toL "\" link=\"url:" ++ U ++ toL "|title:Contact\"" =
        (toL " title=\"" ++ (T ++ ['"'])) ++ (' ' :: (toL "link=\"" ++
          ((toL "url:" ++ (U ++ toL "|title:Contact")) ++ '"' :: []))) := by
      simp [toL]
    have hsp : firstM (pAttr "link") (' ' :: (toL "link=\"" ++
        ((toL "url:" ++ (U ++ toL "|title:Contact")) ++ '"' :: []))) = none := by
      show firstM (litsP (toL ("link" ++ "=\"")) ++ _) _ = none
      refine firstM_litsP_none ?_ _
      rw [show toL ("link" ++ "=\"") = 'l' :: toL "ink=\"" from rfl]
      exact isPrefixOf_cons_ne (by decide) _ _
    have hlink : pySearch (pAttr "link")
        (toL " title=\"" ++ T ++ toL "\" link=\"url:" ++ U ++ toL "|title:Contact\"") =
        some [toL "url:" ++ (U ++ toL "|title:Contact")] := by
      rw [hxy, pySearch_append2 (pAttr_link_noStart hTne hq hnl _)]
      rw [pySearch_skip_head hsp]
      exact pySearch_head_match (firstM_pAttr "link" [] hVne hVq)
    have htwU := takeWhile_all_append (f := neC '|') (q := '|') 
      (fun c hc => by simp [neC]; rintro rfl; exact hUbar hc) (by decide)
      (toL "title:Contact")
    have hUrl : pySearch pUrlSub (toL "url:" ++ (U ++ toL "|title:Contact")) = some [U] := by
      have h1 : (matchS [SItem.plus (neC '|')] (U ++ '|' :: toL "title:Contact")).head? =
          some (U, '|' :: toL "title:Contact") := by
        have := matchS_cons_head
          (sAlts_plus_head (f := neC '|') (s := U ++ '|' :: toL "title:Contact")
            (by rw [htwU.1]; exact hUne))
          (matchS_nil_head _)
        rw [htwU.1, htwU.2] at this
        simpa using this
      have h2 := firstM_cons_group h1 (firstM_nil _)
      have h3 : firstM pUrlSub (toL "url:" ++ (U ++ '|' :: toL "title:Contact")) =
          some (toL "url:" ++ U, [U], '|' :: toL "title:Contact") := by
        have := firstM_litsP (w := toL "url:") h2
        simpa using this
      exact pySearch_head_match h3
    simp only [convert_button, htitle, hlink,
      show ∀ x : List Char, grp1 [x] = x from fun x => rfl]
    rw [htmlUnescape_id hTamp, htmlUnescape_id hVamp, hUrl]
    simp [toL, grp1]
  · -- without a link attribute
    have htA2 : toL " title=\"" ++ T ++ toL "\"" =
        ' ' :: (toL "title=\"" ++ (T ++ '"' :: [])) := by
      simp [toL]
    have htitle2 : pySearch (pAttr "title") (toL " title=\"" ++ T ++ toL "\"") =
        some [T] := by
      rw [htA2, pySearch_skip_head (hskipT _)]
      exact pySearch_head_match (firstM_pAttr "title" _ hTne hq)
    have hxy2 : toL " title=\"" ++ T ++ toL "\"" =
        (toL " title=\"" ++ (T ++ ['"'])) ++ [] := by
      simp [toL]
    have hlink2 : pySearch (pAttr "link") (toL " title=\"" ++ T ++ toL "\"") = none := by
      rw [hxy2, pySearch_append2 (pAttr_link_noStart hTne hq hnl _)]
      refine pySearch_nil_none ?_
      refine firstM_litsP_none (w := toL ("link" ++ "=\"")) ?_ _
      rfl
    simp only [convert_button, htitle2, hlink2,
      show ∀ x : List Char, grp1 [x] = x from fun x => rfl]
    rw [htmlUnescape_id hTamp]
    simp [toL]

/-- Witness for C9: `title="Go" link="url:/contact|title:Contact"` yields a
link to `/contact` with text `Go`; dropping the link attribute defaults the
destination to `#`. -/
theorem C9_theorem_witness :
    convert_button (toL " title=\"Go\" link=\"url:/contact|title:Contact\"") =
      toL "<a href=\"/contact\" class=\"btn btn-primary\">Go</a>" ∧
    convert_button (toL " title=\"Go\"") =
      toL "<a href=\"#\" class=\"btn btn-primary\">Go</a>" := by
  have h := C9_theorem (toL "Go") (toL "/contact")
    (by decide) (by decide) (by decide) (by decide)
    (by decide) (by decide) (by decide) (by decide)
  constructor
  · rw [show (toL " title=\"Go\" link=\"url:/contact|title:Contact\"") =
      toL " title=\"" ++ toL "Go" ++ toL "\" link=\"url:" ++ toL "/contact" ++
        toL "|title:Contact\"" from by decide]
    rw [h.1]
    decide
  · rw [show (toL " title=\"Go\"") = toL " title=\"" ++ toL "Go" ++ toL "\"" from by decide]
    rw [h.2]
    decide

/-! ## Claim C10: truncated scan names for hyphenated macros -/

theorem firstM_litHead_nil {c : Char} (p : Pat) :
    firstM (.simple (.lit c) :: p) [] = none := by
  simp [firstM, matchP, sAlts]

theorem firstM_litHead_ne {c d : Char} {p : Pat} (s : List Char) (h : d ≠ c) :
    firstM (.simple (.lit c) :: p) (d :: s) = none := by
  simp [firstM, matchP, sAlts, h]

theorem matchP_litsP_only_none {w : List Char} {s : List Char}
    (hpre : w.isPrefixOf s = false) : matchP (litsP w) s = [] := by
  cases hm : matchP (litsP w) s with
  | nil => rfl
  | cons m t =>
      exfalso
      have hshape := matchP_litsP_shape (show m ∈ matchP (litsP w) s by rw [hm]; simp)
      rw [hshape.2.2] at hpre
      rw [isPrefixOf_append_self] at hpre
      simp at hpre

theorem firstM_lit_cont_none {c : Char} {pR : Pat} {rest : List Char}
    (hm : matchP pR rest = []) :
    firstM (.simple (.lit c) :: pR) (c :: rest) = none := by
  unfold firstM
  simp only [matchP]
  rw [show sAlts (SItem.lit c) (c :: rest) = [([c], rest)] from by simp [sAlts]]
  simp [hm]

/-- No match of a `[`-literal-headed pattern anywhere in `c :: rest` when
the continuation fails at the head and `c` does not recur. -/
theorem scOpen_noMatch {c : Char} {pR : Pat} {rest : List Char}
    (hm : matchP pR rest = []) (hc : c ∉ rest) :
    ∀ i, firstM (.simple (.lit c) :: pR) (List.drop i (c :: rest)) = none := by
  intro i
  cases i with
  | zero => simpa using firstM_lit_cont_none hm
  | succ i =>
      simp only [List.drop_succ_cons]
      cases hd : rest.drop i with
      | nil => exact firstM_litHead_nil _
      | cons d s' =>
          have hdm : d ∈ rest := List.drop_subset _ _ (by rw [hd]; simp)
          exact firstM_litHead_ne _ (fun hdc => hc (hdc ▸ hdm))

theorem subOF_id_of_noMatch (p : Pat) (f : List (List Char) → Option (List Char)) :
    ∀ n s, (∀ i, firstM p (List.drop i s) = none) → subOF p f n s = some s := by
  intro n
  induction n with
  | zero => intro s _; rfl
  | succ n ih =>
      intro s h
      have h0 := h 0
      simp only [List.drop_zero] at h0
      cases s with
      | nil => simp [subOF, h0]
      | cons d s' =>
          simp only [subOF, h0]
          rw [ih s' (fun i => by simpa using h (i + 1))]
          rfl

theorem pySub_scOpen_id {c : Char} {pR : Pat} {tmpl : List TItem} {rest : List Char}
    (hm : matchP pR rest = []) (hc : c ∉ rest) :
    pySub (.simple (.lit c) :: pR) tmpl (c :: rest) = c :: rest :=
  subTF_id_of_noMatch _ _ _ _ (scOpen_noMatch hm hc)

theorem pySubF_scOpen_id {c : Char} {pR : Pat} {f : List (List Char) → List Char}
    {rest : List Char} (hm : matchP pR rest = []) (hc : c ∉ rest) :
    pySubF (.simple (.lit c) :: pR) f (c :: rest) = c :: rest :=
  subTF_id_of_noMatch _ _ _ _ (scOpen_noMatch hm hc)

theorem pySubO_scOpen_id {c : Char} {pR : Pat} {f : List (List Char) → Option (List Char)}
    {rest : List Char} (hm : matchP pR rest = []) (hc : c ∉ rest) :
    pySubO (.simple (.lit c) :: pR) f (c :: rest) = some (c :: rest) :=
  subOF_id_of_noMatch _ _ _ _ (scOpen_noMatch hm hc)

theorem scanF_step_match {p : Pat} {s : List Char} {c : List Char}
    {g : List (List Char)} {r : List Char}
    (h : firstM p s = some (c, g, r)) (hc : c ≠ []) (n : Nat) :
    scanF p (n + 1) s = g.getD 0 [] :: scanF p n r := by
  simp only [scanF, h]
  rw [if_neg (by simpa [List.isEmpty_iff] using hc)]

theorem scanF_step_none {p : Pat} {d : Char} {s : List Char}
    (h : firstM p (d :: s) = none) (n : Nat) :
    scanF p (n + 1) (d :: s) = scanF p n s := by
  simp [scanF, h]

theorem scanF_fuel_aux {p : Pat} :
    ∀ len s n m, s.length = len → s.length < n → s.length < m →
      scanF p n s = scanF p m s := by
  intro len
  induction len using Nat.strong_induction_on with
  | _ len ih =>
      intro s n m hlen hn hm
      subst hlen
      cases n with
      | zero => omega
      | succ n =>
          cases m with
          | zero => omega
          | succ m =>
              cases hfm : firstM p s with
              | some tr =>
                  obtain ⟨c, g, r⟩ := tr
                  by_cases hc : c = []
                  · subst hc
                    cases s with
                    | nil => simp [scanF, hfm]
                    | cons d s' =>
                        have h1 : scanF p (n + 1) (d :: s') =
                            g.getD 0 [] :: scanF p n s' := by simp [scanF, hfm]
                        have h2 : scanF p (m + 1) (d :: s') =
                            g.getD 0 [] :: scanF p m s' := by simp [scanF, hfm]
                        rw [h1, h2, ih s'.length (by simp) s' n m rfl
                          (by simp at hn; omega) (by simp at hm; omega)]
                  · have hr := firstM_consumed_ne_nil hfm hc
                    rw [scanF_step_match hfm hc, scanF_step_match hfm hc,
                      ih r.length (by omega) r n m rfl (by omega) (by omega)]
              | none =>
                  cases s with
                  | nil => simp [scanF, hfm]
                  | cons d s' =>
                      rw [scanF_step_none hfm, scanF_step_none hfm,
                        ih s'.length (by simp) s' n m rfl (by simp at hn; omega)
                          (by simp at hm; omega)]

theorem scanF_fuel {p : Pat} (s : List Char) (n m : Nat)
    (hn : s.length < n) (hm : s.length < m) : scanF p n s = scanF p m s :=
  scanF_fuel_aux s.length s n m rfl hn hm

theorem pyScan_step_match {p : Pat} {s : List Char} {c : List Char}
    {g : List (List Char)} {r : List Char}
    (h : firstM p s = some (c, g, r)) (hc : c ≠ []) :
    pyScan p s = g.getD 0 [] :: pyScan p r := by
  unfold pyScan
  rw [scanF_step_match h hc]
  congr 1
  exact scanF_fuel r s.length (r.length + 1) (firstM_consumed_ne_nil h hc)
    (Nat.lt_succ_self _)

theorem pyScan_nil {p : Pat} (h : firstM p [] = none) : pyScan p [] = [] := by
  unfold pyScan
  simp [scanF, h]

/-- Claim C10: the tracking pass's pattern captures only the leading
word-character run of a macro name.  For every attribute text (no brackets
inside) and registry not yet holding it, scanning `[contact-form-7 ...]`
records the truncated name `contact`, which is outside the known
vocabulary, even though the full name is rewritten by its own rule — so
`convert_vc_shortcodes` returns a registry extended with `contact`. -/
theorem C10_theorem (attrs : List Char) (reg : List (List Char))
    (hrb : ']' ∉ attrs) (hlb : '[' ∉ attrs) (hreg : toL "contact" ∉ reg) :
    pyScan pScanSc ('[' :: (toL "contact-form-7" ++ (attrs ++ [']']))) = [toL "contact"] ∧
    knownShortcodes.contains (toL "contact") = false ∧
    (∃ out, convert_vc_shortcodes ('[' :: (toL "contact-form-7" ++ (attrs ++ [']']))) reg =
      some (out, reg ++ [toL "contact"])) := by
  have hcR : '[' ∉ toL "contact-form-7" ++ (attrs ++ [']']) := by
    intro h
    rcases List.mem_append.mp h with h | h
    · exact absurd h (by decide)
    · rcases List.mem_append.mp h with h | h
      · exact hlb h
      · exact absurd h (by decide)
  -- the single scan match covering the whole macro
  have hGrp : (matchS [SItem.plus isWordC]
      (toL "contact" ++ '-' :: (toL "form-7" ++ (attrs ++ [']'])))).head? =
      some (toL "contact", '-' :: (toL "form-7" ++ (attrs ++ [']']))) := by
    have htw := takeWhile_all_append (f := isWordC) (w := toL "contact") (q := '-')
      (by decide) (by decide) (toL "form-7" ++ (attrs ++ [']']))
    have := matchS_cons_head
      (sAlts_plus_head (f := isWordC)
        (s := toL "contact" ++ '-' :: (toL "form-7" ++ (attrs ++ [']'])))
        (by rw [htw.1]; decide))
      (matchS_nil_head _)
    rw [htw.1, htw.2] at this
    simpa using this
  have hall2 : ∀ c ∈ '-' :: (toL "form-7" ++ attrs), neC ']' c = true := by
    intro c hc
    rcases List.mem_cons.mp hc with rfl | hc
    · decide
    · rcases List.mem_append.mp hc with hc | hc
      · exact (by decide : ∀ c ∈ toL "form-7", neC ']' c = true) c hc
      · simp [neC]
        rintro rfl
        exact hrb hc
  have htw2 := takeWhile_all_append (q := ']') hall2 (by decide) ([] : List Char)
  have hstar : (sAlts (.star (neC ']') true)
      (('-' :: (toL "form-7" ++ attrs)) ++ ']' :: [])).head? =
      some ('-' :: (toL "form-7" ++ attrs), [']']) := by
    have := sAlts_star_head (neC ']') (('-' :: (toL "form-7" ++ attrs)) ++ ']' :: [])
    rw [htw2.1, htw2.2] at this
    exact this
  have hrbkt : firstM [iLit ']'] (']' :: []) = some ([']'], [], []) := by
    have := firstM_cons_simple (p := []) (sAlts_lit_head ']' []) (firstM_nil [])
    simpa using this
  have hAfter : firstM [iStar (neC ']'), iLit ']']
      ('-' :: (toL "form-7" ++ (attrs ++ [']']))) =
      some (('-' :: (toL "form-7" ++ attrs)) ++ [']'], [], []) := by
    have := firstM_cons_simple hstar hrbkt
    simpa using this
  have hGrpStep : firstM [Item.group [SItem.plus isWordC], iStar (neC ']'), iLit ']']
      (toL "contact-form-7" ++ (attrs ++ [']'])) =
      some (toL "contact" ++ (('-' :: (toL "form-7" ++ attrs)) ++ [']']),
        [toL "contact"], []) := by
    have := firstM_cons_group hGrp hAfter
    exact this
  have h_scan : firstM pScanSc ('[' :: (toL "contact-form-7" ++ (attrs ++ [']']))) =
      some ('[' :: (toL "contact" ++ (('-' :: (toL "form-7" ++ attrs)) ++ [']'])),
        [toL "contact"], []) := by
    have := firstM_cons_simple
      (sAlts_lit_head '[' (toL "contact-form-7" ++ (attrs ++ [']']))) hGrpStep
    simpa using this
  have hscan2 : pyScan pScanSc ('[' :: (toL "contact-form-7" ++ (attrs ++ [']']))) =
      [toL "contact"] := by
    rw [pyScan_step_match h_scan (by simp)]
    rw [show pyScan pScanSc [] = [] from pyScan_nil (firstM_litHead_nil _)]
    rfl
  refine ⟨hscan2, by decide, ?_⟩
  -- the registry fold adds exactly the truncated name
  have hregF : (pyScan pScanSc ('[' :: (toL "contact-form-7" ++ (attrs ++ [']'])))).foldl
      addUnknown reg = reg ++ [toL "contact"] := by
    rw [hscan2]
    show addUnknown reg (toL "contact") = reg ++ [toL "contact"]
    unfold addUnknown
    rw [if_neg (by decide), if_neg (by simp [hreg])]
  -- the rewrite chain cannot fail on this content
  have h1 : pySub (pSc "vc_row") (tLit (toL "<section class=\"content-section\">"))
      ('[' :: (toL "contact-form-7" ++ (attrs ++ [']']))) =
      '[' :: (toL "contact-form-7" ++ (attrs ++ [']'])) :=
    pySub_scOpen_id (matchP_litsP_none (isPrefixOf_cons_ne (by decide) _ _) _) hcR
  have h2 : pySub (pScClose "vc_row") (tLit (toL "</section>"))
      ('[' :: (toL "contact-form-7" ++ (attrs ++ [']']))) =
      '[' :: (toL "contact-form-7" ++ (attrs ++ [']'])) :=
    pySub_scOpen_id (matchP_litsP_only_none (isPrefixOf_cons_ne (by decide) _ _)) hcR
  have h3 : pySub (pSc "vc_row_inner") (tLit (toL "<div class=\"row-inner\">"))
      ('[' :: (toL "contact-form-7" ++ (attrs ++ [']']))) =
      '[' :: (toL "contact-form-7" ++ (attrs ++ [']'])) :=
    pySub_scOpen_id (matchP_litsP_none (isPrefixOf_cons_ne (by decide) _ _) _) hcR
  have h4 : pySub (pScClose "vc_row_inner") (tLit (toL "</div>"))
      ('[' :: (toL "contact-form-7" ++ (attrs ++ [']']))) =
      '[' :: (toL "contact-form-7" ++ (attrs ++ [']'])) :=
    pySub_scOpen_id (matchP_litsP_only_none (isPrefixOf_cons_ne (by decide) _ _)) hcR
  have h5 : pySubO (pScG "vc_column") (fun g => convert_column (grp1 g))
      ('[' :: (toL "contact-form-7" ++ (attrs ++ [']']))) =
      some ('[' :: (toL "contact-form-7" ++ (attrs ++ [']']))) :=
    pySubO_scOpen_id (matchP_litsP_none (isPrefixOf_cons_ne (by decide) _ _) _) hcR
  have h6 : pySub (pScClose "vc_column") (tLit (toL "</div>"))
      ('[' :: (toL "contact-form-7" ++ (attrs ++ [']']))) =
      '[' :: (toL "contact-form-7" ++ (attrs ++ [']'])) :=
    pySub_scOpen_id (matchP_litsP_only_none (isPrefixOf_cons_ne (by decide) _ _)) hcR
  have h7 : pySubO (pScG "vc_column_inner") (fun g => convert_column (grp1 g))
      ('[' :: (toL "contact-form-7" ++ (attrs ++ [']']))) =
      some ('[' :: (toL "contact-form-7" ++ (attrs ++ [']']))) :=
    pySubO_scOpen_id (matchP_litsP_none (isPrefixOf_cons_ne (by decide) _ _) _) hcR
  have hbody : ∃ out, convert_vc_body ('[' :: (toL "contact-form-7" ++ (attrs ++ [']']))) =
      some out := by
    unfold convert_vc_body
    simp only [h1, h2, h3, h4, h5, h6, h7]
    exact ⟨_, rfl⟩
  obtain ⟨out, hout⟩ := hbody
  refine ⟨out, ?_⟩
  unfold convert_vc_shortcodes
  rw [if_neg (by simp)]
  rw [hout, Option.map_some']
  rw [hregF]

/-- Witness for C10: scanning `[contact-form-7 id="77"]` records the
truncated name `contact` in the registry. -/
theorem C10_theorem_witness :
    pyScan pScanSc (toL "[contact-form-7 id=\"77\"]") = [toL "contact"] ∧
    knownShortcodes.contains (toL "contact") = false ∧
    (∃ out, convert_vc_shortcodes (toL "[contact-form-7 id=\"77\"]") [] =
      some (out, [toL "contact"])) := by
  have h := C10_theorem (toL " id=\"77\"") [] (by decide) (by decide) (by decide)
  rw [show toL "[contact-form-7 id=\"77\"]" =
    '[' :: (toL "contact-form-7" ++ (toL " id=\"77\"" ++ [']'])) from by decide]
  exact h

/-! ## Claim C1: idempotency of the HTML→Markdown conversion -/

theorem containsSeq_tail_false {u : List Char} {d : Char} {s : List Char}
    (h : containsSeq u (d :: s) = false) : containsSeq u s = false := by
  cases hcs : containsSeq u s with
  | false => rfl
  | true =>
      rw [containsSeq_cons_of d hcs] at h
      exact absurd h (by simp)

theorem lit_mem_litsP {c : Char} {w : List Char} (h : c ∈ w) :
    Item.simple (SItem.lit c) ∈ litsP w :=
  List.mem_map_of_mem _ h

theorem splitsAsc_mem_fst {r : List Char} :
    ∀ {w : List Char} {p : List Char × List Char}, p ∈ splitsAsc w r →
      ∃ t, w = p.1 ++ t := by
  intro w
  induction w with
  | nil =>
      intro p hp
      simp only [splitsAsc, List.mem_singleton] at hp
      exact ⟨[], by simp [hp]⟩
  | cons c w ih =>
      intro p hp
      simp only [splitsAsc, List.mem_cons, List.mem_map] at hp
      rcases hp with h | ⟨q, hq, hpq⟩
      · exact ⟨c :: w, by simp [h]⟩
      · obtain ⟨t, ht⟩ := ih hq
        exact ⟨t, by rw [← hpq]; simp [ht]⟩

theorem sAlts_plus_mem_shape {f : Char → Bool} {s : List Char}
    {pr : List Char × List Char} (h : pr ∈ sAlts (.plus f) s) :
    pr.1 ≠ [] ∧ ∀ c ∈ pr.1, f c = true := by
  simp only [sAlts] at h
  have h1 := List.mem_filter.mp h
  refine ⟨by simpa using h1.2, ?_⟩
  have h2 := List.mem_reverse.mp h1.1
  obtain ⟨t, ht⟩ := splitsAsc_mem_fst h2
  intro c hc
  have : c ∈ s.takeWhile f := by rw [ht]; exact List.mem_append_left _ hc
  exact List.mem_takeWhile_imp this

/-- Every match of `\n +` contains newline-space. -/
theorem matchP_NLsp_contains {s : List Char} {m}
    (hm : m ∈ matchP pNLsp s) : containsSeq (toL "\n ") m.1 = true := by
  rw [show pNLsp = Item.simple (SItem.lit '\n') ::
    [Item.simple (SItem.plus (eqC ' '))] from rfl] at hm
  simp only [matchP] at hm
  obtain ⟨u, hu, hmem⟩ := List.mem_flatMap.mp hm
  obtain ⟨q, hq, hqe⟩ := List.mem_map.mp hmem
  obtain ⟨v, hv, hmem2⟩ := List.mem_flatMap.mp hq
  obtain ⟨t, ht, hte⟩ := List.mem_map.mp hmem2
  have ht' : t = ([], [], v.2) := by simpa using ht
  have hu1 : u.1 = ['\n'] := sAlts_lit_mem hu
  obtain ⟨hvne, hvall⟩ := sAlts_plus_mem_shape hv
  rw [← hqe]
  show containsSeq (toL "\n ") (u.1 ++ q.1) = true
  rw [← hte]
  show containsSeq (toL "\n ") (u.1 ++ (v.1 ++ t.1)) = true
  rw [hu1, ht']
  cases hv1 : v.1 with
  | nil => exact absurd hv1 hvne
  | cons a vr =>
      have ha : a = ' ' := by
        have := hvall a (by rw [hv1]; simp)
        simpa [eqC] using this
      subst ha
      refine containsSeq_of_isPrefixOf ?_
      simp [List.isPrefixOf]

/-- Every match of ` +\n` contains space-newline. -/
theorem matchP_SpNL_contains {s : List Char} {m}
    (hm : m ∈ matchP pSpNL s) : containsSeq (toL " \n") m.1 = true := by
  rw [show pSpNL = Item.simple (SItem.plus (eqC ' ')) ::
    [Item.simple (SItem.lit '\n')] from rfl] at hm
  simp only [matchP] at hm
  obtain ⟨v, hv, hmem⟩ := List.mem_flatMap.mp hm
  obtain ⟨q, hq, hqe⟩ := List.mem_map.mp hmem
  obtain ⟨u, hu, hmem2⟩ := List.mem_flatMap.mp hq
  obtain ⟨t, ht, hte⟩ := List.mem_map.mp hmem2
  have ht' : t = ([], [], u.2) := by simpa using ht
  have hu1 : u.1 = ['\n'] := sAlts_lit_mem hu
  obtain ⟨hvne, hvall⟩ := sAlts_plus_mem_shape hv
  rw [← hqe]
  show containsSeq (toL " \n") (v.1 ++ q.1) = true
  rw [← hte]
  show containsSeq (toL " \n") (v.1 ++ (u.1 ++ t.1)) = true
  rw [hu1, ht']
  have : ∀ c ∈ v.1, c = ' ' := fun c hc => by simpa [eqC] using hvall c hc
  have hgen : ∀ (run tl : List Char), run ≠ [] → (∀ c ∈ run, c = ' ') →
      containsSeq (toL " \n") (run ++ '\n' :: tl) = true := by
    intro run
    induction run with
    | nil => intro _ h _; exact absurd rfl h
    | cons a run ih =>
        intro tl _ hall
        have ha : a = ' ' := hall a (by simp)
        subst ha
        cases run with
        | nil => exact containsSeq_of_isPrefixOf (by simp [List.isPrefixOf])
        | cons b run' =>
            exact containsSeq_cons_of _ (ih tl (by simp) (fun c hc => hall c (by simp [hc])))
  exact hgen v.1 [] hvne this

/-- Every match of `\n{3,}` contains three newlines. -/
theorem matchP_NL3_contains {s : List Char} {m}
    (hm : m ∈ matchP pNL3 s) : containsSeq (toL "\n\n\n") m.1 = true := by
  rw [show pNL3 = Item.simple (SItem.lit '\n') :: Item.simple (SItem.lit '\n') ::
    Item.simple (SItem.lit '\n') :: [Item.simple (SItem.star (eqC '\n') true)] from rfl] at hm
  simp only [matchP] at hm
  obtain ⟨a, ha, hmem⟩ := List.mem_flatMap.mp hm
  obtain ⟨q, hq, hqe⟩ := List.mem_map.mp hmem
  obtain ⟨b, hb, hmem2⟩ := List.mem_flatMap.mp hq
  obtain ⟨q2, hq2, hq2e⟩ := List.mem_map.mp hmem2
  obtain ⟨c, hc, hmem3⟩ := List.mem_flatMap.mp hq2
  obtain ⟨q3, hq3, hq3e⟩ := List.mem_map.mp hmem3
  have ha1 : a.1 = ['\n'] := sAlts_lit_mem ha
  have hb1 : b.1 = ['\n'] := sAlts_lit_mem hb
  have hc1 : c.1 = ['\n'] := sAlts_lit_mem hc
  rw [← hqe]
  show containsSeq (toL "\n\n\n") (a.1 ++ q.1) = true
  rw [← hq2e]
  show containsSeq (toL "\n\n\n") (a.1 ++ (b.1 ++ q2.1)) = true
  rw [← hq3e]
  show containsSeq (toL "\n\n\n") (a.1 ++ (b.1 ++ (c.1 ++ q3.1))) = true
  rw [ha1, hb1, hc1]
  refine containsSeq_of_isPrefixOf ?_
  simp [List.isPrefixOf]

theorem firstM_pHTrun_nil : firstM pHTrun [] = none := by
  simp [pHTrun, iPlus, firstM, matchP, sAlts, splitsAsc]

theorem firstM_pHTrun_none {d : Char} {s : List Char} (hd : isHT d = false) :
    firstM pHTrun (d :: s) = none := by
  simp [pHTrun, iPlus, firstM, matchP, sAlts, List.takeWhile_cons, List.dropWhile_cons,
    hd, splitsAsc]

theorem firstM_pHTrun_space {s : List Char} (hs : s.takeWhile isHT = []) :
    firstM pHTrun (' ' :: s) = some ([' '], [], s) := by
  have hds : s.dropWhile isHT = s := by
    refine dropWhile_eq_self_of_head (fun c hc => ?_)
    cases s with
    | nil => simp at hc
    | cons e s' =>
        simp only [List.head?_cons, Option.some_inj] at hc
        rw [← hc]
        rw [List.takeWhile_cons] at hs
        cases he : isHT e with
        | false => rfl
        | true => rw [he] at hs; simp at hs
  have h1 : (' ' :: s).takeWhile isHT = [' '] := by
    rw [List.takeWhile_cons]
    simp [hs, isHT]
  have h2 : (' ' :: s).dropWhile isHT = s := by
    rw [List.dropWhile_cons]
    simp [hds, isHT]
  have := firstM_cons_simple (p := [])
    (sAlts_plus_head (f := isHT) (s := ' ' :: s) (by rw [h1]; simp)) (firstM_nil _)
  rw [h1, h2] at this
  simpa using this

/-- The `[ \t]+ → ' '` collapse is the identity on text with no tab and no
double space: every run it rewrites is a single space replaced by itself. -/
theorem pySub_pHTrun_id : ∀ {s : List Char}, '\t' ∉ s →
    containsSeq (toL "  ") s = false → pySub pHTrun (tLit (toL " ")) s = s := by
  intro s
  induction s with
  | nil => intro _ _; exact pySub_nil _ _ firstM_pHTrun_nil
  | cons d s' ih =>
      intro ht hss
      have ht' : '\t' ∉ s' := fun h => ht (List.mem_cons_of_mem _ h)
      have hss' := containsSeq_tail_false hss
      by_cases hd : isHT d = true
      · have hd' : d = ' ' := by
          have hor : d = ' ' ∨ d = '\t' := by simpa [isHT] using hd
          rcases hor with h | h
          · exact h
          · exact absurd (h ▸ List.mem_cons_self _ _) ht
        subst hd'
        have htk : s'.takeWhile isHT = [] := by
          cases s' with
          | nil => rfl
          | cons e s'' =>
              rw [List.takeWhile_cons]
              have he : isHT e = false := by
                cases hhe : isHT e with
                | false => rfl
                | true =>
                    exfalso
                    have hor : e = ' ' ∨ e = '\t' := by simpa [isHT] using hhe
                    rcases hor with rfl | rfl
                    · have hcs : containsSeq (toL "  ") (' ' :: ' ' :: s'') = true :=
                        containsSeq_of_isPrefixOf (by simp [List.isPrefixOf])
                      rw [hcs] at hss
                      exact absurd hss (by simp)
                    · exact ht (by simp)
              simp [he]
        rw [pySub_step_match (firstM_pHTrun_space htk) (by simp)]
        rw [ih ht' hss']
        rfl
      · rw [pySub_step_none (firstM_pHTrun_none (by simpa using hd))]
        rw [ih ht' hss']

/-- All tag-conversion stages are the identity on text without `<`, `{`
and `/*`: every pattern they use holds a literal `<` or `{`. -/
theorem tagStages_id {s : List Char} (hlt : '<' ∉ s) (hbo : '{' ∉ s)
    (hcc : containsSeq (toL "/*") s = false) : tagStages s = s := by
  have hgen : ∀ {p : Pat}, Item.simple (SItem.lit '<') ∈ p →
      ∀ tmpl, pySub p tmpl s = s :=
    fun hm tmpl => pySub_id_hasLit hm hlt
  have hgenB : ∀ {p : Pat}, Item.simple (SItem.lit '{') ∈ p →
      ∀ tmpl, pySub p tmpl s = s :=
    fun hm tmpl => pySub_id_hasLit hm hbo
  simp only [tagStages, removeCComments_id hcc,
    hgen (p := pComment) (by simp [pComment, litsP, toL]),
    hgen (p := pStyle) (by simp [pStyle, litsP, toL]),
    hgen (p := pScript) (by simp [pScript, litsP, toL]),
    hgenB (p := pElementor) (by simp [pElementor, litsP, toL, iLit]),
    hgenB (p := pCssSel) (by simp [pCssSel, iLit]),
    hgen (p := pTagWrap (toL "h1")) (by simp [pTagWrap, litsP]),
    hgen (p := pTagWrap (toL "h2")) (by simp [pTagWrap, litsP]),
    hgen (p := pTagWrap (toL "h3")) (by simp [pTagWrap, litsP]),
    hgen (p := pTagWrap (toL "h4")) (by simp [pTagWrap, litsP]),
    hgen (p := pTagWrap (toL "h5")) (by simp [pTagWrap, litsP]),
    hgen (p := pTagWrap (toL "h6")) (by simp [pTagWrap, litsP]),
    hgen (p := pTagWrap (toL "p")) (by simp [pTagWrap, litsP]),
    hgen (p := pAnchor) (by simp [pAnchor, litsP, toL]),
    hgen (p := pTagWrap (toL "strong")) (by simp [pTagWrap, litsP]),
    hgen (p := pTagWrap (toL "b")) (by simp [pTagWrap, litsP]),
    hgen (p := pTagWrap (toL "em")) (by simp [pTagWrap, litsP]),
    hgen (p := pTagWrap (toL "i")) (by simp [pTagWrap, litsP]),
    hgen (p := pTagWrap (toL "blockquote")) (by simp [pTagWrap, litsP]),
    hgen (p := pTagWrap (toL "li")) (by simp [pTagWrap, litsP]),
    hgen (p := pUlOpen) (by simp [pUlOpen, litsP, toL]),
    hgen (p := litsP (toL "</ul>")) (by simp [litsP, toL]),
    hgen (p := pOlOpen) (by simp [pOlOpen, litsP, toL]),
    hgen (p := litsP (toL "</ol>")) (by simp [litsP, toL]),
    hgen (p := pImgFull) (by simp [pImgFull, litsP, toL]),
    hgen (p := pImgSrc) (by simp [pImgSrc, litsP, toL]),
    hgen (p := pBr) (by simp [pBr, litsP, toL]),
    hgen (p := pHr) (by simp [pHr, litsP, toL]),
    hgen (p := pAnyTag) (by simp [pAnyTag, iLit])]

/-- The whitespace cleanup chain is the identity on text with no triple
newline, tab, double space, space after newline or space before newline. -/
theorem wsCleanup_id {s : List Char} (h3 : containsSeq (toL "\n\n\n") s = false)
    (htb : '\t' ∉ s) (h2 : containsSeq (toL "  ") s = false)
    (hns : containsSeq (toL "\n ") s = false)
    (hsn : containsSeq (toL " \n") s = false) :
    wsCleanup s = s := by
  unfold wsCleanup
  have e1 : pySub pNL3 (tLit (toL "\n\n")) s = s := by
    unfold pySub
    exact subTF_id_of_contain (fun s' m hm => matchP_NL3_contains hm) _ h3 _
  rw [e1]
  rw [pySub_pHTrun_id htb h2]
  have e3 : pySub pNLsp (tLit (toL "\n")) s = s := by
    unfold pySub
    exact subTF_id_of_contain (fun s' m hm => matchP_NLsp_contains hm) _ hns _
  rw [e3]
  unfold pySub
  exact subTF_id_of_contain (fun s' m hm => matchP_SpNL_contains hm) _ hsn _

/-- On already-clean text the whole conversion reduces to Python's
`strip()`. -/
theorem html_to_markdown_strip {s : List Char}
    (hlt : '<' ∉ s) (hamp : '&' ∉ s) (hbo : '{' ∉ s) (hbc : '}' ∉ s) (htb : '\t' ∉ s)
    (hcc : containsSeq (toL "/*") s = false)
    (h3 : containsSeq (toL "\n\n\n") s = false)
    (h2 : containsSeq (toL "  ") s = false)
    (hns : containsSeq (toL "\n ") s = false)
    (hsn : containsSeq (toL " \n") s = false) :
    html_to_markdown s = pyStrip s := by
  unfold html_to_markdown
  by_cases hse : s.isEmpty
  · rw [if_pos hse, List.isEmpty_iff.mp hse]
    rfl
  · rw [if_neg hse]
    rw [tagStages_id hlt hbo hcc, htmlUnescape_id hamp]
    have hesc : escapeBraces s = s := by
      unfold escapeBraces
      rw [show pyReplace (toL "\x7b") (toL "&#123;") s = s from pyReplace_single_id hbo]
      exact pyReplace_single_id hbc
    rw [hesc, wsCleanup_id h3 htb h2 hns hsn]

/-- Claim C1 (counterexample): the conversion is NOT idempotent.  A
double-escaped entity decodes once per pass: `&amp;amp;` becomes `&amp;`
after one pass and `&` after two. -/
theorem C1_counterexample :
    html_to_markdown (toL "&amp;amp;") = toL "&amp;" ∧
    html_to_markdown (html_to_markdown (toL "&amp;amp;")) = toL "&" ∧
    html_to_markdown (html_to_markdown (toL "&amp;amp;")) ≠
      html_to_markdown (toL "&amp;amp;") := by
  refine ⟨by decide, by decide, by decide⟩

/-- Claim C1 (amended): `html_to_markdown` is idempotent on every text
free of the characters its stages rewrite — no `<`, `&`, `{`, `}`, tab,
`/*`, triple newline, double space, and no space adjacent to a newline.
On such text one pass is exactly `strip()`, whose hypotheses survive the
pass, and `strip()` is idempotent.  (On general text idempotency fails:
see the counterexample.) -/
theorem C1_amended (s : List Char)
    (hlt : '<' ∉ s) (hamp : '&' ∉ s) (hbo : '{' ∉ s) (hbc : '}' ∉ s) (htb : '\t' ∉ s)
    (hcc : containsSeq (toL "/*") s = false)
    (h3 : containsSeq (toL "\n\n\n") s = false)
    (h2 : containsSeq (toL "  ") s = false)
    (hns : containsSeq (toL "\n ") s = false)
    (hsn : containsSeq (toL " \n") s = false) :
    html_to_markdown (html_to_markdown s) = html_to_markdown s := by
  have h1 := html_to_markdown_strip hlt hamp hbo hbc htb hcc h3 h2 hns hsn
  rw [h1]
  have hP : ∀ {u : List Char}, containsSeq u s = false →
      containsSeq u (pyStrip s) = false := by
    intro u hu
    cases hc : containsSeq u (pyStrip s) with
    | false => rfl
    | true => rw [containsSeq_pyStrip_mono hc] at hu; exact absurd hu (by simp)
  have hstep := html_to_markdown_strip (notMem_pyStrip hlt) (notMem_pyStrip hamp)
    (notMem_pyStrip hbo) (notMem_pyStrip hbc) (notMem_pyStrip htb)
    (hP hcc) (hP h3) (hP h2) (hP hns) (hP hsn)
  rw [hstep, pyStrip_idem]

/-- Witness for the amended C1 theorem on a clean text. -/
theorem C1_amended_witness :
    html_to_markdown (html_to_markdown (toL "Hello World.\nBye")) =
      html_to_markdown (toL "Hello World.\nBye") :=
  C1_amended (toL "Hello World.\nBye") (by decide) (by decide) (by decide) (by decide)
    (by decide) (by decide) (by decide) (by decide) (by decide) (by decide)

end WPT
